import Mathlib

/-!
# Verification of the tile / collider / kinematic core of `bevy-demo`

This file gives a shallow embedding, over exact rational arithmetic, of the
spatial core of the repository:

* `src/game/tile/data.rs` — `TileLayerConfig` (coordinate math, `step_ray`,
  `step_ray_tiles`), `TileWorld` / `TileChunk` (sparse chunk map, neighbor
  links, `chunk_or_create`, `remove_from_world`);
* `src/game/tile/collider.rs` — `TrackedColliderChunk` (parallel `aabbs` /
  `handles` sequences with swap-remove), `WorldColliders::collisions`
  (chunk broad-phase with a fixed 10-unit margin);
* `src/game/tile/material.rs` — `MaterialCache::get`;
* `src/game/tile/kinematic.rs` — `KinematicApi::iter_colliders_in` and
  `KinematicApi::move_by` (per-axis swept resolution with `TOLERANCE`).

Modelling conventions:

* `f32` values are embedded as `ℚ`.  All arithmetic the algorithms perform
  (addition, multiplication, comparison, floor division) is exact both for
  the embedding and for the claims' concrete inputs, so no rounding concerns
  arise at the inputs where theorems are evaluated.
* Euclidean vector length (used by `step_ray` for crossing distances and by
  `step_ray_tiles` for ray normalisation) is modelled by `Rat.sqrt`, which
  agrees with the real square root whenever that root is rational — in
  particular on every input appearing in the claims.  `step_ray` stores the
  squared distance `distSq`; sorting non-negative distances by `total_cmp`
  is order-equivalent to sorting their squares.
* The helper modules `game/math/aabb.rs`, `game/math/glam.rs`,
  `game/math/scalar.rs` and `util/lang.rs` are not present in the sources;
  definitions taken from them are modelled from the spec and marked
  `Modelled from the spec:` in their doc comments.
* Hash containers (`FxHashMap`, `FxHashSet`) are modelled as association
  lists / first-occurrence deduplicated lists.  Iteration order of a hash
  set is unspecified in the source; every statement proved below is
  insensitive to that order.
-/

namespace BevyDemo

/-- Rational 2-vector, embedding `macroquad::math::Vec2` (`f32` pair). -/
structure Vec2q where
  x : ℚ
  y : ℚ
deriving DecidableEq, Repr

/-- Integer 2-vector, embedding `macroquad::math::IVec2`. -/
structure Vec2i where
  x : ℤ
  y : ℤ
deriving DecidableEq, Repr

instance : Add Vec2q := ⟨fun a b => ⟨a.x + b.x, a.y + b.y⟩⟩
instance : Sub Vec2q := ⟨fun a b => ⟨a.x - b.x, a.y - b.y⟩⟩
instance : Add Vec2i := ⟨fun a b => ⟨a.x + b.x, a.y + b.y⟩⟩

/-- Scalar multiplication `v * s` on rational vectors. -/
def Vec2q.scale (v : Vec2q) (s : ℚ) : Vec2q := ⟨v.x * s, v.y * s⟩

/-- Componentwise division `v / s`. -/
def Vec2q.sdiv (v : Vec2q) (s : ℚ) : Vec2q := ⟨v.x / s, v.y / s⟩

@[simp] theorem Vec2q.add_x (a b : Vec2q) : (a + b).x = a.x + b.x := rfl
@[simp] theorem Vec2q.add_y (a b : Vec2q) : (a + b).y = a.y + b.y := rfl
@[simp] theorem Vec2q.sub_x (a b : Vec2q) : (a - b).x = a.x - b.x := rfl
@[simp] theorem Vec2q.sub_y (a b : Vec2q) : (a - b).y = a.y - b.y := rfl

/-- The two coordinate axes, embedding `Axis2` from `game/math/glam.rs`
(missing from the sources).  Modelled from the spec: the resolver handles
axis X and then axis Y. -/
inductive Axis2 where
  | X
  | Y
deriving DecidableEq, Repr

/-- Iteration order of `Axis2::iter()`: X before Y. -/
def Axis2.iterList : List Axis2 := [Axis2.X, Axis2.Y]

/-- Component of a rational vector on an axis (`Vec2Ext::get_axis`). -/
def Vec2q.getAxis (v : Vec2q) : Axis2 → ℚ
  | Axis2.X => v.x
  | Axis2.Y => v.y

/-- Component of an integer vector on an axis. -/
def Vec2i.getAxis (v : Vec2i) : Axis2 → ℤ
  | Axis2.X => v.x
  | Axis2.Y => v.y

/-- Vector with magnitude `m` on `axis` and `0` on the other axis
(`Axis2::unit_mag`).  Modelled from the spec: "extend the box by … in the
direction of travel". -/
def Axis2.unitMag (axis : Axis2) (m : ℚ) : Vec2q :=
  match axis with
  | Axis2.X => ⟨m, 0⟩
  | Axis2.Y => ⟨0, m⟩

/-- Sign type from `game/math/glam.rs` (missing from the sources). -/
inductive Sign where
  | pos
  | neg
deriving DecidableEq, Repr

/-- Modelled from the spec: `Sign::of_biased` maps `0` to the positive sign
(the bias), negatives to the negative sign. -/
def Sign.ofBiased (v : ℚ) : Sign :=
  if v < 0 then Sign.neg else Sign.pos

/-- Apply a sign to a magnitude (`Sign::unit_mag`). -/
def Sign.applyTo (s : Sign) (m : ℚ) : ℚ :=
  match s with
  | Sign.pos => m
  | Sign.neg => -m

/-- Modelled from the spec: `add_magnitude(v, m)` (from
`game/math/glam.rs`, missing from the sources) grows the magnitude of `v`
by `m` keeping its (biased) sign, so the sweep region is the box extended
by `|delta| + tolerance` in the direction of travel. -/
def addMagnitude (v m : ℚ) : ℚ :=
  if v < 0 then v - m else v + m

/-- Axis-aligned rational box, embedding `Aabb` from `game/math/aabb.rs`
(missing from the sources).  Modelled from the spec: a box is held as its
`min` / `max` corners. -/
structure Aabb where
  min : Vec2q
  max : Vec2q
deriving DecidableEq, Repr

namespace Aabb

/-- Modelled from the spec: `Aabb::new_sized(pos, size)` anchors the box at
`pos` with extent `size`. -/
def newSized (pos size : Vec2q) : Aabb := ⟨pos, pos + size⟩

/-- Modelled from the spec: `Aabb::new_centered(center, size)`. -/
def newCentered (center size : Vec2q) : Aabb :=
  ⟨center - size.scale (1/2), center + size.scale (1/2)⟩

/-- Translation of a box (`Aabb::translated`). -/
def translated (a : Aabb) (by_ : Vec2q) : Aabb := ⟨a.min + by_, a.max + by_⟩

/-- Modelled from the spec: `Aabb::grow(amount)` expands the box by
`amount` on each side (used with `Vec2::splat(10.)` as the broad-phase
margin). -/
def grow (a : Aabb) (amount : Vec2q) : Aabb := ⟨a.min - amount, a.max + amount⟩

/-- Modelled from the spec: `Aabb::translate_extend(rel)` is the hull of
the box and its translate by `rel` — it extends the box by `rel` in the
direction of travel. -/
def translateExtend (a : Aabb) (rel : Vec2q) : Aabb :=
  ⟨a.min + ⟨Min.min rel.x 0, Min.min rel.y 0⟩,
   a.max + ⟨Max.max rel.x 0, Max.max rel.y 0⟩⟩

/-- Modelled from the spec: `Aabb::intersects` is the standard non-strict
axis-aligned box intersection test. -/
def intersects (a b : Aabb) : Bool :=
  decide (a.min.x ≤ b.max.x) && decide (b.min.x ≤ a.max.x) &&
  decide (a.min.y ≤ b.max.y) && decide (b.min.y ≤ a.max.y)

/-- The box's min corner coordinate on an axis. -/
def minOn (a : Aabb) (axis : Axis2) : ℚ := a.min.getAxis axis

/-- The box's max corner coordinate on an axis. -/
def maxOn (a : Aabb) (axis : Axis2) : ℚ := a.max.getAxis axis

end Aabb

/-- Integer box (`AabbI` from `game/math/aabb.rs`, missing from the
sources), holding inclusive min / max tile coordinates as produced by
`TileLayerConfig::actor_aabb_to_tile`. -/
structure AabbI where
  min : Vec2i
  max : Vec2i
deriving DecidableEq, Repr

/-- All integers from `lo` to `hi`, inclusive, ascending. -/
def intRange (lo hi : ℤ) : List ℤ :=
  (List.range (hi + 1 - lo).toNat).map (fun n : ℕ => lo + (n : ℤ))

/-- Modelled from the spec: iteration over all tile coordinates of an
inclusive integer box (`AabbI::inclusive().iter()`), row major. -/
def AabbI.inclusiveIter (r : AabbI) : List Vec2i :=
  (intRange r.min.y r.max.y).flatMap fun y =>
    (intRange r.min.x r.max.x).map fun x => ⟨x, y⟩

theorem mem_intRange {lo hi x : ℤ} : x ∈ intRange lo hi ↔ lo ≤ x ∧ x ≤ hi := by
  unfold intRange
  rw [List.mem_map]
  constructor
  · rintro ⟨n, hn, rfl⟩
    rw [List.mem_range] at hn
    omega
  · rintro ⟨h1, h2⟩
    refine ⟨(x - lo).toNat, ?_, ?_⟩
    · rw [List.mem_range]; omega
    · omega

theorem mem_inclusiveIter {r : AabbI} {t : Vec2i} :
    t ∈ r.inclusiveIter ↔
      r.min.x ≤ t.x ∧ t.x ≤ r.max.x ∧ r.min.y ≤ t.y ∧ t.y ≤ r.max.y := by
  unfold AabbI.inclusiveIter
  simp only [List.mem_flatMap, List.mem_map]
  constructor
  · rintro ⟨y, hy, x, hx, rfl⟩
    have hy' := mem_intRange.mp hy
    have hx' := mem_intRange.mp hx
    exact ⟨hx'.1, hx'.2, hy'.1, hy'.2⟩
  · rintro ⟨h1, h2, h3, h4⟩
    exact ⟨t.y, mem_intRange.mpr ⟨h3, h4⟩, t.x, mem_intRange.mpr ⟨h1, h2⟩,
      rfl⟩

/-- Material id (`MaterialId`, a `u16` newtype; value 0 is "air").  The
embedding uses `ℕ`. -/
abbrev MaterialId := ℕ

/-- `MaterialId::AIR`. -/
def MaterialIdAIR : MaterialId := 0

/-- Entity handles (`bevy_ecs::entity::Entity`), embedded as `ℕ`. -/
abbrev EntityId := ℕ

/-- Embedding of `TileLayerConfig { size, offset }` from
`game/tile/data.rs`.  The `offset` field is carried as in the source; none
of the embedded operations read it (the source functions ignore it too). -/
structure TileLayerConfig where
  size : ℚ
  offset : Vec2q
deriving DecidableEq, Repr

namespace TileLayerConfig

/-- `TileLayerConfig::CHUNK_EDGE`. -/
def CHUNK_EDGE : ℤ := 16

/-- `TileLayerConfig::from_size`. -/
def fromSize (size : ℚ) : TileLayerConfig := ⟨size, ⟨0, 0⟩⟩

/-- `actor_to_tile_axis`: `value.div_euclid(size).floor()`, i.e. the floor
of `value / size` (the source's `div_euclid` on positive `size` already
yields the floored quotient; the trailing `.floor()` is the identity on
it). -/
def actorToTileAxis (c : TileLayerConfig) (_axis : Axis2) (value : ℚ) : ℤ :=
  ⌊value / c.size⌋

/-- `actor_to_tile`. -/
def actorToTile (c : TileLayerConfig) (v : Vec2q) : Vec2i :=
  ⟨c.actorToTileAxis Axis2.X v.x, c.actorToTileAxis Axis2.Y v.y⟩

/-- `actor_aabb_to_tile`. -/
def actorAabbToTile (c : TileLayerConfig) (a : Aabb) : AabbI :=
  ⟨c.actorToTile a.min, c.actorToTile a.max⟩

/-- `tile_to_actor_rect`. -/
def tileToActorRect (c : TileLayerConfig) (t : Vec2i) : Aabb :=
  Aabb.newSized (Vec2q.scale ⟨(t.x : ℚ), (t.y : ℚ)⟩ c.size) ⟨c.size, c.size⟩

/-- `decompose_world_pos`: Euclidean div/mod of a tile coordinate by the
chunk edge, giving the (chunk, local) pair. -/
def decomposeWorldPos (v : Vec2i) : Vec2i × Vec2i :=
  (⟨v.x.ediv CHUNK_EDGE, v.y.ediv CHUNK_EDGE⟩,
   ⟨v.x.emod CHUNK_EDGE, v.y.emod CHUNK_EDGE⟩)

/-- `actor_to_decomposed`. -/
def actorToDecomposed (c : TileLayerConfig) (actor : Vec2q) : Vec2i × Vec2i :=
  decomposeWorldPos (c.actorToTile actor)

end TileLayerConfig

/-- Box center (`Aabb::center`), used to pick a collider's owning chunk. -/
def Aabb.center (a : Aabb) : Vec2q := (a.min + a.max).scale (1/2)

/-- The chunk coordinates covered by a query box, as enumerated by
`WorldColliders::collisions`: every tile coordinate of the box grown by
10 world units on each side, mapped to its chunk and deduplicated (the
source collects them into an `FxHashSet`; the embedding keeps first
occurrences — all statements below are insensitive to the order). -/
def coveredChunks (c : TileLayerConfig) (aabb : Aabb) : List Vec2i :=
  (((c.actorAabbToTile (aabb.grow ⟨10, 10⟩)).inclusiveIter).map
    (fun t => (TileLayerConfig.decomposeWorldPos t).1)).dedup

/-- `AnyCollision` from `game/tile/kinematic.rs`. -/
inductive AnyCollision where
  | Tile (tile : Vec2i) (material : MaterialId) (aabb : Aabb)
  | Collider (entity : EntityId) (aabb : Aabb)
deriving DecidableEq, Repr

/-- `AnyCollision::aabb`. -/
def AnyCollision.aabb : AnyCollision → Aabb
  | AnyCollision.Tile _ _ a => a
  | AnyCollision.Collider _ a => a

/-- Static snapshot of the world state consulted by `KinematicApi`:

* `config` — the tile layer configuration of the bound `TileWorld`;
* `tiles` — `TileWorld::tile` as a total function (absent chunks read as
  air, exactly as in the source);
* `descriptors` — the composition of `MaterialRegistry::lookup` and the
  descriptor cache: the list of unit-space collider boxes attached to a
  material, if any (`MaterialCache::get` returns the attached
  `TileColliderDescriptor`, or `none`);
* `dynColliders` — the contents of all `TrackedColliderChunk`s, flattened
  into `(entity, registered chunk coordinate, box)` triples.  An entry's
  chunk list in the source is exactly the triples carrying that chunk's
  coordinate. -/
structure KinWorld where
  config : TileLayerConfig
  tiles : Vec2i → MaterialId
  descriptors : MaterialId → Option (List Aabb)
  dynColliders : List (EntityId × Vec2i × Aabb)

/-- Result list of `WorldColliders::collisions(aabb)`: visit every covered
chunk of the query grown by the 10-unit margin, and within each chunk yield
the registered colliders whose box intersects the (unexpanded) query. -/
def collisionsList (w : KinWorld) (aabb : Aabb) : List (EntityId × Aabb) :=
  (coveredChunks w.config aabb).flatMap fun cc =>
    w.dynColliders.filterMap fun ec =>
      if ec.2.1 = cc ∧ (ec.2.2.intersects aabb) = true then
        some (ec.1, ec.2.2)
      else none

/-- World-space box of one descriptor sub-box on one tile, as computed by
`iter_colliders_in`: scale the unit-space box by the tile size, then
translate it to the tile's world anchor. -/
def tileWorldBox (c : TileLayerConfig) (t : Vec2i) (b0 : Aabb) : Aabb :=
  (Aabb.mk (b0.min.scale c.size) (b0.max.scale c.size)).translated
    (c.tileToActorRect t).min

/-- The world-space boxes yielded for one scanned tile by
`KinematicApi::iter_colliders_in`: skip air, fetch the cached descriptor,
scale each unit-space box by the tile size, translate it to the tile's
anchor, and keep it if it intersects the checked region. -/
def tileCollidersAt (w : KinWorld) (check : Aabb) (t : Vec2i) :
    List AnyCollision :=
  let material := w.tiles t
  if material = MaterialIdAIR then []
  else
    match w.descriptors material with
    | none => []
    | some aabbs =>
      aabbs.filterMap fun b0 =>
        let b := tileWorldBox w.config t b0
        if b.intersects check then some (AnyCollision.Tile t material b)
        else none

/-- `KinematicApi::iter_colliders_in(check_aabb)` as the list of collisions
it yields, in order: first the tile colliders of every tile coordinate
overlapping the checked box (inclusive on both corners), then the dynamic
collider hits from `WorldColliders::collisions`. -/
def iterCollidersIn (w : KinWorld) (check : Aabb) : List AnyCollision :=
  ((w.config.actorAabbToTile check).inclusiveIter).flatMap
    (tileCollidersAt w check) ++
  (collisionsList w check).map fun ec => AnyCollision.Collider ec.1 ec.2

/-- `KinematicApi::TOLERANCE`. -/
def TOLERANCE : ℚ := 1/100

/-- One iteration of the collider fold inside `KinematicApi::move_by`:
skip filtered-out collisions, compute the absolute gap between the mover's
leading edge and the blocker's facing edge on the axis, subtract the
tolerance, clamp at zero, and lower the pending delta to it. -/
def moveByStep (filter : AnyCollision → Bool) (aabb : Aabb) (axis : Axis2)
    (signedDelta : ℚ) (delta : ℚ) (c : AnyCollision) : ℚ :=
  let colliderAabb := c.aabb
  if filter c then
    let acceptableDelta :=
      |if signedDelta < 0 then
        aabb.minOn axis - colliderAabb.maxOn axis
      else
        colliderAabb.minOn axis - aabb.maxOn axis|
    let acceptableDelta := acceptableDelta - TOLERANCE
    Min.min delta (Max.max acceptableDelta 0)
  else delta

/-- The sweep region checked by one axis pass of `move_by`: the box
extended by `|signed_delta| + TOLERANCE` in the direction of travel. -/
def sweepRegion (aabb : Aabb) (axis : Axis2) (signedDelta : ℚ) : Aabb :=
  aabb.translateExtend (axis.unitMag (addMagnitude signedDelta TOLERANCE))

/-- One axis pass of `KinematicApi::move_by`: fold the clamp over every
collision yielded for the sweep region, starting from the desired
magnitude, and reapply the (biased) sign of the desired delta. -/
def moveByAxis (w : KinWorld) (filter : AnyCollision → Bool) (aabb : Aabb)
    (axis : Axis2) (signedDelta : ℚ) : ℚ :=
  let check := sweepRegion aabb axis signedDelta
  let delta := (iterCollidersIn w check).foldl
    (moveByStep filter aabb axis signedDelta) |signedDelta|
  (Sign.ofBiased signedDelta).applyTo delta

/-- `KinematicApi::move_by`: resolve axis X against the original box, then
axis Y against the box already translated by the resolved X motion; return
the accumulated delta. -/
def moveBy (w : KinWorld) (aabb : Aabb) (by_ : Vec2q)
    (filter : AnyCollision → Bool) : Vec2q :=
  let dx := moveByAxis w filter aabb Axis2.X by_.x
  let aabb1 := aabb.translated ⟨dx, 0⟩
  let dy := moveByAxis w filter aabb1 Axis2.Y by_.y
  ⟨dx, dy⟩

/-! ## C2 — spec-shaped description of the per-axis resolution

The spec describes one axis pass as: scan the (filtered) colliders
intersecting the box extended by `|desired| + tolerance` in the travel
direction; for each blocker take the gap between the mover's leading edge
and the blocker's facing edge, minus the tolerance, clamped at zero; take
the minimum of these allowed travels and cap it by the desired magnitude.
The definitions below restate the pass in exactly that shape, and the
refinement theorem proves the embedded `move_by` equal to it. -/

/-- Allowed travel permitted by one blocking collision, as the spec words
it: the gap between the mover's leading edge and the blocker's facing edge
on the axis, minus `TOLERANCE`, clamped at zero. -/
def specAllowedTravel (aabb : Aabb) (axis : Axis2) (signedDelta : ℚ)
    (c : AnyCollision) : ℚ :=
  Max.max
    (|if signedDelta < 0 then
        aabb.minOn axis - c.aabb.maxOn axis
      else
        c.aabb.minOn axis - aabb.maxOn axis| - TOLERANCE)
    0

/-- Spec-shaped per-axis resolved magnitude: the minimum over all blocking
(filter-accepted) colliders scanned in the sweep region of their allowed
travels, capped by the originally desired magnitude. -/
def specResolvedMag (w : KinWorld) (filter : AnyCollision → Bool)
    (aabb : Aabb) (axis : Axis2) (signedDelta : ℚ) : ℚ :=
  let blockers :=
    ((iterCollidersIn w (sweepRegion aabb axis signedDelta)).filter filter)
  (blockers.map (specAllowedTravel aabb axis signedDelta)).foldr
    Min.min |signedDelta|

/-- Spec-shaped `move_by`: resolve axis X first, commit the intermediate
box, then resolve axis Y against the translated box; each axis carries the
(biased) sign of its desired component. -/
def specMoveBy (w : KinWorld) (aabb : Aabb) (by_ : Vec2q)
    (filter : AnyCollision → Bool) : Vec2q :=
  let dx := (Sign.ofBiased by_.x).applyTo
    (specResolvedMag w filter aabb Axis2.X by_.x)
  let aabb1 := aabb.translated ⟨dx, 0⟩
  let dy := (Sign.ofBiased by_.y).applyTo
    (specResolvedMag w filter aabb1 Axis2.Y by_.y)
  ⟨dx, dy⟩

theorem moveByStep_eq (filter : AnyCollision → Bool) (aabb : Aabb)
    (axis : Axis2) (signedDelta delta : ℚ) (c : AnyCollision) :
    moveByStep filter aabb axis signedDelta delta c =
      if filter c then
        Min.min delta (specAllowedTravel aabb axis signedDelta c)
      else delta := rfl

theorem foldr_min_min (a b : ℚ) (l : List ℚ) :
    l.foldr Min.min (Min.min a b) = Min.min a (l.foldr Min.min b) := by
  induction l with
  | nil => rfl
  | cons x xs ih =>
    simp only [List.foldr_cons, ih]
    rw [min_left_comm]

theorem foldl_clamp_eq {α : Type} (p : α → Bool) (g : α → ℚ) :
    ∀ (l : List α) (init : ℚ),
      l.foldl (fun d c => if p c then Min.min d (g c) else d) init =
        ((l.filter p).map g).foldr Min.min init := by
  intro l
  induction l with
  | nil => intro init; rfl
  | cons c cs ih =>
    intro init
    by_cases h : p c
    · simp only [List.foldl_cons, List.filter_cons, h, if_pos, List.map_cons,
        List.foldr_cons, ih]
      rw [min_comm init (g c), foldr_min_min]
    · simp only [List.foldl_cons, List.filter_cons, h, List.map_cons,
        List.foldr_cons, ih]
      simp [h]

theorem moveByAxis_eq_spec (w : KinWorld) (filter : AnyCollision → Bool)
    (aabb : Aabb) (axis : Axis2) (signedDelta : ℚ) :
    moveByAxis w filter aabb axis signedDelta =
      (Sign.ofBiased signedDelta).applyTo
        (specResolvedMag w filter aabb axis signedDelta) := by
  unfold moveByAxis specResolvedMag
  have h : ∀ (l : List AnyCollision) (init : ℚ),
      l.foldl (moveByStep filter aabb axis signedDelta) init =
        ((l.filter filter).map
          (specAllowedTravel aabb axis signedDelta)).foldr Min.min init := by
    intro l init
    rw [← foldl_clamp_eq]
    congr 1
  simp only [h]

/-- C2.  `move_by` resolves the X axis first and then the Y axis against
the already-translated box; per axis it scans the (filtered) colliders
yielded for the box extended by `|desired| + TOLERANCE` in the travel
direction, and the resolved per-axis magnitude equals the minimum over all
blocking colliders of the gap between the mover's leading edge and the
blocker's facing edge on that axis minus `TOLERANCE` clamped at zero,
capped by the originally desired magnitude. -/
theorem moveBy_eq_specMoveBy (w : KinWorld) (aabb : Aabb) (by_ : Vec2q)
    (filter : AnyCollision → Bool) :
    moveBy w aabb by_ filter = specMoveBy w aabb by_ filter := by
  unfold moveBy specMoveBy
  simp only [moveByAxis_eq_spec]

/-! ## C3 — the 40×40 mover against a solid tile collider

The worlds below use tile size 50 with a single solid material (id 1)
whose descriptor holds the unit-space box `[0.4, 1.4] × [0, 1]`; placed on
tile `(0,0)` it occupies world-space `[20, 70] × [0, 50]` (the claim's
blocker), placed on tile `(1,0)` it occupies `[70, 120] × [0, 50]`. -/

/-- The tiles-only filter used by the scenario (`AnyCollision::Tile`
accepted, `AnyCollision::Collider` rejected), as in
`sys_update_moving_colliders`. -/
def tileFilter : AnyCollision → Bool := fun c =>
  match c with
  | AnyCollision.Tile _ _ _ => true
  | AnyCollision.Collider _ _ => false

/-- Tile-size-50 world with one solid tile whose collider descriptor spans
`[0.4, 1.4] × [0, 1]` of unit-tile space, and no dynamic colliders. -/
def solidTileWorld (solidTile : Vec2i) : KinWorld where
  config := TileLayerConfig.fromSize 50
  tiles := fun t => if t = solidTile then 1 else 0
  descriptors := fun m => if m = 1 then some [⟨⟨2/5, 0⟩, ⟨7/5, 1⟩⟩] else none
  dynColliders := []

/-- The mover of the scenario: a 40×40 box centered at the origin. -/
def moverBox : Aabb := Aabb.newCentered ⟨0, 0⟩ ⟨40, 40⟩

/-- C3 counterexample.  Against a solid tile collider occupying
`x ∈ [20, 70]` — whose facing edge already touches the mover's right edge
at `x = 20` — `move_by(mover, (100, 0))` resolves to the zero delta: the
mover's right edge stays at `20`, not at `70 - TOLERANCE` as the claim
states (and not at `120`). -/
theorem moveBy_scenario_touching_blocker :
    (moverBox.translated
        (moveBy (solidTileWorld ⟨0, 0⟩) moverBox ⟨100, 0⟩ tileFilter)).max.x
      = 20 ∧
    (20 : ℚ) ≠ 70 - TOLERANCE := by
  constructor
  · with_unfolding_all rfl
  · with_unfolding_all decide

/-- C3 amended.  Against a solid tile collider occupying `x ∈ [70, 120]`
(facing edge at `x = 70`, ahead of the mover on its path),
`move_by(mover, (100, 0))` resolves to `(49.99, 0)`: the mover's right
edge ends at exactly `70 - TOLERANCE`, not at `20 + 100`. -/
theorem moveBy_scenario_blocker_ahead :
    moveBy (solidTileWorld ⟨1, 0⟩) moverBox ⟨100, 0⟩ tileFilter
        = ⟨4999/100, 0⟩ ∧
    (moverBox.translated
        (moveBy (solidTileWorld ⟨1, 0⟩) moverBox ⟨100, 0⟩ tileFilter)).max.x
      = 70 - TOLERANCE := by
  constructor
  · with_unfolding_all rfl
  · with_unfolding_all rfl

/-! ## C1 — swept movement does not penetrate registered geometry

Auxiliary vocabulary: strict overlap of boxes, the travel-direction gap
between a mover and a blocker, and the two kinds of static blocking
geometry `move_by` is guaranteed to see (tile colliders from unit-space
descriptors, and dynamic colliders lying inside their registration
chunk). -/

/-- The other axis. -/
def Axis2.other : Axis2 → Axis2
  | Axis2.X => Axis2.Y
  | Axis2.Y => Axis2.X

/-- Strict (positive-measure) overlap of two boxes on one axis. -/
def strictOverlapOn (axis : Axis2) (a b : Aabb) : Prop :=
  b.minOn axis < a.maxOn axis ∧ a.minOn axis < b.maxOn axis

/-- Strict overlap of two boxes as planar regions. -/
def Aabb.strictIntersects (a b : Aabb) : Prop :=
  strictOverlapOn Axis2.X a b ∧ strictOverlapOn Axis2.Y a b

/-- Length of the overlap of two boxes' projections onto an axis. -/
def overlapOn (axis : Axis2) (a b : Aabb) : ℚ :=
  Min.min (a.maxOn axis) (b.maxOn axis) - Max.max (a.minOn axis) (b.minOn axis)

/-- The signed gap from the mover's leading edge to the blocker's facing
edge in the direction of travel given by the (biased) sign of `d`. -/
def gapToward (aabb : Aabb) (axis : Axis2) (d : ℚ) (B : Aabb) : ℚ :=
  if d < 0 then aabb.minOn axis - B.maxOn axis
  else B.minOn axis - aabb.maxOn axis

/-- The mover is on the approach side of `B` for travel direction `d`
(non-negative gap: no overlap on the travel axis). -/
def separatedToward (aabb : Aabb) (axis : Axis2) (d : ℚ) (B : Aabb) : Prop :=
  0 ≤ gapToward aabb axis d B

/-- Box well-formedness (`min ≤ max` on both axes). -/
def Aabb.wf (a : Aabb) : Prop := a.min.x ≤ a.max.x ∧ a.min.y ≤ a.max.y

/-- Strict box well-formedness (positive extent on both axes). -/
def Aabb.posExtent (a : Aabb) : Prop := a.min.x < a.max.x ∧ a.min.y < a.max.y

/-- A descriptor sub-box lying in unit-tile space (`0..1` per axis), as
the spec requires of tile collider descriptors. -/
def unitBox (b : Aabb) : Prop :=
  0 ≤ b.min.x ∧ 0 ≤ b.min.y ∧ b.min.x ≤ b.max.x ∧ b.min.y ≤ b.max.y ∧
    b.max.x ≤ 1 ∧ b.max.y ≤ 1

/-- The box lies inside the half-open world-space rectangle of chunk
`cc` (chunks are `CHUNK_EDGE` tiles on a side). -/
def withinChunk (c : TileLayerConfig) (cc : Vec2i) (B : Aabb) : Prop :=
  ((TileLayerConfig.CHUNK_EDGE * cc.x : ℤ) : ℚ) * c.size ≤ B.min.x ∧
  B.max.x < ((TileLayerConfig.CHUNK_EDGE * (cc.x + 1) : ℤ) : ℚ) * c.size ∧
  ((TileLayerConfig.CHUNK_EDGE * cc.y : ℤ) : ℚ) * c.size ≤ B.min.y ∧
  B.max.y < ((TileLayerConfig.CHUNK_EDGE * (cc.y + 1) : ℤ) : ℚ) * c.size

/-- `B` is a tile-collider box the sweep is guaranteed to see: a non-air
tile whose cached descriptor contains a unit-space sub-box mapping to `B`,
accepted by the filter. -/
def IsTileBlocker (w : KinWorld) (filter : AnyCollision → Bool)
    (B : Aabb) : Prop :=
  ∃ t b0 bs,
    w.tiles t ≠ MaterialIdAIR ∧
    w.descriptors (w.tiles t) = some bs ∧
    b0 ∈ bs ∧ unitBox b0 ∧
    B = tileWorldBox w.config t b0 ∧
    filter (AnyCollision.Tile t (w.tiles t) B) = true

/-- `B` is a dynamic-collider box the sweep is guaranteed to see: a
registered collider accepted by the filter whose box lies inside its
registration chunk (so the 10-unit broad-phase margin cannot skip it). -/
def IsDynBlocker (w : KinWorld) (filter : AnyCollision → Bool)
    (B : Aabb) : Prop :=
  ∃ e cc,
    (e, cc, B) ∈ w.dynColliders ∧
    B.wf ∧
    withinChunk w.config cc B ∧
    filter (AnyCollision.Collider e B) = true

/-- Static blocking geometry registered with the world. -/
def IsBlocker (w : KinWorld) (filter : AnyCollision → Bool)
    (B : Aabb) : Prop :=
  IsTileBlocker w filter B ∨ IsDynBlocker w filter B

/-- The unsigned magnitude resolved by one axis pass of `move_by` (the
value of the collider fold). -/
def moveByMag (w : KinWorld) (filter : AnyCollision → Bool) (aabb : Aabb)
    (axis : Axis2) (signedDelta : ℚ) : ℚ :=
  (iterCollidersIn w (sweepRegion aabb axis signedDelta)).foldl
    (moveByStep filter aabb axis signedDelta) |signedDelta|

instance (axis : Axis2) (a b : Aabb) : Decidable (strictOverlapOn axis a b) := by
  unfold strictOverlapOn; infer_instance

instance (a b : Aabb) : Decidable (a.strictIntersects b) := by
  unfold Aabb.strictIntersects; infer_instance

instance (a : Aabb) : Decidable a.posExtent := by
  unfold Aabb.posExtent; infer_instance

instance (a : Aabb) : Decidable a.wf := by
  unfold Aabb.wf; infer_instance

instance (b : Aabb) : Decidable (unitBox b) := by
  unfold unitBox; infer_instance

instance (a : Aabb) (axis : Axis2) (d : ℚ) (B : Aabb) :
    Decidable (separatedToward a axis d B) := by
  unfold separatedToward; infer_instance

instance (c : TileLayerConfig) (cc : Vec2i) (B : Aabb) :
    Decidable (withinChunk c cc B) := by
  unfold withinChunk; infer_instance

theorem moveByAxis_eq_mag (w : KinWorld) (filter : AnyCollision → Bool)
    (aabb : Aabb) (axis : Axis2) (signedDelta : ℚ) :
    moveByAxis w filter aabb axis signedDelta =
      (Sign.ofBiased signedDelta).applyTo
        (moveByMag w filter aabb axis signedDelta) := rfl

theorem foldl_moveByStep_le_init (filter : AnyCollision → Bool)
    (aabb : Aabb) (axis : Axis2) (d : ℚ) :
    ∀ (l : List AnyCollision) (init : ℚ),
      l.foldl (moveByStep filter aabb axis d) init ≤ init := by
  intro l
  induction l with
  | nil => intro init; exact le_refl _
  | cons c cs ih =>
    intro init
    refine le_trans (ih _) ?_
    unfold moveByStep
    by_cases h : filter c
    · simp only [h, if_pos]
      exact min_le_left _ _
    · simp [h]

theorem foldl_moveByStep_nonneg (filter : AnyCollision → Bool)
    (aabb : Aabb) (axis : Axis2) (d : ℚ) :
    ∀ (l : List AnyCollision) (init : ℚ), 0 ≤ init →
      0 ≤ l.foldl (moveByStep filter aabb axis d) init := by
  intro l
  induction l with
  | nil => intro init h; exact h
  | cons c cs ih =>
    intro init h
    refine ih _ ?_
    unfold moveByStep
    by_cases hf : filter c
    · simp only [hf, if_pos]
      exact le_min h (le_max_right _ _)
    · simp [hf, h]

theorem foldl_moveByStep_le_elem (filter : AnyCollision → Bool)
    (aabb : Aabb) (axis : Axis2) (d : ℚ) :
    ∀ (l : List AnyCollision) (init : ℚ) (c : AnyCollision), c ∈ l →
      filter c = true →
      l.foldl (moveByStep filter aabb axis d) init ≤
        Max.max
          (|if d < 0 then aabb.minOn axis - c.aabb.maxOn axis
            else c.aabb.minOn axis - aabb.maxOn axis| - TOLERANCE) 0 := by
  intro l
  induction l with
  | nil => intro init c hc; exact absurd hc (List.not_mem_nil c)
  | cons c0 cs ih =>
    intro init c hc hf
    rcases List.mem_cons.mp hc with rfl | hmem
    · rw [List.foldl_cons]
      refine le_trans (foldl_moveByStep_le_init _ _ _ _ _ _) ?_
      unfold moveByStep
      simp only [hf, if_pos]
      exact min_le_right _ _
    · exact ih _ c hmem hf

/-- Bounds on the resolved magnitude: non-negative and capped by the
desired magnitude. -/
theorem moveByMag_bounds (w : KinWorld) (filter : AnyCollision → Bool)
    (aabb : Aabb) (axis : Axis2) (d : ℚ) :
    0 ≤ moveByMag w filter aabb axis d ∧
      moveByMag w filter aabb axis d ≤ |d| := by
  constructor
  · exact foldl_moveByStep_nonneg _ _ _ _ _ _ (abs_nonneg d)
  · exact foldl_moveByStep_le_init _ _ _ _ _ _

theorem TOLERANCE_pos : (0 : ℚ) < TOLERANCE := by norm_num [TOLERANCE]

theorem le_floor_div {s : ℚ} (hs : 0 < s) (z : ℤ) (q : ℚ) :
    z ≤ ⌊q / s⌋ ↔ (z : ℚ) * s ≤ q := by
  rw [Int.le_floor, le_div_iff₀ hs]

theorem floor_div_le {s : ℚ} (hs : 0 < s) (z : ℤ) (q : ℚ) :
    ⌊q / s⌋ ≤ z ↔ q < ((z : ℚ) + 1) * s := by
  constructor
  · intro h
    have h2 : q / s < ((z : ℚ) + 1) := by
      calc q / s < ⌊q / s⌋ + 1 := Int.lt_floor_add_one _
        _ ≤ (z : ℚ) + 1 := by
          have : ((⌊q / s⌋ : ℚ)) ≤ (z : ℚ) := by exact_mod_cast h
          linarith
    calc q = q / s * s := by field_simp
      _ < ((z : ℚ) + 1) * s := by
        exact mul_lt_mul_of_pos_right h2 hs
  · intro h
    have h2 : q / s < (z : ℚ) + 1 := by
      rw [div_lt_iff₀ hs]; exact h
    have h3 : ⌊q / s⌋ < z + 1 := by
      rw [Int.floor_lt]; exact_mod_cast h2
    omega

theorem Aabb.translateExtend_min_x (a : Aabb) (rel : Vec2q) :
    (a.translateExtend rel).min.x = a.min.x + Min.min rel.x 0 := rfl

theorem Aabb.intersects_true_iff (a b : Aabb) :
    a.intersects b = true ↔
      a.min.x ≤ b.max.x ∧ b.min.x ≤ a.max.x ∧
      a.min.y ≤ b.max.y ∧ b.min.y ≤ a.max.y := by
  unfold Aabb.intersects
  simp [Bool.and_eq_true, decide_eq_true_iff, and_assoc]

theorem Aabb.intersects_true_of_axes {a b : Aabb}
    (h : ∀ p : Axis2, a.minOn p ≤ b.maxOn p ∧ b.minOn p ≤ a.maxOn p) :
    a.intersects b = true := by
  rw [Aabb.intersects_true_iff]
  exact ⟨(h Axis2.X).1, (h Axis2.X).2, (h Axis2.Y).1, (h Axis2.Y).2⟩

theorem sweepRegion_minOn_same {aabb : Aabb} {axis : Axis2} {d : ℚ} :
    (sweepRegion aabb axis d).minOn axis =
      if d < 0 then aabb.minOn axis + (d - TOLERANCE) else aabb.minOn axis := by
  have htol := TOLERANCE_pos
  unfold sweepRegion Aabb.translateExtend addMagnitude Axis2.unitMag
  by_cases h : d < 0 <;> cases axis <;>
    simp [h, Aabb.minOn, Vec2q.getAxis] <;> linarith

theorem sweepRegion_maxOn_same {aabb : Aabb} {axis : Axis2} {d : ℚ} :
    (sweepRegion aabb axis d).maxOn axis =
      if d < 0 then aabb.maxOn axis else aabb.maxOn axis + (d + TOLERANCE) := by
  have htol := TOLERANCE_pos
  unfold sweepRegion Aabb.translateExtend addMagnitude Axis2.unitMag
  by_cases h : d < 0 <;> cases axis <;>
    simp [h, Aabb.maxOn, Vec2q.getAxis] <;> linarith

theorem sweepRegion_minOn_other {aabb : Aabb} {axis : Axis2} {d : ℚ} :
    (sweepRegion aabb axis d).minOn axis.other = aabb.minOn axis.other := by
  unfold sweepRegion Aabb.translateExtend addMagnitude Axis2.unitMag Axis2.other
  cases axis <;> simp [Aabb.minOn, Vec2q.getAxis]

theorem sweepRegion_maxOn_other {aabb : Aabb} {axis : Axis2} {d : ℚ} :
    (sweepRegion aabb axis d).maxOn axis.other = aabb.maxOn axis.other := by
  unfold sweepRegion Aabb.translateExtend addMagnitude Axis2.unitMag Axis2.other
  cases axis <;> simp [Aabb.maxOn, Vec2q.getAxis]

theorem tileWorldBox_minOn (c : TileLayerConfig) (t : Vec2i) (b0 : Aabb)
    (p : Axis2) :
    (tileWorldBox c t b0).minOn p =
      b0.minOn p * c.size + (t.getAxis p : ℚ) * c.size := by
  cases p <;>
    simp [tileWorldBox, Aabb.minOn, Aabb.translated, Vec2q.getAxis,
      Vec2q.scale, TileLayerConfig.tileToActorRect, Aabb.newSized,
      Vec2i.getAxis]

theorem tileWorldBox_maxOn (c : TileLayerConfig) (t : Vec2i) (b0 : Aabb)
    (p : Axis2) :
    (tileWorldBox c t b0).maxOn p =
      b0.maxOn p * c.size + (t.getAxis p : ℚ) * c.size := by
  cases p <;>
    simp [tileWorldBox, Aabb.maxOn, Aabb.translated, Vec2q.getAxis,
      Vec2q.scale, TileLayerConfig.tileToActorRect, Aabb.newSized,
      Vec2i.getAxis]

theorem unitBox_bounds {b0 : Aabb} (hu : unitBox b0) (p : Axis2) :
    0 ≤ b0.minOn p ∧ b0.minOn p ≤ b0.maxOn p ∧ b0.maxOn p ≤ 1 := by
  obtain ⟨h1, h2, h3, h4, h5, h6⟩ := hu
  cases p <;> exact ⟨by assumption, by assumption, by assumption⟩

/-- Bounds of a worldified unit-space descriptor box: it lies inside its
tile's world rectangle. -/
theorem tileWorldBox_bounds {c : TileLayerConfig} (hs : 0 < c.size)
    {t : Vec2i} {b0 : Aabb} (hu : unitBox b0) (p : Axis2) :
    (t.getAxis p : ℚ) * c.size ≤ (tileWorldBox c t b0).minOn p ∧
    (tileWorldBox c t b0).minOn p ≤ (tileWorldBox c t b0).maxOn p ∧
    (tileWorldBox c t b0).maxOn p ≤ ((t.getAxis p : ℚ) + 1) * c.size := by
  obtain ⟨hb1, hb2, hb3⟩ := unitBox_bounds hu p
  rw [tileWorldBox_minOn, tileWorldBox_maxOn]
  refine ⟨?_, ?_, ?_⟩
  · nlinarith
  · nlinarith
  · nlinarith

theorem actorAabbToTile_min (c : TileLayerConfig) (a : Aabb) (p : Axis2) :
    ((c.actorAabbToTile a).min.getAxis p) = ⌊a.minOn p / c.size⌋ := by
  cases p <;> rfl

theorem actorAabbToTile_max (c : TileLayerConfig) (a : Aabb) (p : Axis2) :
    ((c.actorAabbToTile a).max.getAxis p) = ⌊a.maxOn p / c.size⌋ := by
  cases p <;> rfl

theorem mem_inclusiveIter_axes {c : TileLayerConfig} {check : Aabb}
    {t : Vec2i}
    (h : ∀ p : Axis2, ⌊check.minOn p / c.size⌋ ≤ t.getAxis p ∧
      t.getAxis p ≤ ⌊check.maxOn p / c.size⌋) :
    t ∈ (c.actorAabbToTile check).inclusiveIter := by
  apply mem_inclusiveIter.mpr
  have hx := h Axis2.X
  have hy := h Axis2.Y
  exact ⟨hx.1, hx.2, hy.1, hy.2⟩

/-- Introduction rule: a surviving descriptor box of a scanned tile is
yielded by `iter_colliders_in`. -/
theorem tile_item_mem_iter {w : KinWorld} {check : Aabb} {t : Vec2i}
    {b0 : Aabb} {bs : List Aabb}
    (hair : w.tiles t ≠ MaterialIdAIR)
    (hdesc : w.descriptors (w.tiles t) = some bs)
    (hb0 : b0 ∈ bs)
    (ht : t ∈ (w.config.actorAabbToTile check).inclusiveIter)
    (hint : (tileWorldBox w.config t b0).intersects check = true) :
    AnyCollision.Tile t (w.tiles t) (tileWorldBox w.config t b0) ∈
      iterCollidersIn w check := by
  unfold iterCollidersIn
  apply List.mem_append_left
  apply List.mem_flatMap.mpr
  refine ⟨t, ht, ?_⟩
  unfold tileCollidersAt
  simp only [hair, if_neg, hdesc, if_false]
  apply List.mem_filterMap.mpr
  refine ⟨b0, hb0, ?_⟩
  simp only [hint, if_pos]

/-- Introduction rule: a registered collider in a covered chunk whose box
meets the query is yielded by `iter_colliders_in`. -/
theorem dyn_item_mem_iter {w : KinWorld} {check : Aabb} {e : EntityId}
    {cc : Vec2i} {B : Aabb}
    (hmem : (e, cc, B) ∈ w.dynColliders)
    (hcc : cc ∈ coveredChunks w.config check)
    (hint : B.intersects check = true) :
    AnyCollision.Collider e B ∈ iterCollidersIn w check := by
  unfold iterCollidersIn
  apply List.mem_append_right
  apply List.mem_map.mpr
  refine ⟨(e, B), ?_, rfl⟩
  unfold collisionsList
  apply List.mem_flatMap.mpr
  refine ⟨cc, hcc, ?_⟩
  apply List.mem_filterMap.mpr
  refine ⟨(e, cc, B), hmem, ?_⟩
  simp [hint]

theorem ediv_sixteen_eq {n a : ℤ} (h1 : 16 * a ≤ n) (h2 : n < 16 * (a + 1)) :
    n.ediv 16 = a := by
  have h : n / 16 = a := by omega
  exact h

/-- A point of the query region lying in the half-open world rectangle of
chunk `cc` witnesses that `cc` is covered by the broad phase. -/
theorem chunk_covered {c : TileLayerConfig} (hs : 0 < c.size)
    {check : Aabb} {cc : Vec2i} (p : Vec2q)
    (hpx1 : check.min.x ≤ p.x) (hpx2 : p.x ≤ check.max.x)
    (hpy1 : check.min.y ≤ p.y) (hpy2 : p.y ≤ check.max.y)
    (hcx1 : ((TileLayerConfig.CHUNK_EDGE * cc.x : ℤ) : ℚ) * c.size ≤ p.x)
    (hcx2 : p.x < ((TileLayerConfig.CHUNK_EDGE * (cc.x + 1) : ℤ) : ℚ) * c.size)
    (hcy1 : ((TileLayerConfig.CHUNK_EDGE * cc.y : ℤ) : ℚ) * c.size ≤ p.y)
    (hcy2 : p.y < ((TileLayerConfig.CHUNK_EDGE * (cc.y + 1) : ℤ) : ℚ) * c.size) :
    cc ∈ coveredChunks c check := by
  unfold coveredChunks
  rw [List.mem_dedup, List.mem_map]
  refine ⟨c.actorToTile p, ?_, ?_⟩
  · apply mem_inclusiveIter.mpr
    have hgx1 : (check.grow ⟨10, 10⟩).min.x = check.min.x - 10 := rfl
    have hgx2 : (check.grow ⟨10, 10⟩).max.x = check.max.x + 10 := rfl
    have hgy1 : (check.grow ⟨10, 10⟩).min.y = check.min.y - 10 := rfl
    have hgy2 : (check.grow ⟨10, 10⟩).max.y = check.max.y + 10 := rfl
    refine ⟨?_, ?_, ?_, ?_⟩ <;>
      simp only [TileLayerConfig.actorAabbToTile, TileLayerConfig.actorToTile,
        TileLayerConfig.actorToTileAxis, hgx1, hgx2, hgy1, hgy2]
    · exact Int.floor_le_floor (by gcongr <;> linarith)
    · exact Int.floor_le_floor (by gcongr <;> linarith)
    · exact Int.floor_le_floor (by gcongr <;> linarith)
    · exact Int.floor_le_floor (by gcongr <;> linarith)
  · simp only [TileLayerConfig.CHUNK_EDGE] at hcx1 hcx2 hcy1 hcy2
    have hex : (⌊p.x / c.size⌋).ediv 16 = cc.x := by
      apply ediv_sixteen_eq
      · exact (le_floor_div hs (16 * cc.x) p.x).mpr hcx1
      · exact Int.floor_lt.mpr ((div_lt_iff₀ hs).mpr hcx2)
    have hey : (⌊p.y / c.size⌋).ediv 16 = cc.y := by
      apply ediv_sixteen_eq
      · exact (le_floor_div hs (16 * cc.y) p.y).mpr hcy1
      · exact Int.floor_lt.mpr ((div_lt_iff₀ hs).mpr hcy2)
    simp only [TileLayerConfig.decomposeWorldPos, TileLayerConfig.actorToTile,
      TileLayerConfig.actorToTileAxis, TileLayerConfig.CHUNK_EDGE]
    cases cc
    simp only [Vec2i.mk.injEq]
    exact ⟨hex, hey⟩

theorem Aabb.posExtent_on {a : Aabb} (h : a.posExtent) (p : Axis2) :
    a.minOn p < a.maxOn p := by
  cases p
  · exact h.1
  · exact h.2

theorem Aabb.wf_on {a : Aabb} (h : a.wf) (p : Axis2) :
    a.minOn p ≤ a.maxOn p := by
  cases p
  · exact h.1
  · exact h.2

theorem Axis2.eq_other_of_ne {p axis : Axis2} (h : p ≠ axis) :
    p = axis.other := by
  cases p <;> cases axis <;> simp_all [Axis2.other]

theorem sweepRegion_wf_on {aabb : Aabb} (hpe : aabb.posExtent)
    (axis : Axis2) (d : ℚ) (p : Axis2) :
    (sweepRegion aabb axis d).minOn p ≤ (sweepRegion aabb axis d).maxOn p := by
  have htol := TOLERANCE_pos
  have hw := (Aabb.posExtent_on hpe p).le
  by_cases hp : p = axis
  · subst hp
    rw [sweepRegion_minOn_same, sweepRegion_maxOn_same]
    by_cases hd : d < 0 <;> simp [hd] <;> linarith
  · rw [Axis2.eq_other_of_ne hp, sweepRegion_minOn_other,
      sweepRegion_maxOn_other]
    exact Aabb.wf_on ⟨(Aabb.posExtent_on hpe Axis2.X).le,
      (Aabb.posExtent_on hpe Axis2.Y).le⟩ _

/-- Core scanning lemma: a blocker on the approach side, close enough
that its clamp matters, and overlapping the mover on the cross axis, is
guaranteed to be yielded by the sweep's collider scan. -/
theorem blocker_mem_iter {w : KinWorld} {filter : AnyCollision → Bool}
    {B aabb : Aabb} {axis : Axis2} {d : ℚ}
    (hs : 0 < w.config.size) (hpe : aabb.posExtent)
    (hb : IsBlocker w filter B)
    (hahead : separatedToward aabb axis d B)
    (hnear : gapToward aabb axis d B < |d| + TOLERANCE)
    (hcross : strictOverlapOn axis.other aabb B) :
    ∃ item, item ∈ iterCollidersIn w (sweepRegion aabb axis d) ∧
      filter item = true ∧ item.aabb = B := by
  have htol := TOLERANCE_pos
  rcases hb with htile | hdyn
  · obtain ⟨t, b0, bs, hair, hdesc, hb0, hu, hBeq, hfil⟩ := htile
    subst hBeq
    set B := tileWorldBox w.config t b0 with hBdef
    have hbnd : ∀ p : Axis2,
        ((t.getAxis p : ℚ)) * w.config.size ≤ B.minOn p ∧
        B.minOn p ≤ B.maxOn p ∧
        B.maxOn p ≤ ((t.getAxis p : ℚ) + 1) * w.config.size :=
      fun p => tileWorldBox_bounds hs hu p
    refine ⟨AnyCollision.Tile t (w.tiles t) B, ?_, hfil, rfl⟩
    have ht : t ∈ (w.config.actorAabbToTile
        (sweepRegion aabb axis d)).inclusiveIter := by
      apply mem_inclusiveIter_axes
      intro p
      by_cases hp : p = axis
      · subst hp
        obtain ⟨hb1, hb2, hb3⟩ := hbnd p
        by_cases hd : d < 0
        · have hgap : 0 ≤ aabb.minOn p - B.maxOn p := by
            simpa [separatedToward, gapToward, hd] using hahead
          have hnear' : aabb.minOn p - B.maxOn p < -d + TOLERANCE := by
            have := hnear
            simp only [gapToward, hd, if_pos] at this
            rwa [abs_of_neg hd] at this
          constructor
          · rw [sweepRegion_minOn_same]
            simp only [hd, if_pos]
            rw [floor_div_le hs]
            linarith
          · rw [sweepRegion_maxOn_same]
            simp only [hd, if_pos]
            rw [le_floor_div hs]
            have := Aabb.posExtent_on hpe p
            linarith
        · have hd' : 0 ≤ d := not_lt.mp hd
          have hgap : 0 ≤ B.minOn p - aabb.maxOn p := by
            simpa [separatedToward, gapToward, hd] using hahead
          have hnear' : B.minOn p - aabb.maxOn p < d + TOLERANCE := by
            have := hnear
            simp only [gapToward, hd, if_neg, if_false] at this
            rwa [abs_of_nonneg hd'] at this
          constructor
          · rw [sweepRegion_minOn_same]
            simp only [hd, if_neg, if_false]
            rw [floor_div_le hs]
            have := Aabb.posExtent_on hpe p
            linarith
          · rw [sweepRegion_maxOn_same]
            simp only [hd, if_neg, if_false]
            rw [le_floor_div hs]
            linarith
      · rw [Axis2.eq_other_of_ne hp]
        obtain ⟨hb1, hb2, hb3⟩ := hbnd axis.other
        obtain ⟨hc1, hc2⟩ := hcross
        constructor
        · rw [sweepRegion_minOn_other, floor_div_le hs]
          linarith
        · rw [sweepRegion_maxOn_other, le_floor_div hs]
          linarith
    have hint : B.intersects (sweepRegion aabb axis d) = true := by
      apply Aabb.intersects_true_of_axes
      intro p
      by_cases hp : p = axis
      · subst hp
        obtain ⟨hb1, hb2, hb3⟩ := hbnd p
        have hpe' := Aabb.posExtent_on hpe p
        by_cases hd : d < 0
        · have hgap : 0 ≤ aabb.minOn p - B.maxOn p := by
            simpa [separatedToward, gapToward, hd] using hahead
          have hnear' : aabb.minOn p - B.maxOn p < -d + TOLERANCE := by
            have := hnear
            simp only [gapToward, hd, if_pos] at this
            rwa [abs_of_neg hd] at this
          rw [sweepRegion_minOn_same, sweepRegion_maxOn_same]
          simp only [hd, if_pos]
          constructor <;> linarith
        · have hd' : 0 ≤ d := not_lt.mp hd
          have hgap : 0 ≤ B.minOn p - aabb.maxOn p := by
            simpa [separatedToward, gapToward, hd] using hahead
          have hnear' : B.minOn p - aabb.maxOn p < d + TOLERANCE := by
            have := hnear
            simp only [gapToward, hd, if_neg, if_false] at this
            rwa [abs_of_nonneg hd'] at this
          rw [sweepRegion_minOn_same, sweepRegion_maxOn_same]
          simp only [hd, if_neg, if_false]
          constructor <;> linarith
      · rw [Axis2.eq_other_of_ne hp]
        obtain ⟨hb1, hb2, hb3⟩ := hbnd axis.other
        obtain ⟨hc1, hc2⟩ := hcross
        rw [sweepRegion_minOn_other, sweepRegion_maxOn_other]
        constructor <;> linarith
    exact tile_item_mem_iter hair hdesc hb0 ht hint
  · obtain ⟨e, cc, hmem, hwfB, hwc, hfil⟩ := hdyn
    -- Non-strict intersection of blocker and sweep region, per axis.
    have hBint : ∀ p : Axis2,
        B.minOn p ≤ (sweepRegion aabb axis d).maxOn p ∧
        (sweepRegion aabb axis d).minOn p ≤ B.maxOn p := by
      intro p
      by_cases hp : p = axis
      · subst hp
        have hw := Aabb.wf_on hwfB p
        have hpe' := Aabb.posExtent_on hpe p
        by_cases hd : d < 0
        · have hgap : 0 ≤ aabb.minOn p - B.maxOn p := by
            simpa [separatedToward, gapToward, hd] using hahead
          have hnear' : aabb.minOn p - B.maxOn p < -d + TOLERANCE := by
            have := hnear
            simp only [gapToward, hd, if_pos] at this
            rwa [abs_of_neg hd] at this
          rw [sweepRegion_minOn_same, sweepRegion_maxOn_same]
          simp only [hd, if_pos]
          constructor <;> linarith
        · have hd' : 0 ≤ d := not_lt.mp hd
          have hgap : 0 ≤ B.minOn p - aabb.maxOn p := by
            simpa [separatedToward, gapToward, hd] using hahead
          have hnear' : B.minOn p - aabb.maxOn p < d + TOLERANCE := by
            have := hnear
            simp only [gapToward, hd, if_neg, if_false] at this
            rwa [abs_of_nonneg hd'] at this
          rw [sweepRegion_minOn_same, sweepRegion_maxOn_same]
          simp only [hd, if_neg, if_false]
          constructor <;> linarith
      · rw [Axis2.eq_other_of_ne hp]
        obtain ⟨hc1, hc2⟩ := hcross
        have hw := Aabb.wf_on hwfB axis.other
        rw [sweepRegion_minOn_other, sweepRegion_maxOn_other]
        constructor <;> linarith
    have hCheckWf := sweepRegion_wf_on hpe axis d
    obtain ⟨hwc1, hwc2, hwc3, hwc4⟩ := hwc
    have hX := hBint Axis2.X
    have hY := hBint Axis2.Y
    have hcc : cc ∈ coveredChunks w.config (sweepRegion aabb axis d) := by
      apply chunk_covered hs
        (p := ⟨Max.max B.min.x ((sweepRegion aabb axis d).min.x),
               Max.max B.min.y ((sweepRegion aabb axis d).min.y)⟩)
      · exact le_max_right _ _
      · exact max_le hX.1 (hCheckWf Axis2.X)
      · exact le_max_right _ _
      · exact max_le hY.1 (hCheckWf Axis2.Y)
      · exact le_trans hwc1 (le_max_left _ _)
      · exact max_lt (lt_of_le_of_lt hwfB.1 hwc2) (lt_of_le_of_lt hX.2 hwc2)
      · exact le_trans hwc3 (le_max_left _ _)
      · exact max_lt (lt_of_le_of_lt hwfB.2 hwc4) (lt_of_le_of_lt hY.2 hwc4)
    have hint : B.intersects (sweepRegion aabb axis d) = true :=
      Aabb.intersects_true_of_axes hBint
    exact ⟨AnyCollision.Collider e B, dyn_item_mem_iter hmem hcc hint,
      hfil, rfl⟩

theorem Aabb.translated_minOn (a : Aabb) (v : Vec2q) (p : Axis2) :
    (a.translated v).minOn p = a.minOn p + v.getAxis p := by
  cases p <;> simp [Aabb.translated, Aabb.minOn, Vec2q.getAxis]

theorem Aabb.translated_maxOn (a : Aabb) (v : Vec2q) (p : Axis2) :
    (a.translated v).maxOn p = a.maxOn p + v.getAxis p := by
  cases p <;> simp [Aabb.translated, Aabb.maxOn, Vec2q.getAxis]

theorem Axis2.unitMag_getAxis_same (axis : Axis2) (m : ℚ) :
    (axis.unitMag m).getAxis axis = m := by
  cases axis <;> rfl

theorem Axis2.unitMag_getAxis_other (axis : Axis2) (m : ℚ) :
    (axis.unitMag m).getAxis axis.other = 0 := by
  cases axis <;> rfl

theorem Aabb.posExtent_translated {a : Aabb} (h : a.posExtent) (v : Vec2q) :
    (a.translated v).posExtent := by
  obtain ⟨h1, h2⟩ := h
  constructor
  · show a.min.x + v.x < a.max.x + v.x
    exact add_lt_add_right h1 v.x
  · show a.min.y + v.y < a.max.y + v.y
    exact add_lt_add_right h2 v.y

theorem not_strictOverlapOn_of_le_left {a b : Aabb} {axis : Axis2}
    (h : a.maxOn axis ≤ b.minOn axis) : ¬ strictOverlapOn axis a b :=
  fun hc => absurd hc.1 (not_lt.mpr h)

theorem not_strictOverlapOn_of_le_right {a b : Aabb} {axis : Axis2}
    (h : b.maxOn axis ≤ a.minOn axis) : ¬ strictOverlapOn axis a b :=
  fun hc => absurd hc.2 (not_lt.mpr h)

theorem separatedToward_pos {a B : Aabb} {axis : Axis2} {d : ℚ}
    (hd : ¬ d < 0) :
    separatedToward a axis d B ↔ a.maxOn axis ≤ B.minOn axis := by
  unfold separatedToward gapToward
  simp only [hd, if_neg, if_false]
  constructor <;> intro h <;> linarith

theorem separatedToward_neg {a B : Aabb} {axis : Axis2} {d : ℚ}
    (hd : d < 0) :
    separatedToward a axis d B ↔ B.maxOn axis ≤ a.minOn axis := by
  unfold separatedToward gapToward
  simp only [hd, if_pos]
  constructor <;> intro h <;> linarith

theorem moveByAxis_val (w : KinWorld) (filter : AnyCollision → Bool)
    (aabb : Aabb) (axis : Axis2) (d : ℚ) :
    moveByAxis w filter aabb axis d =
      if d < 0 then -(moveByMag w filter aabb axis d)
      else moveByMag w filter aabb axis d := by
  rw [moveByAxis_eq_mag]
  unfold Sign.ofBiased Sign.applyTo
  by_cases h : d < 0 <;> simp [h]

/-- One axis pass of `move_by` keeps a blocker on its approach side, or
the mover and the blocker do not strictly overlap on the cross axis. -/
theorem moveByAxis_sound {w : KinWorld} {filter : AnyCollision → Bool}
    {aabb B : Aabb} {axis : Axis2} {d : ℚ}
    (hs : 0 < w.config.size) (hpe : aabb.posExtent)
    (hb : IsBlocker w filter B)
    (hahead : separatedToward aabb axis d B) :
    separatedToward
        (aabb.translated (axis.unitMag (moveByAxis w filter aabb axis d)))
        axis d B
      ∨ ¬ strictOverlapOn axis.other aabb B := by
  have htol := TOLERANCE_pos
  by_cases hcross : strictOverlapOn axis.other aabb B
  case neg => exact Or.inr hcross
  left
  obtain ⟨hm0, hmd⟩ := moveByMag_bounds w filter aabb axis d
  set m := moveByMag w filter aabb axis d with hmdef
  by_cases hd : d < 0
  · -- moving toward negative coordinates
    have hg : B.maxOn axis ≤ aabb.minOn axis :=
      (separatedToward_neg hd).mp hahead
    rw [separatedToward_neg hd, Aabb.translated_minOn,
      Axis2.unitMag_getAxis_same, moveByAxis_val]
    simp only [hd, if_pos]
    by_cases hnear : gapToward aabb axis d B < |d| + TOLERANCE
    · obtain ⟨item, hmem, hfil, hBa⟩ :=
        blocker_mem_iter hs hpe hb hahead hnear hcross
      have hle := foldl_moveByStep_le_elem filter aabb axis d
        (iterCollidersIn w (sweepRegion aabb axis d)) |d| item hmem hfil
      rw [hBa] at hle
      have habs : |if d < 0 then aabb.minOn axis - B.maxOn axis
          else B.minOn axis - aabb.maxOn axis|
          = aabb.minOn axis - B.maxOn axis := by
        simp only [hd, if_pos]
        exact abs_of_nonneg (by linarith)
      rw [habs] at hle
      have hm_le : m ≤ aabb.minOn axis - B.maxOn axis := by
        refine le_trans hle (max_le (by linarith) (by linarith))
      linarith
    · have hfar : |d| + TOLERANCE ≤ aabb.minOn axis - B.maxOn axis := by
        have := not_lt.mp hnear
        unfold gapToward at this
        simpa [hd] using this
      linarith
  · -- moving toward positive coordinates
    have hg : aabb.maxOn axis ≤ B.minOn axis :=
      (separatedToward_pos hd).mp hahead
    rw [separatedToward_pos hd, Aabb.translated_maxOn,
      Axis2.unitMag_getAxis_same, moveByAxis_val]
    simp only [hd, if_neg, if_false]
    by_cases hnear : gapToward aabb axis d B < |d| + TOLERANCE
    · obtain ⟨item, hmem, hfil, hBa⟩ :=
        blocker_mem_iter hs hpe hb hahead hnear hcross
      have hle := foldl_moveByStep_le_elem filter aabb axis d
        (iterCollidersIn w (sweepRegion aabb axis d)) |d| item hmem hfil
      rw [hBa] at hle
      have habs : |if d < 0 then aabb.minOn axis - B.maxOn axis
          else B.minOn axis - aabb.maxOn axis|
          = B.minOn axis - aabb.maxOn axis := by
        simp only [hd, if_neg, if_false]
        exact abs_of_nonneg (by linarith)
      rw [habs] at hle
      have hm_le : m ≤ B.minOn axis - aabb.maxOn axis := by
        refine le_trans hle (max_le (by linarith) (by linarith))
      linarith
    · have hfar : |d| + TOLERANCE ≤ B.minOn axis - aabb.maxOn axis := by
        have := not_lt.mp hnear
        unfold gapToward at this
        simpa [hd] using this
      linarith

theorem Vec2q.ext_xy {a b : Vec2q} (hx : a.x = b.x) (hy : a.y = b.y) :
    a = b := by
  cases a; cases b; simp_all

theorem Aabb.translated_split (M : Aabb) (dx dy : ℚ) :
    (M.translated ⟨dx, 0⟩).translated ⟨0, dy⟩ = M.translated ⟨dx, dy⟩ := by
  unfold Aabb.translated
  congr 1 <;> apply Vec2q.ext_xy <;> simp <;> ring

theorem strictOverlapOn_translate_other {a : Aabb} {v : Vec2q}
    {axis : Axis2} (hv : v.getAxis axis = 0) (b : Aabb) :
    strictOverlapOn axis (a.translated v) b ↔ strictOverlapOn axis a b := by
  unfold strictOverlapOn
  rw [Aabb.translated_minOn, Aabb.translated_maxOn, hv, add_zero, add_zero]

theorem separatedToward_translate_other {a b : Aabb} {v : Vec2q}
    {axis : Axis2} (hv : v.getAxis axis = 0) (d : ℚ) :
    separatedToward (a.translated v) axis d b ↔ separatedToward a axis d b := by
  unfold separatedToward gapToward
  rw [Aabb.translated_minOn, Aabb.translated_maxOn, hv, add_zero, add_zero]

/-- C1 (amended).  For every mover box of positive extent, every static
blocking box `B` registered as geometry — a tile collider arising from a
unit-space descriptor, or a dynamic collider lying inside its registration
chunk — and every desired delta whose component on the swept axis is
non-zero and directed toward `B` (`B` on the approach side), the box
obtained by translating the mover by the result of `move_by` does not
overlap `B` by more than `TOLERANCE` on the swept axis; indeed it does not
strictly overlap `B` at all. -/
theorem moveBy_no_penetration (w : KinWorld) (filter : AnyCollision → Bool)
    (M B : Aabb) (by_ : Vec2q) (axis : Axis2)
    (hs : 0 < w.config.size) (hM : M.posExtent)
    (hb : IsBlocker w filter B)
    (hd : by_.getAxis axis ≠ 0)
    (hahead : separatedToward M axis (by_.getAxis axis) B) :
    (M.translated (moveBy w M by_ filter)).strictIntersects B →
      overlapOn axis (M.translated (moveBy w M by_ filter)) B ≤ TOLERANCE := by
  suffices hnot : ¬ (M.translated (moveBy w M by_ filter)).strictIntersects B by
    intro hstrict
    exact absurd hstrict hnot
  have hmv : moveBy w M by_ filter =
      ⟨moveByAxis w filter M Axis2.X by_.x,
        moveByAxis w filter (M.translated ⟨moveByAxis w filter M Axis2.X by_.x, 0⟩)
          Axis2.Y by_.y⟩ := rfl
  rw [hmv]
  set dx := moveByAxis w filter M Axis2.X by_.x with hdx
  set M1 := M.translated ⟨dx, 0⟩ with hM1def
  set dy := moveByAxis w filter M1 Axis2.Y by_.y with hdyv
  have hM1pe : M1.posExtent := Aabb.posExtent_translated hM _
  have hMsplit : M.translated ⟨dx, dy⟩ = M1.translated ⟨0, dy⟩ :=
    (Aabb.translated_split M dx dy).symm
  rw [hMsplit]
  -- The Y pass, started from `M1`, cannot end strictly overlapping `B`
  -- when `M1` and `B` do not strictly overlap on Y.
  have hYpass : ¬ strictOverlapOn Axis2.Y M1 B →
      ¬ (M1.translated ⟨0, dy⟩).strictIntersects B := by
    intro hnoY
    rcases not_and_or.mp hnoY with hside | hside
    · have hA : M1.maxOn Axis2.Y ≤ B.minOn Axis2.Y := not_lt.mp hside
      by_cases hdy2 : by_.y < 0
      · have hval : dy = -(moveByMag w filter M1 Axis2.Y by_.y) := by
          rw [hdyv, moveByAxis_val]
          simp [hdy2]
        have hm := (moveByMag_bounds w filter M1 Axis2.Y by_.y).1
        intro hsi
        refine not_strictOverlapOn_of_le_left ?_ hsi.2
        rw [Aabb.translated_maxOn]
        show M1.maxOn Axis2.Y + dy ≤ B.minOn Axis2.Y
        rw [hval]
        linarith
      · have haheadY : separatedToward M1 Axis2.Y by_.y B :=
          (separatedToward_pos hdy2).mpr hA
        have hsound2 := moveByAxis_sound hs hM1pe hb haheadY
        rcases hsound2 with hsep2 | hnoX
        · intro hsi
          refine not_strictOverlapOn_of_le_left ?_ hsi.2
          have h2 := (separatedToward_pos hdy2).mp hsep2
          rw [Aabb.translated_maxOn] at h2 ⊢
          exact h2
        · intro hsi
          apply hnoX
          show strictOverlapOn Axis2.X M1 B
          exact (strictOverlapOn_translate_other (v := ⟨0, dy⟩)
            (show (Vec2q.mk 0 dy).getAxis Axis2.X = 0 from rfl) B).mp hsi.1
    · have hA : B.maxOn Axis2.Y ≤ M1.minOn Axis2.Y := not_lt.mp hside
      by_cases hdy2 : by_.y < 0
      · have haheadY : separatedToward M1 Axis2.Y by_.y B :=
          (separatedToward_neg hdy2).mpr hA
        have hsound2 := moveByAxis_sound hs hM1pe hb haheadY
        rcases hsound2 with hsep2 | hnoX
        · intro hsi
          refine not_strictOverlapOn_of_le_right ?_ hsi.2
          have h2 := (separatedToward_neg hdy2).mp hsep2
          rw [Aabb.translated_minOn] at h2 ⊢
          exact h2
        · intro hsi
          apply hnoX
          show strictOverlapOn Axis2.X M1 B
          exact (strictOverlapOn_translate_other (v := ⟨0, dy⟩)
            (show (Vec2q.mk 0 dy).getAxis Axis2.X = 0 from rfl) B).mp hsi.1
      · have hval : dy = moveByMag w filter M1 Axis2.Y by_.y := by
          rw [hdyv, moveByAxis_val]
          simp [hdy2]
        have hm := (moveByMag_bounds w filter M1 Axis2.Y by_.y).1
        intro hsi
        refine not_strictOverlapOn_of_le_right ?_ hsi.2
        rw [Aabb.translated_minOn]
        show B.maxOn Axis2.Y ≤ M1.minOn Axis2.Y + dy
        rw [hval]
        linarith
  cases axis with
  | X =>
    have hahead' : separatedToward M Axis2.X by_.x B := hahead
    have hsound := moveByAxis_sound hs hM hb hahead'
    rcases hsound with hsep | hnoY
    · -- X separation persists: the Y translation leaves X coordinates.
      by_cases hdneg : by_.x < 0
      · intro hsi
        refine not_strictOverlapOn_of_le_right ?_ hsi.1
        have h1 := (separatedToward_neg hdneg).mp hsep
        rw [Aabb.translated_minOn] at h1
        rw [Aabb.translated_minOn]
        show B.maxOn Axis2.X ≤ M1.minOn Axis2.X + 0
        rw [add_zero]
        exact h1
      · intro hsi
        refine not_strictOverlapOn_of_le_left ?_ hsi.1
        have h1 := (separatedToward_pos hdneg).mp hsep
        rw [Aabb.translated_maxOn] at h1
        rw [Aabb.translated_maxOn]
        show M1.maxOn Axis2.X + 0 ≤ B.minOn Axis2.X
        rw [add_zero]
        exact h1
    · -- no strict Y overlap between `M` and `B`; it also holds for `M1`.
      apply hYpass
      have : (Vec2q.mk dx 0).getAxis Axis2.Y = 0 := rfl
      exact fun hc =>
        hnoY ((strictOverlapOn_translate_other (v := ⟨dx, 0⟩) this B).mp hc)
  | Y =>
    have hahead1 : separatedToward M1 Axis2.Y by_.y B := by
      have : (Vec2q.mk dx 0).getAxis Axis2.Y = 0 := rfl
      exact (separatedToward_translate_other (v := ⟨dx, 0⟩) this by_.y).mpr
        hahead
    have hsound2 := moveByAxis_sound hs hM1pe hb hahead1
    rcases hsound2 with hsep2 | hnoX
    · by_cases hdy2 : by_.y < 0
      · intro hsi
        refine not_strictOverlapOn_of_le_right ?_ hsi.2
        have h2 := (separatedToward_neg hdy2).mp hsep2
        rw [Aabb.translated_minOn] at h2 ⊢
        exact h2
      · intro hsi
        refine not_strictOverlapOn_of_le_left ?_ hsi.2
        have h2 := (separatedToward_pos hdy2).mp hsep2
        rw [Aabb.translated_maxOn] at h2 ⊢
        exact h2
    · intro hsi
      apply hnoX
      show strictOverlapOn Axis2.X M1 B
      exact (strictOverlapOn_translate_other (v := ⟨0, dy⟩)
        (show (Vec2q.mk 0 dy).getAxis Axis2.X = 0 from rfl) B).mp hsi.1

/-- The everything-passes filter. -/
def allFilter : AnyCollision → Bool := fun _ => true

/-- A dynamic collider box stretching far outside its registration chunk:
its center `(840, 0)` lies in chunk `(1, 0)` (tile size 50, chunk span
800), but the box reaches back to `x = 30`. -/
def farBox : Aabb := ⟨⟨30, -10⟩, ⟨1650, 10⟩⟩

/-- World with no tiles and a single dynamic collider registered — by its
center, as `sys_add_collider` does — in chunk `(1, 0)`. -/
def farColliderWorld : KinWorld where
  config := TileLayerConfig.fromSize 50
  tiles := fun _ => 0
  descriptors := fun _ => none
  dynColliders := [(7, ⟨1, 0⟩, farBox)]

/-- C1 counterexample.  The collider is registered geometry and passes the
filter, its registration chunk is the one holding its center, and the
mover's delta `(100, 0)` is directed toward it with the blocker ahead —
yet `move_by` returns the full delta and the resolved mover ends up
overlapping the blocker by 40 world units on the swept axis: the
broad-phase only scans chunks covered by the sweep region grown by 10
units, which does not include the collider's registration chunk. -/
theorem moveBy_penetrates_far_chunk_collider :
    (7, (⟨1, 0⟩ : Vec2i), farBox) ∈ farColliderWorld.dynColliders ∧
    allFilter (AnyCollision.Collider 7 farBox) = true ∧
    TileLayerConfig.decomposeWorldPos
        (farColliderWorld.config.actorToTile farBox.center) = (⟨1, 0⟩, ⟨0, 0⟩) ∧
    moverBox.maxOn Axis2.X ≤ farBox.minOn Axis2.X ∧
    moveBy farColliderWorld moverBox ⟨100, 0⟩ allFilter = ⟨100, 0⟩ ∧
    (moverBox.translated
        (moveBy farColliderWorld moverBox ⟨100, 0⟩ allFilter)).strictIntersects
      farBox ∧
    overlapOn Axis2.X
        (moverBox.translated (moveBy farColliderWorld moverBox ⟨100, 0⟩ allFilter))
        farBox = 40 := by
  refine ⟨List.mem_singleton.mpr rfl, rfl, ?_, ?_, ?_, ?_, ?_⟩
  · with_unfolding_all rfl
  · with_unfolding_all decide
  · with_unfolding_all rfl
  · with_unfolding_all decide
  · with_unfolding_all rfl

/-- World with a single solid tile at `(2, 0)` whose collider descriptor is
the full unit box, so the blocker occupies `[100, 150] × [0, 50]`. -/
def unitTileWorld : KinWorld where
  config := TileLayerConfig.fromSize 50
  tiles := fun t => if t = ⟨2, 0⟩ then 1 else 0
  descriptors := fun m => if m = 1 then some [⟨⟨0, 0⟩, ⟨1, 1⟩⟩] else none
  dynColliders := []

/-- The blocking tile collider box of `unitTileWorld`. -/
def witnessTileBox : Aabb :=
  tileWorldBox (TileLayerConfig.fromSize 50) ⟨2, 0⟩ ⟨⟨0, 0⟩, ⟨1, 1⟩⟩

theorem moveBy_no_penetration_witness :
    0 < unitTileWorld.config.size ∧
    ((moverBox.translated
        (moveBy unitTileWorld moverBox ⟨100, 0⟩ tileFilter)).strictIntersects
        witnessTileBox →
      overlapOn Axis2.X
          (moverBox.translated (moveBy unitTileWorld moverBox ⟨100, 0⟩ tileFilter))
          witnessTileBox ≤ TOLERANCE) := by
  constructor
  · with_unfolding_all decide
  · exact moveBy_no_penetration unitTileWorld tileFilter moverBox
      witnessTileBox ⟨100, 0⟩ Axis2.X
      (by with_unfolding_all decide)
      (by with_unfolding_all decide)
      (Or.inl ⟨⟨2, 0⟩, ⟨⟨0, 0⟩, ⟨1, 1⟩⟩, [⟨⟨0, 0⟩, ⟨1, 1⟩⟩],
        by with_unfolding_all decide,
        by with_unfolding_all rfl,
        List.mem_singleton.mpr rfl,
        by with_unfolding_all decide,
        by with_unfolding_all rfl,
        rfl⟩)
      (by with_unfolding_all decide)
      (by with_unfolding_all decide)

/-! ## C5 / C6 — `step_ray` and `step_ray_tiles`

The ray stepper records, per axis, a crossing whenever the floor tile
index differs between the origin and the destination, then sorts the
crossings by distance and accumulates the entered tiles.

Embedding notes: the `dist` comparison of the source (`f32` distances,
`total_cmp`) is modelled by comparing squared distances, which orders
non-negative distances identically; the recorded field is therefore
`distSq`.  The source's `Vec2::length()` (used once per
`step_ray_tiles` call to normalise the ray) is modelled by `Rat.sqrt`
of the squared length, which agrees with the real square root whenever
that root is rational — as it is on every input evaluated below.  The
source's unbounded `while length > 0` loop, which runs exactly
`⌈length / size⌉` times for positive tile size, is written with that
iteration count as structural fuel. -/

/-- A tile face, embedding `TileFace` from `game/math/glam.rs` (missing
from the sources).  Modelled from the spec: the four cardinal directions,
composed from an axis and a travel sign. -/
inductive TileFace where
  | xn
  | xp
  | yn
  | yp
deriving DecidableEq, Repr

/-- `TileFace::compose(axis, sign)`. -/
def TileFace.compose (axis : Axis2) (sign : Sign) : TileFace :=
  match axis, sign with
  | Axis2.X, Sign.neg => TileFace.xn
  | Axis2.X, Sign.pos => TileFace.xp
  | Axis2.Y, Sign.neg => TileFace.yn
  | Axis2.Y, Sign.pos => TileFace.yp

/-- `TileFace::as_ivec`: the unit step into the adjacent tile. -/
def TileFace.asIVec : TileFace → Vec2i
  | TileFace.xn => ⟨-1, 0⟩
  | TileFace.xp => ⟨1, 0⟩
  | TileFace.yn => ⟨0, -1⟩
  | TileFace.yp => ⟨0, 1⟩

/-- `TileFace::invert`. -/
def TileFace.invert : TileFace → TileFace
  | TileFace.xn => TileFace.xp
  | TileFace.xp => TileFace.xn
  | TileFace.yn => TileFace.yp
  | TileFace.yp => TileFace.yn

/-- `TileFace::VARIANTS`. -/
def TileFace.variantsList : List TileFace :=
  [TileFace.xn, TileFace.xp, TileFace.yn, TileFace.yp]

/-- Modelled from the spec: the `norm` of a tile edge's axis-aligned line
(`tile_edge_line(tile, face).norm`): the world coordinate of the tile
rectangle's edge facing `face`. -/
def tileEdgeNorm (c : TileLayerConfig) (t : Vec2i) (face : TileFace) : ℚ :=
  match face with
  | TileFace.xn => (c.tileToActorRect t).min.x
  | TileFace.xp => (c.tileToActorRect t).max.x
  | TileFace.yn => (c.tileToActorRect t).min.y
  | TileFace.yp => (c.tileToActorRect t).max.y

/-- Modelled from the spec: `ilerp_f32(a, b, v)` from
`game/math/scalar.rs` (missing from the sources), the inverse linear
interpolation `(v - a) / (b - a)`. -/
def ilerpQ (a b v : ℚ) : ℚ := (v - a) / (b - a)

/-- `Vec2::lerp(self, rhs, s)` — glam's inherent method:
`self + (rhs - self) * s`. -/
def Vec2q.lerp (v rhs : Vec2q) (s : ℚ) : Vec2q :=
  v + (rhs - v).scale s

/-- Squared Euclidean length. -/
def Vec2q.lengthSq (v : Vec2q) : ℚ := v.x * v.x + v.y * v.y

/-- Euclidean length, modelled by `Rat.sqrt` (exact whenever the true
length is rational). -/
def Vec2q.length (v : Vec2q) : ℚ := Rat.sqrt v.lengthSq

/-- `RayIntersection` from `game/tile/data.rs`; `distSq` models the
source's `dist` field through its square. -/
structure RayIntersection where
  face : TileFace
  enteredTile : Vec2i
  isectPos : Vec2q
  distSq : ℚ
deriving DecidableEq, Repr

/-- The crossing recorded by `step_ray` for one axis, if the floor tile
index differs between origin and destination on that axis.  The
intersection position is computed exactly as the source does:
`origin.lerp(delta, ilerp(origin_v, dest_v, iface_v))` — note that the
interpolation runs from `origin` toward the point `delta`, not toward
`origin + delta`. -/
def stepRayAxisCrossing (c : TileLayerConfig) (origin delta : Vec2q)
    (axis : Axis2) : Option RayIntersection :=
  let originTile := c.actorToTile origin
  let dest := origin + delta
  let originValue := origin.getAxis axis
  let deltaValue := delta.getAxis axis
  let deltaSign := Sign.ofBiased deltaValue
  let destValue := dest.getAxis axis
  if c.actorToTileAxis axis originValue = c.actorToTileAxis axis destValue then
    none
  else
    let ifaceValue := tileEdgeNorm c originTile (TileFace.compose axis deltaSign)
    let isectPos := origin.lerp delta (ilerpQ originValue destValue ifaceValue)
    some
      { face := TileFace.compose axis deltaSign
        enteredTile := ⟨0, 0⟩
        isectPos := isectPos
        distSq := (isectPos - origin).lengthSq }

/-- Sorting of the collected crossings by distance.  `step_ray` collects
at most one crossing per axis, in X-before-Y insertion order, and sorts
with Rust's stable `sort_by` on `total_cmp` distances; on a two-element
list that swaps exactly when the second distance is strictly smaller,
and comparing non-negative distances coincides with comparing their
squares. -/
def sortByDistSq : List RayIntersection → List RayIntersection
  | [a, b] => if b.distSq < a.distSq then [b, a] else [a, b]
  | l => l

/-- The entered-tile accumulation pass of `step_ray`: walk the sorted
crossings, stepping the tile cursor by each crossing's face vector. -/
def accumEnteredTiles (start : Vec2i) :
    List RayIntersection → List RayIntersection
  | [] => []
  | i :: rest =>
    let tilePos := start + i.face.asIVec
    { i with enteredTile := tilePos } :: accumEnteredTiles tilePos rest

/-- `TileLayerConfig::step_ray`. -/
def stepRay (c : TileLayerConfig) (origin delta : Vec2q) :
    List RayIntersection :=
  let crossings :=
    (stepRayAxisCrossing c origin delta Axis2.X).toList ++
    (stepRayAxisCrossing c origin delta Axis2.Y).toList
  accumEnteredTiles (c.actorToTile origin) (sortByDistSq crossings)

/-- The loop body of `step_ray_tiles`, with the iteration count of the
source's `while length > 0` loop as structural fuel (for positive tile
size the loop runs exactly `⌈length / size⌉` times, which the callers
below always pass). -/
def stepRayTilesAux (c : TileLayerConfig) (delta : Vec2q) :
    ℕ → Vec2q → ℚ → List Vec2i
  | 0, _, _ => []
  | fuel + 1, origin, length =>
    if length ≤ 0 then []
    else
      let stepSize := Min.min length c.size
      (stepRay c origin (delta.scale stepSize)).map
          (fun i => i.enteredTile) ++
        stepRayTilesAux c delta fuel (origin + delta.scale stepSize)
          (length - stepSize)

/-- `step_ray_tiles` with the ray length λ-lifted (the source computes it
once at entry); the NaN guard on the normalised direction corresponds to
`length = 0` (a zero-length ray), in which case only the destination tile
is visited. -/
def stepRayTilesWith (c : TileLayerConfig) (src dst : Vec2q) (length : ℚ) :
    List Vec2i :=
  let delta := (dst - src).sdiv length
  (if length = 0 then []
   else stepRayTilesAux c delta ((⌈length / c.size⌉).toNat + 1) src length) ++
    [c.actorToTile dst]

/-- `TileLayerConfig::step_ray_tiles`, as the ordered list of tiles the
visitor is invoked on. -/
def stepRayTiles (c : TileLayerConfig) (src dst : Vec2q) : List Vec2i :=
  stepRayTilesWith c src dst ((dst - src).length)

/-- Tile-size-50 configuration used by the ray-stepping scenarios. -/
def cfg50 : TileLayerConfig := TileLayerConfig.fromSize 50

theorem stepRayTiles_scenario_eval :
    stepRayTiles cfg50 ⟨0, 0⟩ ⟨125, 0⟩ = [⟨1, 0⟩, ⟨2, 0⟩, ⟨2, 0⟩] := by
  show stepRayTilesWith cfg50 ⟨0, 0⟩ ⟨125, 0⟩
    (((⟨125, 0⟩ : Vec2q) - ⟨0, 0⟩).length) = _
  have hlen : (((⟨125, 0⟩ : Vec2q) - ⟨0, 0⟩).length) = 125 := by
    show Rat.sqrt _ = 125
    have h1 : ((⟨125, 0⟩ : Vec2q) - ⟨0, 0⟩).lengthSq = (125 : ℚ) * 125 := by
      with_unfolding_all rfl
    rw [h1, Rat.sqrt_eq]
    norm_num
  rw [hlen]
  with_unfolding_all rfl

/-- C5 (code evaluation at the failing input).  From origin `(10, 0)` with
delta `(50, 0)` at tile size 50, `step_ray` records a single `+X` crossing
of the origin tile's right edge, which lies at `x = 50` — but the stored
intersection position is `(42, 0)`, not on that boundary, and the stored
(squared) distance is `1024 = 32²`, not the boundary distance `40`:
`origin.lerp(delta, t)` interpolates from the origin toward the point
`delta`, not toward `origin + delta`. -/
theorem stepRay_crossing_off_boundary :
    stepRay cfg50 ⟨10, 0⟩ ⟨50, 0⟩ =
      [{ face := TileFace.xp, enteredTile := ⟨1, 0⟩, isectPos := ⟨42, 0⟩,
         distSq := 1024 }] ∧
    tileEdgeNorm cfg50 (cfg50.actorToTile ⟨10, 0⟩) TileFace.xp = 50 ∧
    (42 : ℚ) ≠ 50 ∧ (1024 : ℚ) ≠ 40 * 40 := by
  refine ⟨?_, ?_, by norm_num, by norm_num⟩
  · with_unfolding_all rfl
  · with_unfolding_all rfl

/-- C6 counterexample.  `step_ray_tiles` from `(0, 0)` to `(125, 0)` with
tile size 50 invokes its visitor on `(1, 0)`, `(2, 0)`, `(2, 0)` — the
origin tile `(0, 0)` is never visited, because `step_ray` only yields the
tiles *entered* by boundary crossings. -/
theorem stepRayTiles_scenario_counterexample :
    stepRayTiles cfg50 ⟨0, 0⟩ ⟨125, 0⟩ ≠
      [⟨0, 0⟩, ⟨1, 0⟩, ⟨2, 0⟩, ⟨2, 0⟩] ∧
    (⟨0, 0⟩ : Vec2i) ∉ stepRayTiles cfg50 ⟨0, 0⟩ ⟨125, 0⟩ := by
  rw [stepRayTiles_scenario_eval]
  refine ⟨by simp, by simp⟩

/-- C6 (amended).  With tile size 50, `step_ray_tiles` from `(0, 0)` to
`(125, 0)` invokes its visitor on the entered tiles `(1, 0)` and `(2, 0)`
in that order, and then on the destination tile `(2, 0)` once more as the
final visit; the starting tile `(0, 0)` is not visited. -/
theorem stepRayTiles_scenario_visits :
    stepRayTiles cfg50 ⟨0, 0⟩ ⟨125, 0⟩ = [⟨1, 0⟩, ⟨2, 0⟩, ⟨2, 0⟩] ∧
    (stepRayTiles cfg50 ⟨0, 0⟩ ⟨125, 0⟩).getLast? =
      some (cfg50.actorToTile ⟨125, 0⟩) := by
  rw [stepRayTiles_scenario_eval]
  refine ⟨rfl, ?_⟩
  have h : cfg50.actorToTile ⟨125, 0⟩ = ⟨2, 0⟩ := by with_unfolding_all rfl
  rw [h]
  rfl

/-! ## C7 / C8 / C10 — the chunked tile world as a state machine

State of one `TileWorld` plus the arena of `TileChunk` objects and the
`TrackedColliderChunk` attachments, with the mutations of
`TileWorld::insert_chunk`, `TileWorld::chunk_or_create`,
`TileChunk::remove_from_world`, `get_collider_chunk_or_insert` and
`WorldColliders::collisions` as state transformers.  Chunk objects are
identified by the order of allocation (`spawn_entity`); the 16×16 tile
array of a chunk is not carried, since none of the claims below read
tiles.  `WorldCreatedChunk` events are recorded as the list of chunk
entities they were fired for, in order. -/

/-- Neighbor slots of a chunk, one per cardinal face
(`neighbors: [Option<Obj<TileChunk>>; 4]`). -/
structure Neighbors where
  xn : Option ℕ
  xp : Option ℕ
  yn : Option ℕ
  yp : Option ℕ
deriving DecidableEq, Repr

/-- Read a neighbor slot (`neighbors[face as usize]`). -/
def Neighbors.get (n : Neighbors) : TileFace → Option ℕ
  | TileFace.xn => n.xn
  | TileFace.xp => n.xp
  | TileFace.yn => n.yn
  | TileFace.yp => n.yp

/-- Write a neighbor slot. -/
def Neighbors.set (n : Neighbors) : TileFace → Option ℕ → Neighbors
  | TileFace.xn, v => { n with xn := v }
  | TileFace.xp, v => { n with xp := v }
  | TileFace.yn, v => { n with yn := v }
  | TileFace.yp, v => { n with yp := v }

/-- One `TileChunk`'s bookkeeping state: world back-reference, own
coordinate, neighbor links. -/
structure ChunkData where
  world : Option Unit
  pos : Vec2i
  neighbors : Neighbors
deriving DecidableEq, Repr

/-- `TileChunk::default()`. -/
def ChunkData.default : ChunkData :=
  { world := none, pos := ⟨0, 0⟩, neighbors := ⟨none, none, none, none⟩ }

/-- Contents of one `TrackedColliderChunk` (the parallel sequences). -/
structure ColliderChunkData where
  aabbs : List Aabb
  handles : List EntityId
deriving DecidableEq, Repr

/-- Association-list lookup (`FxHashMap` model): the value of the first
entry with the given key. -/
def assocGet {α β : Type} [DecidableEq α] : List (α × β) → α → Option β
  | [], _ => none
  | e :: rest, k => if e.1 = k then some e.2 else assocGet rest k

/-- Remove a key (`FxHashMap::remove`, result map only). -/
def assocErase {α β : Type} [DecidableEq α] (l : List (α × β)) (k : α) :
    List (α × β) :=
  l.filter fun e => !(decide (e.1 = k))

/-- Insert-or-replace a key (`FxHashMap::insert`, result map only;
iteration order of the map is never observed by the modelled code). -/
def assocPut {α β : Type} [DecidableEq α] (l : List (α × β)) (k : α)
    (v : β) : List (α × β) :=
  (k, v) :: assocErase l k

/-- The world-and-arena state. -/
structure WorldState where
  config : TileLayerConfig
  nextId : ℕ
  chunkMap : List (Vec2i × ℕ)
  data : ℕ → Option ChunkData
  events : List ℕ
  colliderChunks : List (ℕ × ColliderChunkData)

/-- Update one chunk object in the arena. -/
def setChunkData (w : WorldState) (id : ℕ) (f : ChunkData → ChunkData) :
    WorldState :=
  { w with data := fun i => if i = id then (w.data i).map f else w.data i }

/-- One iteration of `insert_chunk`'s neighbor-linking loop: look up the
chunk at `pos + face`, store it in the new chunk's slot for `face`, and
if present, point its reciprocal slot back at the new chunk. -/
def insertChunkLink (pos : Vec2i) (id : ℕ) (w : WorldState)
    (face : TileFace) : WorldState :=
  let neighbor := assocGet w.chunkMap (pos + face.asIVec)
  let w1 := setChunkData w id fun cd =>
    { cd with neighbors := cd.neighbors.set face neighbor }
  match neighbor with
  | some nid =>
    setChunkData w1 nid fun cd =>
      { cd with neighbors := cd.neighbors.set face.invert (some id) }
  | none => w1

/-- `TileWorld::insert_chunk`: set the chunk's world back-reference and
coordinate, register it in the map, then link all four faces. -/
def insertChunk (w : WorldState) (pos : Vec2i) (id : ℕ) : WorldState :=
  let w1 := setChunkData w id fun cd =>
    { cd with world := some (), pos := pos }
  let w2 := { w1 with chunkMap := assocPut w1.chunkMap pos id }
  TileFace.variantsList.foldl (insertChunkLink pos id) w2

/-- `TileWorld::chunk_or_create`: return the existing chunk, or allocate
a fresh entity with a default `TileChunk`, insert it, and fire the
`WorldCreatedChunk` event before returning. -/
def chunkOrCreate (w : WorldState) (pos : Vec2i) : ℕ × WorldState :=
  match assocGet w.chunkMap pos with
  | some id => (id, w)
  | none =>
    let id := w.nextId
    let w1 := { w with
      nextId := w.nextId + 1
      data := fun i => if i = id then some ChunkData.default else w.data i }
    let w2 := insertChunk w1 pos id
    (id, { w2 with events := w2.events ++ [id] })

/-- One iteration of `remove_from_world`'s loop over the (snapshotted)
neighbor slots `σ`: a populated slot's chunk gets its reciprocal slot
nulled. -/
def remClearStep (σ : TileFace → Option ℕ) (wacc : WorldState)
    (face : TileFace) : WorldState :=
  match σ face with
  | some nid =>
    setChunkData wacc nid fun c =>
      { c with neighbors := c.neighbors.set face.invert none }
  | none => wacc

/-- `TileChunk::remove_from_world`: if the chunk still has a world, clear
its back-reference, erase its map entry, and null every populated
neighbor's reciprocal slot. -/
def removeFromWorld (w : WorldState) (id : ℕ) : WorldState :=
  match w.data id with
  | none => w
  | some cd =>
    match cd.world with
    | none => w
    | some _ =>
      let w1 := setChunkData w id fun c => { c with world := none }
      let w2 := { w1 with chunkMap := assocErase w1.chunkMap cd.pos }
      TileFace.variantsList.foldl (remClearStep cd.neighbors.get) w2

/-- `get_collider_chunk_or_insert`: attach an empty
`TrackedColliderChunk` to the chunk entity unless one is present. -/
def getColliderChunkOrInsert (w : WorldState) (id : ℕ) : WorldState :=
  match assocGet w.colliderChunks id with
  | some _ => w
  | none =>
    { w with colliderChunks := assocPut w.colliderChunks id ⟨[], []⟩ }

/-- The state effect of one covered chunk inside
`WorldColliders::collisions`: `chunk_or_create` followed by
`get_collider_chunk_or_insert`. -/
def collisionsVisit (w : WorldState) (cc : Vec2i) : WorldState :=
  let r := chunkOrCreate w cc
  getColliderChunkOrInsert r.2 r.1

/-- The state effect of `WorldColliders::collisions(aabb)`: visit every
chunk coordinate covered by the query grown by the fixed 10-unit margin. -/
def collisionsEff (w : WorldState) (aabb : Aabb) : WorldState :=
  (coveredChunks w.config aabb).foldl collisionsVisit w

/-- The chunk-world operations whose interleavings the claims quantify
over. -/
inductive WorldOp where
  | create (pos : Vec2i)
  | remove (id : ℕ)
deriving DecidableEq, Repr

/-- Apply one operation. -/
def applyWorldOp (w : WorldState) : WorldOp → WorldState
  | WorldOp.create pos => (chunkOrCreate w pos).2
  | WorldOp.remove id => removeFromWorld w id

/-- The empty world. -/
def initialWorld (cfg : TileLayerConfig) : WorldState :=
  { config := cfg, nextId := 0, chunkMap := [], data := fun _ => none,
    events := [], colliderChunks := [] }

/-- Run a sequence of operations from the empty world. -/
def runWorldOps (cfg : TileLayerConfig) (ops : List WorldOp) : WorldState :=
  ops.foldl applyWorldOp (initialWorld cfg)

theorem assocGet_put_same {α β : Type} [DecidableEq α] (l : List (α × β))
    (k : α) (v : β) : assocGet (assocPut l k v) k = some v := by
  simp [assocGet, assocPut]

theorem assocGet_erase_other {α β : Type} [DecidableEq α]
    (l : List (α × β)) {k k' : α} (h : k' ≠ k) :
    assocGet (assocErase l k) k' = assocGet l k' := by
  induction l with
  | nil => rfl
  | cons e rest ih =>
    unfold assocErase at ih ⊢
    rw [List.filter_cons]
    by_cases he : e.1 = k
    · rw [if_neg (by simp [he])]
      rw [ih]
      have hne : ¬ e.1 = k' := by
        rw [he]; exact fun hh => h hh.symm
      simp [assocGet, hne]
    · rw [if_pos (by simp [he])]
      by_cases he' : e.1 = k'
      · simp [assocGet, he']
      · simp only [assocGet, he', if_neg, if_false]
        exact ih

theorem assocGet_put_other {α β : Type} [DecidableEq α] (l : List (α × β))
    {k k' : α} (v : β) (h : k' ≠ k) :
    assocGet (assocPut l k v) k' = assocGet l k' := by
  unfold assocPut
  have hkk : ¬ (k = k') := fun hh => h hh.symm
  show (if k = k' then some v else assocGet (assocErase l k) k') = _
  rw [if_neg hkk]
  exact assocGet_erase_other l h

theorem assocGet_erase_same {α β : Type} [DecidableEq α]
    (l : List (α × β)) (k : α) : assocGet (assocErase l k) k = none := by
  induction l with
  | nil => rfl
  | cons e rest ih =>
    unfold assocErase at ih ⊢
    rw [List.filter_cons]
    by_cases he : e.1 = k
    · rw [if_neg (by simp [he])]
      exact ih
    · rw [if_pos (by simp [he])]
      simp only [assocGet, he, if_neg, if_false]
      exact ih

theorem setChunkData_chunkMap (w : WorldState) (id : ℕ)
    (f : ChunkData → ChunkData) : (setChunkData w id f).chunkMap = w.chunkMap :=
  rfl

theorem setChunkData_events (w : WorldState) (id : ℕ)
    (f : ChunkData → ChunkData) : (setChunkData w id f).events = w.events :=
  rfl

theorem insertChunkLink_chunkMap (pos : Vec2i) (id : ℕ) (w : WorldState)
    (face : TileFace) :
    (insertChunkLink pos id w face).chunkMap = w.chunkMap := by
  unfold insertChunkLink
  cases assocGet w.chunkMap (pos + face.asIVec) <;> rfl

theorem insertChunkLink_events (pos : Vec2i) (id : ℕ) (w : WorldState)
    (face : TileFace) :
    (insertChunkLink pos id w face).events = w.events := by
  unfold insertChunkLink
  cases assocGet w.chunkMap (pos + face.asIVec) <;> rfl

theorem insertChunkLink_nextId (pos : Vec2i) (id : ℕ) (w : WorldState)
    (face : TileFace) :
    (insertChunkLink pos id w face).nextId = w.nextId := by
  unfold insertChunkLink
  cases assocGet w.chunkMap (pos + face.asIVec) <;> rfl

theorem insertChunkLink_colliderChunks (pos : Vec2i) (id : ℕ)
    (w : WorldState) (face : TileFace) :
    (insertChunkLink pos id w face).colliderChunks = w.colliderChunks := by
  unfold insertChunkLink
  cases assocGet w.chunkMap (pos + face.asIVec) <;> rfl

theorem linkFold_chunkMap (pos : Vec2i) (id : ℕ) :
    ∀ (L : List TileFace) (w : WorldState),
      (L.foldl (insertChunkLink pos id) w).chunkMap = w.chunkMap := by
  intro L
  induction L with
  | nil => intro w; rfl
  | cons f rest ih =>
    intro w
    rw [List.foldl_cons, ih, insertChunkLink_chunkMap]

theorem linkFold_events (pos : Vec2i) (id : ℕ) :
    ∀ (L : List TileFace) (w : WorldState),
      (L.foldl (insertChunkLink pos id) w).events = w.events := by
  intro L
  induction L with
  | nil => intro w; rfl
  | cons f rest ih =>
    intro w
    rw [List.foldl_cons, ih, insertChunkLink_events]

theorem insertChunk_chunkMap (w : WorldState) (pos : Vec2i) (id : ℕ) :
    (insertChunk w pos id).chunkMap = assocPut w.chunkMap pos id := by
  unfold insertChunk
  rw [linkFold_chunkMap]
  rfl

theorem insertChunk_events (w : WorldState) (pos : Vec2i) (id : ℕ) :
    (insertChunk w pos id).events = w.events := by
  unfold insertChunk
  rw [linkFold_events]
  rfl

/-- C7.  `chunk_or_create` is idempotent: a second call with the same
coordinate returns the same chunk and leaves the state untouched (in
particular it fires no event); the `WorldCreatedChunk` event is fired
exactly on the allocating call — appended once, in a state where the
chunk is already registered in the world map — and never on later calls. -/
theorem chunkOrCreate_idempotent (w : WorldState) (c : Vec2i) :
    (chunkOrCreate (chunkOrCreate w c).2 c).1 = (chunkOrCreate w c).1 ∧
    (chunkOrCreate (chunkOrCreate w c).2 c).2 = (chunkOrCreate w c).2 ∧
    assocGet (chunkOrCreate w c).2.chunkMap c = some (chunkOrCreate w c).1 ∧
    (chunkOrCreate w c).2.events =
      (if (assocGet w.chunkMap c).isSome then w.events
       else w.events ++ [(chunkOrCreate w c).1]) := by
  rcases hc : assocGet w.chunkMap c with _ | id
  · set w1 : WorldState := { w with
      nextId := w.nextId + 1
      data := fun i =>
        if i = w.nextId then some ChunkData.default else w.data i } with hw1
    set w2 := insertChunk w1 c w.nextId with hw2
    set wf : WorldState := { w2 with events := w2.events ++ [w.nextId] }
      with hwf
    have h1 : chunkOrCreate w c = (w.nextId, wf) := by
      unfold chunkOrCreate
      rw [hc]
    have hmap : assocGet wf.chunkMap c = some w.nextId := by
      show assocGet w2.chunkMap c = some w.nextId
      rw [hw2, insertChunk_chunkMap, assocGet_put_same]
    have hsecond : chunkOrCreate wf c = (w.nextId, wf) := by
      unfold chunkOrCreate
      rw [hmap]
    refine ⟨?_, ?_, ?_, ?_⟩
    · rw [h1, hsecond]
    · rw [h1, hsecond]
    · rw [h1]
      exact hmap
    · rw [h1]
      show wf.events = w.events ++ [w.nextId]
      show w2.events ++ [w.nextId] = w.events ++ [w.nextId]
      rw [hw2, insertChunk_events]
  · have h1 : chunkOrCreate w c = (id, w) := by
      unfold chunkOrCreate
      rw [hc]
    refine ⟨?_, ?_, ?_, ?_⟩
    · rw [h1, h1]
    · rw [h1, h1]
    · rw [h1]
      exact hc
    · rw [h1]
      rfl

theorem Neighbors.get_set_same (n : Neighbors) (f : TileFace)
    (v : Option ℕ) : (n.set f v).get f = v := by
  cases f <;> rfl

theorem Neighbors.get_set_other (n : Neighbors) {f g : TileFace}
    {v : Option ℕ} (h : g ≠ f) : (n.set f v).get g = n.get g := by
  cases f <;> cases g <;> first
    | rfl
    | exact absurd rfl h

theorem Vec2i.add_x_eq (a b : Vec2i) : (a + b).x = a.x + b.x := rfl

theorem Vec2i.add_y_eq (a b : Vec2i) : (a + b).y = a.y + b.y := rfl

theorem TileFace.add_asIVec_inj {pos : Vec2i} {f g : TileFace}
    (h : pos + f.asIVec = pos + g.asIVec) : f = g := by
  have hx : f.asIVec.x = g.asIVec.x := by
    have := congrArg Vec2i.x h
    rw [Vec2i.add_x_eq, Vec2i.add_x_eq] at this
    omega
  have hy : f.asIVec.y = g.asIVec.y := by
    have := congrArg Vec2i.y h
    rw [Vec2i.add_y_eq, Vec2i.add_y_eq] at this
    omega
  cases f <;> cases g <;> simp_all [TileFace.asIVec]

theorem setChunkData_data_same (w : WorldState) (id : ℕ)
    (f : ChunkData → ChunkData) :
    (setChunkData w id f).data id = (w.data id).map f := by
  simp [setChunkData]

theorem setChunkData_data_other (w : WorldState) {i id : ℕ}
    {f : ChunkData → ChunkData} (h : i ≠ id) :
    (setChunkData w id f).data i = w.data i := by
  simp [setChunkData, h]

theorem insertChunkLink_config (pos : Vec2i) (id : ℕ) (w : WorldState)
    (face : TileFace) :
    (insertChunkLink pos id w face).config = w.config := by
  unfold insertChunkLink
  cases assocGet w.chunkMap (pos + face.asIVec) <;> rfl

/-- Effect of `insert_chunk`'s linking loop on the arena, for a face list
without repeats, when none of the adjacent map entries is the new chunk
itself and the map does not alias one chunk id under two coordinates. -/
theorem linkFold_spec (pos : Vec2i) (id : ℕ) :
    ∀ (L : List TileFace), L.Nodup →
    ∀ (w : WorldState),
      (∀ f, f ∈ L → assocGet w.chunkMap (pos + f.asIVec) ≠ some id) →
      (∀ p1 p2 i, assocGet w.chunkMap p1 = some i →
        assocGet w.chunkMap p2 = some i → p1 = p2) →
      (∀ cd0, w.data id = some cd0 →
        ∃ cd1, (L.foldl (insertChunkLink pos id) w).data id = some cd1 ∧
          cd1.world = cd0.world ∧ cd1.pos = cd0.pos ∧
          (∀ f, f ∈ L →
            cd1.neighbors.get f = assocGet w.chunkMap (pos + f.asIVec)) ∧
          (∀ f, f ∉ L → cd1.neighbors.get f = cd0.neighbors.get f)) ∧
      (∀ i, i ≠ id →
        (∀ f, f ∈ L → assocGet w.chunkMap (pos + f.asIVec) ≠ some i) →
        (L.foldl (insertChunkLink pos id) w).data i = w.data i) ∧
      (∀ f, f ∈ L → ∀ i, i ≠ id →
        assocGet w.chunkMap (pos + f.asIVec) = some i →
        ∀ cd0, w.data i = some cd0 →
        ∃ cd1, (L.foldl (insertChunkLink pos id) w).data i = some cd1 ∧
          cd1.world = cd0.world ∧ cd1.pos = cd0.pos ∧
          cd1.neighbors.get f.invert = some id ∧
          (∀ g, g ≠ f.invert →
            cd1.neighbors.get g = cd0.neighbors.get g)) := by
  intro L
  induction L with
  | nil =>
    intro _ w _ _
    refine ⟨?_, ?_, ?_⟩
    · intro cd0 h0
      exact ⟨cd0, h0, rfl, rfl, fun f hf => absurd hf (List.not_mem_nil f),
        fun f _ => rfl⟩
    · intro i _ _
      rfl
    · intro f hf
      exact absurd hf (List.not_mem_nil f)
  | cons a rest ih =>
    intro hnd w hscope hvinj
    have hndr : rest.Nodup := (List.nodup_cons.mp hnd).2
    have hanr : a ∉ rest := (List.nodup_cons.mp hnd).1
    -- State after processing face `a`.
    set wa := insertChunkLink pos id w a with hwa
    have hmap : wa.chunkMap = w.chunkMap := insertChunkLink_chunkMap _ _ _ _
    have hscope' : ∀ f, f ∈ rest →
        assocGet wa.chunkMap (pos + f.asIVec) ≠ some id := by
      intro f hf
      rw [hmap]
      exact hscope f (List.mem_cons_of_mem a hf)
    have hvinj' : ∀ p1 p2 i, assocGet wa.chunkMap p1 = some i →
        assocGet wa.chunkMap p2 = some i → p1 = p2 := by
      rw [hmap]; exact hvinj
    obtain ⟨ihid, ihun, ihnb⟩ := ih hndr wa hscope' hvinj'
    -- Effect of the single step on the arena.
    have hstep_id : ∀ cd0, w.data id = some cd0 →
        wa.data id = some { cd0 with
          neighbors :=
            cd0.neighbors.set a (assocGet w.chunkMap (pos + a.asIVec)) } := by
      intro cd0 h0
      rw [hwa]
      unfold insertChunkLink
      rcases hn : assocGet w.chunkMap (pos + a.asIVec) with _ | nid
      · simp only []
        rw [setChunkData_data_same, h0]
        rfl
      · have hnid : nid ≠ id := fun he => hscope a (List.mem_cons_self a rest)
          (he ▸ hn)
        simp only []
        rw [setChunkData_data_other _ (fun he => hnid he.symm)]
        rw [setChunkData_data_same, h0]
        rfl
    have hstep_none : w.data id = none → wa.data id = none := by
      intro h0
      rw [hwa]
      unfold insertChunkLink
      rcases hn : assocGet w.chunkMap (pos + a.asIVec) with _ | nid
      · simp only []
        rw [setChunkData_data_same, h0]
        rfl
      · have hnid : nid ≠ id := fun he => hscope a (List.mem_cons_self a rest)
          (he ▸ hn)
        simp only []
        rw [setChunkData_data_other _ (fun he => hnid he.symm)]
        rw [setChunkData_data_same, h0]
        rfl
    have hstep_other : ∀ i, i ≠ id →
        assocGet w.chunkMap (pos + a.asIVec) ≠ some i →
        wa.data i = w.data i := by
      intro i hi hni
      rw [hwa]
      unfold insertChunkLink
      rcases hn : assocGet w.chunkMap (pos + a.asIVec) with _ | nid
      · simp only []
        rw [setChunkData_data_other _ hi]
      · have : i ≠ nid := fun he => hni (he ▸ hn)
        simp only []
        rw [setChunkData_data_other _ this, setChunkData_data_other _ hi]
    have hstep_nb : ∀ i, i ≠ id →
        assocGet w.chunkMap (pos + a.asIVec) = some i →
        ∀ cd0, w.data i = some cd0 →
        wa.data i = some { cd0 with
          neighbors := cd0.neighbors.set a.invert (some id) } := by
      intro i hi hn cd0 h0
      rw [hwa]
      unfold insertChunkLink
      rw [hn]
      simp only []
      rw [setChunkData_data_same, setChunkData_data_other _ hi, h0]
      rfl
    refine ⟨?_, ?_, ?_⟩
    · -- the new chunk's own slots
      intro cd0 h0
      obtain ⟨cd1, hcd1, hw1, hp1, hin1, hout1⟩ :=
        ihid _ (hstep_id cd0 h0)
      refine ⟨cd1, by rw [List.foldl_cons]; exact hcd1, hw1, hp1, ?_, ?_⟩
      · intro f hf
        rcases List.mem_cons.mp hf with rfl | hf'
        · rw [hout1 f hanr, Neighbors.get_set_same]
        · rw [hin1 f hf', hmap]
      · intro f hf
        have hfa : f ≠ a := fun he => hf (he ▸ List.mem_cons_self a rest)
        have hfr : f ∉ rest := fun he => hf (List.mem_cons_of_mem a he)
        rw [hout1 f hfr, Neighbors.get_set_other _ hfa]
    · -- chunks untouched by the loop
      intro i hi hni
      rw [List.foldl_cons]
      rw [ihun i hi (fun f hf => by
        rw [hmap]; exact hni f (List.mem_cons_of_mem a hf))]
      exact hstep_other i hi (hni a (List.mem_cons_self a rest))
    · -- patched neighbors
      intro f hf i hi hn cd0 h0
      rcases List.mem_cons.mp hf with rfl | hf'
      · -- patched by the head step, untouched afterwards
        have huntouched : ∀ g, g ∈ rest →
            assocGet wa.chunkMap (pos + g.asIVec) ≠ some i := by
          intro g hg he
          rw [hmap] at he
          have := hvinj _ _ i he hn
          exact hanr (TileFace.add_asIVec_inj this ▸ hg)
        rw [List.foldl_cons]
        rw [ihun i hi huntouched]
        refine ⟨{ cd0 with
          neighbors := cd0.neighbors.set f.invert (some id) },
          hstep_nb i hi hn cd0 h0, rfl, rfl, ?_, ?_⟩
        · rw [Neighbors.get_set_same]
        · intro g hg
          rw [Neighbors.get_set_other _ hg]
      · -- patched by the tail fold; the head step leaves `i` alone
        have hne_a : assocGet w.chunkMap (pos + a.asIVec) ≠ some i := by
          intro he
          have := hvinj _ _ i he hn
          exact hanr ((TileFace.add_asIVec_inj this).symm ▸ hf')
        have hwai : wa.data i = some cd0 := by
          rw [hstep_other i hi hne_a]
          exact h0
        obtain ⟨cd1, hcd1, hw1, hp1, hs1, ho1⟩ :=
          ihnb f hf' i hi (by rw [hmap]; exact hn) cd0 hwai
        exact ⟨cd1, by rw [List.foldl_cons]; exact hcd1, hw1, hp1, hs1, ho1⟩

/-- Effect of `remove_from_world`'s reciprocal-clearing loop, for a face
list without repeats whose populated slots name pairwise-distinct
chunks. -/
theorem remFold_spec (σ : TileFace → Option ℕ) :
    ∀ (L : List TileFace), L.Nodup →
    ∀ (w : WorldState),
      (∀ f g i, f ∈ L → g ∈ L → σ f = some i → σ g = some i → f = g) →
      ((L.foldl (remClearStep σ) w).chunkMap = w.chunkMap ∧
       (L.foldl (remClearStep σ) w).events = w.events) ∧
      (∀ i, (∀ f, f ∈ L → σ f ≠ some i) →
        (L.foldl (remClearStep σ) w).data i = w.data i) ∧
      (∀ f, f ∈ L → ∀ i, σ f = some i → ∀ cd0, w.data i = some cd0 →
        ∃ cd1, (L.foldl (remClearStep σ) w).data i = some cd1 ∧
          cd1.world = cd0.world ∧ cd1.pos = cd0.pos ∧
          cd1.neighbors.get f.invert = none ∧
          (∀ g, g ≠ f.invert →
            cd1.neighbors.get g = cd0.neighbors.get g)) := by
  intro L
  induction L with
  | nil =>
    intro _ w _
    exact ⟨⟨rfl, rfl⟩, fun i _ => rfl,
      fun f hf => absurd hf (List.not_mem_nil f)⟩
  | cons a rest ih =>
    intro hnd w hdist
    have hndr : rest.Nodup := (List.nodup_cons.mp hnd).2
    have hanr : a ∉ rest := (List.nodup_cons.mp hnd).1
    have hdist' : ∀ f g i, f ∈ rest → g ∈ rest → σ f = some i →
        σ g = some i → f = g := fun f g i hf hg =>
      hdist f g i (List.mem_cons_of_mem a hf) (List.mem_cons_of_mem a hg)
    rcases hσa : σ a with _ | nid
    · -- head face has no neighbor: the step is the identity
      have hfold : (a :: rest).foldl (remClearStep σ) w =
          rest.foldl (remClearStep σ) w := by
        rw [List.foldl_cons]
        show rest.foldl (remClearStep σ) (remClearStep σ w a) = _
        unfold remClearStep
        rw [hσa]
      obtain ⟨⟨ihm, ihe⟩, ihun, ihnb⟩ := ih hndr w hdist'
      rw [hfold]
      refine ⟨⟨ihm, ihe⟩, ?_, ?_⟩
      · intro i hi
        exact ihun i fun f hf => hi f (List.mem_cons_of_mem a hf)
      · intro f hf i hσf cd0 h0
        rcases List.mem_cons.mp hf with rfl | hf'
        · rw [hσa] at hσf
          exact absurd hσf (by simp)
        · exact ihnb f hf' i hσf cd0 h0
    · -- head face patches chunk `nid`
      set wa := setChunkData w nid (fun c =>
        { c with neighbors := c.neighbors.set a.invert none }) with hwa
      have hfold : (a :: rest).foldl (remClearStep σ) w =
          rest.foldl (remClearStep σ) wa := by
        rw [List.foldl_cons]
        show rest.foldl (remClearStep σ) (remClearStep σ w a) = _
        unfold remClearStep
        rw [hσa]
      obtain ⟨⟨ihm, ihe⟩, ihun, ihnb⟩ := ih hndr wa hdist'
      rw [hfold]
      refine ⟨⟨by rw [ihm]; rfl, by rw [ihe]; rfl⟩, ?_, ?_⟩
      · intro i hi
        rw [ihun i fun f hf => hi f (List.mem_cons_of_mem a hf)]
        rw [hwa]
        exact setChunkData_data_other _
          fun he => hi a (List.mem_cons_self a rest) (he ▸ hσa)
      · intro f hf i hσf cd0 h0
        rcases List.mem_cons.mp hf with rfl | hf'
        · -- patched by the head step, untouched afterwards
          have hieq : nid = i := by
            rw [hσa] at hσf
            exact Option.some.inj hσf
          subst hieq
          have huntouched : ∀ g, g ∈ rest → σ g ≠ some nid := by
            intro g hg he
            exact hanr ((hdist f g nid (List.mem_cons_self f rest)
              (List.mem_cons_of_mem f hg) hσa he) ▸ hg)
          rw [ihun nid huntouched, hwa, setChunkData_data_same, h0]
          refine ⟨{ cd0 with
            neighbors := cd0.neighbors.set f.invert none }, rfl, rfl, rfl,
            ?_, ?_⟩
          · rw [Neighbors.get_set_same]
          · intro g hg
            rw [Neighbors.get_set_other _ hg]
        · -- patched by the tail fold
          have hne : nid ≠ i := by
            intro he
            exact hanr ((hdist a f i (List.mem_cons_self a rest)
              (List.mem_cons_of_mem a hf') (he ▸ hσa) hσf) ▸ hf')
          have hwai : wa.data i = some cd0 := by
            rw [hwa]
            rw [setChunkData_data_other _ (fun he => hne he.symm)]
            exact h0
          exact ihnb f hf' i hσf cd0 hwai

theorem TileFace.mem_variants (f : TileFace) : f ∈ TileFace.variantsList := by
  cases f <;> simp [TileFace.variantsList]

theorem TileFace.variants_nodup : TileFace.variantsList.Nodup := by decide

theorem Vec2i.ext_xy_of {a b : Vec2i} (hx : a.x = b.x) (hy : a.y = b.y) :
    a = b := by
  cases a; cases b; simp_all

theorem TileFace.pos_add_ne (p : Vec2i) (f : TileFace) :
    p + f.asIVec ≠ p := by
  intro h
  have hx := congrArg Vec2i.x h
  have hy := congrArg Vec2i.y h
  rw [Vec2i.add_x_eq] at hx
  rw [Vec2i.add_y_eq] at hy
  cases f <;> simp [TileFace.asIVec] at hx hy <;> omega

theorem TileFace.add_invert_cancel (p : Vec2i) (f : TileFace) :
    (p + f.asIVec) + f.invert.asIVec = p := by
  apply Vec2i.ext_xy_of
  · rw [Vec2i.add_x_eq, Vec2i.add_x_eq]
    cases f <;> simp [TileFace.asIVec, TileFace.invert] <;> omega
  · rw [Vec2i.add_y_eq, Vec2i.add_y_eq]
    cases f <;> simp [TileFace.asIVec, TileFace.invert] <;> omega

theorem TileFace.eq_add_invert {c p : Vec2i} {f : TileFace}
    (h : c = p + f.asIVec) : p = c + f.invert.asIVec := by
  rw [h, TileFace.add_invert_cancel]

theorem assocGet_put {α β : Type} [DecidableEq α] (l : List (α × β))
    (k : α) (v : β) (k' : α) :
    assocGet (assocPut l k v) k' =
      if k' = k then some v else assocGet l k' := by
  by_cases h : k' = k
  · subst h
    rw [if_pos rfl]
    exact assocGet_put_same l k' v
  · rw [if_neg h]
    exact assocGet_put_other l v h

/-- The chunk-world invariant: map entries are live chunks at their own
coordinate, live chunks are registered at their coordinate, every live
chunk's neighbor slot on a face equals the map entry at the adjacent
coordinate, and ids at or above the allocation cursor are unused. -/
def WInv (w : WorldState) : Prop :=
  (∀ p i, assocGet w.chunkMap p = some i →
    ∃ cd, w.data i = some cd ∧ cd.pos = p ∧ cd.world = some ()) ∧
  (∀ i cd, w.data i = some cd → cd.world = some () →
    assocGet w.chunkMap cd.pos = some i) ∧
  (∀ i cd f, w.data i = some cd → cd.world = some () →
    cd.neighbors.get f = assocGet w.chunkMap (cd.pos + f.asIVec)) ∧
  (∀ i, w.nextId ≤ i → w.data i = none)

theorem WInv.vinj {w : WorldState} (h : WInv w) :
    ∀ p1 p2 i, assocGet w.chunkMap p1 = some i →
      assocGet w.chunkMap p2 = some i → p1 = p2 := by
  intro p1 p2 i h1 h2
  obtain ⟨cd1, hd1, hp1, _⟩ := h.1 p1 i h1
  obtain ⟨cd2, hd2, hp2, _⟩ := h.1 p2 i h2
  rw [hd1] at hd2
  rw [← hp1, ← hp2, Option.some.inj hd2]

theorem WInv_chunkOrCreate {w : WorldState} (h : WInv w) (c : Vec2i) :
    WInv (chunkOrCreate w c).2 := by
  rcases hc : assocGet w.chunkMap c with _ | id0
  case some =>
    have h1 : chunkOrCreate w c = (id0, w) := by
      unfold chunkOrCreate
      rw [hc]
    rw [h1]
    exact h
  case none =>
  obtain ⟨hI1, hI2, hI3, hI4⟩ := h
  set id := w.nextId with hiddef
  set w1 : WorldState := { w with
    nextId := w.nextId + 1
    data := fun i => if i = id then some ChunkData.default else w.data i }
    with hw1
  set w2 := insertChunk w1 c id with hw2
  set wf : WorldState := { w2 with events := w2.events ++ [id] } with hwf
  have h1 : chunkOrCreate w c = (id, wf) := by
    unfold chunkOrCreate
    rw [hc]
  rw [h1]
  -- The state that enters the linking loop.
  set wpre : WorldState :=
    { setChunkData w1 id fun cd => { cd with world := some (), pos := c } with
      chunkMap :=
        assocPut (setChunkData w1 id fun cd =>
          { cd with world := some (), pos := c }).chunkMap c id } with hwpre
  have hw2eq : w2 = TileFace.variantsList.foldl (insertChunkLink c id) wpre := by
    rw [hw2]
    unfold insertChunk
    rfl
  have hpremap : wpre.chunkMap = assocPut w.chunkMap c id := rfl
  have hpredata_id : wpre.data id =
      some { world := some (), pos := c, neighbors := ⟨none, none, none, none⟩ } := by
    show (setChunkData w1 id _).data id = _
    rw [setChunkData_data_same]
    show (if id = id then some ChunkData.default else w.data id).map _ = _
    rw [if_pos rfl]
    rfl
  have hpredata_other : ∀ i, i ≠ id → wpre.data i = w.data i := by
    intro i hi
    show (setChunkData w1 id _).data i = _
    rw [setChunkData_data_other _ hi]
    show (if i = id then some ChunkData.default else w.data i) = _
    rw [if_neg hi]
  have hfresh : ∀ p i', assocGet w.chunkMap p = some i' → i' ≠ id := by
    intro p i' hp he
    obtain ⟨cd, hd, _, _⟩ := hI1 p i' hp
    rw [hI4 i' (le_of_eq (he ▸ hiddef).symm)] at hd
    exact Option.noConfusion hd
  have hlookup : ∀ p, assocGet wpre.chunkMap p =
      if p = c then some id else assocGet w.chunkMap p := by
    intro p
    rw [hpremap]
    exact assocGet_put w.chunkMap c id p
  have hscope : ∀ f, f ∈ TileFace.variantsList →
      assocGet wpre.chunkMap (c + f.asIVec) ≠ some id := by
    intro f _ he
    rw [hlookup, if_neg (TileFace.pos_add_ne c f)] at he
    exact hfresh _ id he rfl
  have hvinj : ∀ p1 p2 i, assocGet wpre.chunkMap p1 = some i →
      assocGet wpre.chunkMap p2 = some i → p1 = p2 := by
    intro p1 p2 i hp1 hp2
    rw [hlookup] at hp1 hp2
    by_cases e1 : p1 = c <;> by_cases e2 : p2 = c
    · rw [e1, e2]
    · rw [if_pos e1] at hp1
      rw [if_neg e2] at hp2
      exact absurd (Option.some.inj hp1 ▸ hp2 : _ = some id)
        (fun hh => hfresh _ id hh rfl)
    · rw [if_neg e1] at hp1
      rw [if_pos e2] at hp2
      exact absurd (Option.some.inj hp2 ▸ hp1 : _ = some id)
        (fun hh => hfresh _ id hh rfl)
    · rw [if_neg e1] at hp1
      rw [if_neg e2] at hp2
      exact WInv.vinj ⟨hI1, hI2, hI3, hI4⟩ p1 p2 i hp1 hp2
  obtain ⟨specId, specUn, specNb⟩ :=
    linkFold_spec c id TileFace.variantsList TileFace.variants_nodup wpre
      hscope hvinj
  -- Final state facts.
  have hfmap : wf.chunkMap = assocPut w.chunkMap c id := by
    show w2.chunkMap = _
    rw [hw2eq, linkFold_chunkMap, hpremap]
  have hfdata : wf.data = w2.data := rfl
  have hfnext : wf.nextId = w.nextId + 1 := by
    show w2.nextId = _
    rw [hw2eq]
    have : ∀ (L : List TileFace) (ws : WorldState),
        (L.foldl (insertChunkLink c id) ws).nextId = ws.nextId := by
      intro L
      induction L with
      | nil => intro ws; rfl
      | cons a rest ih =>
        intro ws
        rw [List.foldl_cons, ih, insertChunkLink_nextId]
    rw [this]
    rfl
  have hflookup : ∀ p, assocGet wf.chunkMap p =
      if p = c then some id else assocGet w.chunkMap p := by
    intro p
    rw [hfmap]
    exact assocGet_put w.chunkMap c id p
  -- The new chunk's final record.
  obtain ⟨cdN, hcdN, hcdNw, hcdNp, hcdNin, _⟩ := specId _ hpredata_id
  have hcdN' : wf.data id = some cdN := by
    rw [hfdata, hw2eq]
    exact hcdN
  -- Arena characterization for other ids.
  have hother : ∀ i, i ≠ id → w.data i = none → wf.data i = none := by
    intro i hi hnone
    by_cases hadj : ∃ f, f ∈ TileFace.variantsList ∧
        assocGet wpre.chunkMap (c + f.asIVec) = some i
    · obtain ⟨f, hf, hlk⟩ := hadj
      rw [hlookup, if_neg (TileFace.pos_add_ne c f)] at hlk
      obtain ⟨cd, hd, _, _⟩ := hI1 _ i hlk
      rw [hnone] at hd
      exact Option.noConfusion hd
    · push_neg at hadj
      rw [hfdata, hw2eq, specUn i hi hadj, hpredata_other i hi]
      exact hnone
  refine ⟨?_, ?_, ?_, ?_⟩
  · -- map entries are live chunks at their coordinate
    intro p i hp
    rw [hflookup] at hp
    by_cases hpc : p = c
    · rw [if_pos hpc] at hp
      refine ⟨cdN, ?_, ?_, ?_⟩
      · rw [← Option.some.inj hp]
        exact hcdN'
      · rw [hcdNp, hpc]
      · rw [hcdNw]
    · rw [if_neg hpc] at hp
      obtain ⟨cd0, hd0, hp0, hw0⟩ := hI1 p i hp
      have hiid : i ≠ id := hfresh p i hp
      by_cases hadj : ∃ f, f ∈ TileFace.variantsList ∧
          assocGet wpre.chunkMap (c + f.asIVec) = some i
      · obtain ⟨f, hf, hlk⟩ := hadj
        obtain ⟨cd1, hd1, hw1, hp1, _, _⟩ := specNb f hf i hiid hlk _
          (by rw [hpredata_other i hiid]; exact hd0)
        refine ⟨cd1, ?_, ?_, ?_⟩
        · rw [hfdata, hw2eq]
          exact hd1
        · rw [hp1, hp0]
        · rw [hw1, hw0]
      · push_neg at hadj
        refine ⟨cd0, ?_, hp0, hw0⟩
        rw [hfdata, hw2eq, specUn i hiid hadj, hpredata_other i hiid]
        exact hd0
  · -- live chunks are registered
    intro i cd hd hw
    by_cases hiid : i = id
    · subst hiid
      rw [hcdN'] at hd
      rw [← Option.some.inj hd, hcdNp, hflookup, if_pos rfl]
    · by_cases hadj : ∃ f, f ∈ TileFace.variantsList ∧
          assocGet wpre.chunkMap (c + f.asIVec) = some i
      · obtain ⟨f, hf, hlk⟩ := hadj
        have hlk' := hlk
        rw [hlookup, if_neg (TileFace.pos_add_ne c f)] at hlk'
        obtain ⟨cd0, hd0, hp0, hw0⟩ := hI1 _ i hlk'
        obtain ⟨cd1, hd1, hw1, hp1, _, _⟩ := specNb f hf i hiid hlk _
          (by rw [hpredata_other i hiid]; exact hd0)
        rw [hfdata, hw2eq] at hd
        rw [hd1] at hd
        rw [← Option.some.inj hd, hp1, hp0, hflookup,
          if_neg (TileFace.pos_add_ne c f)]
        exact hlk'
      · push_neg at hadj
        rw [hfdata, hw2eq, specUn i hiid hadj, hpredata_other i hiid] at hd
        have hreg := hI2 i cd hd hw
        rw [hflookup, if_neg]
        · exact hreg
        · intro hh
          rw [hh] at hreg
          rw [hreg] at hc
          exact Option.noConfusion hc
  · -- neighbor slots equal the map at the adjacent coordinate
    intro i cd f hd hw
    by_cases hiid : i = id
    · subst hiid
      rw [hcdN'] at hd
      rw [← Option.some.inj hd, hcdNp]
      rw [hcdNin f (TileFace.mem_variants f), hlookup, hflookup]
    · by_cases hadj : ∃ g, g ∈ TileFace.variantsList ∧
          assocGet wpre.chunkMap (c + g.asIVec) = some i
      · obtain ⟨g, hg, hlk⟩ := hadj
        have hlk' := hlk
        rw [hlookup, if_neg (TileFace.pos_add_ne c g)] at hlk'
        obtain ⟨cd0, hd0, hp0, hw0⟩ := hI1 _ i hlk'
        obtain ⟨cd1, hd1, hw1, hp1, hinv, hoth⟩ := specNb g hg i hiid hlk _
          (by rw [hpredata_other i hiid]; exact hd0)
        rw [hfdata, hw2eq] at hd
        rw [hd1] at hd
        rw [← Option.some.inj hd]
        by_cases hfg : f = g.invert
        · subst hfg
          rw [hinv, hp1, hp0, TileFace.add_invert_cancel, hflookup,
            if_pos rfl]
        · rw [hoth f hfg, hI3 i cd0 f hd0 hw0, hp1, hp0, hflookup, if_neg]
          intro hh
          have hthis := TileFace.eq_add_invert hh.symm
          have hgf := TileFace.add_asIVec_inj hthis
          exact hfg (by rw [hgf]; cases f <;> rfl)
      · push_neg at hadj
        rw [hfdata, hw2eq, specUn i hiid hadj, hpredata_other i hiid] at hd
        have hnb := hI3 i cd f hd hw
        rw [hnb, hflookup, if_neg]
        intro hh
        -- the chunk would be adjacent to `c`, hence patched by the loop
        have hpos : cd.pos = c + f.invert.asIVec :=
          TileFace.eq_add_invert hh.symm
        have hreg := hI2 i cd hd hw
        apply hadj f.invert (TileFace.mem_variants _)
        rw [hlookup, if_neg (TileFace.pos_add_ne c f.invert), ← hpos]
        exact hreg
  · -- ids at or above the cursor are unused
    intro i hi
    rw [hfnext] at hi
    have hiid : i ≠ id := by omega
    exact hother i hiid (hI4 i (by omega))

theorem remClearStep_nextId (σ : TileFace → Option ℕ) (w : WorldState)
    (face : TileFace) : (remClearStep σ w face).nextId = w.nextId := by
  unfold remClearStep
  cases σ face <;> rfl

theorem remFold_nextId (σ : TileFace → Option ℕ) :
    ∀ (L : List TileFace) (w : WorldState),
      (L.foldl (remClearStep σ) w).nextId = w.nextId := by
  intro L
  induction L with
  | nil => intro w; rfl
  | cons a rest ih =>
    intro w
    rw [List.foldl_cons, ih, remClearStep_nextId]

theorem assocGet_erase {α β : Type} [DecidableEq α] (l : List (α × β))
    (k k' : α) :
    assocGet (assocErase l k) k' =
      if k' = k then none else assocGet l k' := by
  by_cases h : k' = k
  · subst h
    rw [if_pos rfl]
    exact assocGet_erase_same l k'
  · rw [if_neg h]
    exact assocGet_erase_other l h

theorem WInv_removeFromWorld {w : WorldState} (h : WInv w) (id : ℕ) :
    WInv (removeFromWorld w id) := by
  obtain ⟨hI1, hI2, hI3, hI4⟩ := h
  rcases hd : w.data id with _ | cd
  · unfold removeFromWorld
    simp only [hd]
    exact ⟨hI1, hI2, hI3, hI4⟩
  rcases hw : cd.world with _ | u
  · unfold removeFromWorld
    simp only [hd, hw]
    exact ⟨hI1, hI2, hI3, hI4⟩
  cases u
  -- the chunk is live; the removal runs in full
  set σ := cd.neighbors.get with hσdef
  set w1 := setChunkData w id (fun c => { c with world := none }) with hw1
  set w2 : WorldState := { w1 with chunkMap := assocErase w1.chunkMap cd.pos }
    with hw2
  have hres : removeFromWorld w id =
      TileFace.variantsList.foldl (remClearStep σ) w2 := by
    unfold removeFromWorld
    simp only [hd, hw]
  rw [hres]
  have hreg : assocGet w.chunkMap cd.pos = some id := hI2 id cd hd hw
  have hσ : ∀ f, σ f = assocGet w.chunkMap (cd.pos + f.asIVec) :=
    fun f => hI3 id cd f hd hw
  have hvinj := WInv.vinj ⟨hI1, hI2, hI3, hI4⟩
  have hσ_ne_id : ∀ f i, σ f = some i → i ≠ id := by
    intro f i hf he
    subst he
    rw [hσ] at hf
    exact TileFace.pos_add_ne cd.pos f (hvinj _ _ i hf hreg)
  have hdist : ∀ f g i, f ∈ TileFace.variantsList →
      g ∈ TileFace.variantsList → σ f = some i → σ g = some i → f = g := by
    intro f g i _ _ hf hg
    rw [hσ] at hf hg
    exact TileFace.add_asIVec_inj (hvinj _ _ i hf hg)
  obtain ⟨⟨sm, se⟩, sun, snb⟩ :=
    remFold_spec σ TileFace.variantsList TileFace.variants_nodup w2 hdist
  have hw2map : w2.chunkMap = assocErase w.chunkMap cd.pos := rfl
  have hw2id : w2.data id = some { cd with world := none } := by
    show (setChunkData w id _).data id = _
    rw [setChunkData_data_same, hd]
    rfl
  have hw2other : ∀ i, i ≠ id → w2.data i = w.data i := by
    intro i hi
    show (setChunkData w id _).data i = _
    rw [setChunkData_data_other _ hi]
  have hflookup : ∀ p,
      assocGet (TileFace.variantsList.foldl (remClearStep σ) w2).chunkMap p =
        if p = cd.pos then none else assocGet w.chunkMap p := by
    intro p
    rw [sm, hw2map]
    exact assocGet_erase w.chunkMap cd.pos p
  have hfid : (TileFace.variantsList.foldl (remClearStep σ) w2).data id =
      some { cd with world := none } := by
    rw [sun id (fun f hf he => hσ_ne_id f id he rfl)]
    exact hw2id
  refine ⟨?_, ?_, ?_, ?_⟩
  · -- map entries are live chunks at their coordinate
    intro p i hp
    rw [hflookup] at hp
    by_cases hpc : p = cd.pos
    · rw [if_pos hpc] at hp
      exact Option.noConfusion hp
    · rw [if_neg hpc] at hp
      obtain ⟨cd0, hd0, hp0, hw0⟩ := hI1 p i hp
      have hiid : i ≠ id := by
        intro he
        exact hpc (hvinj p cd.pos i hp (he ▸ hreg))
      by_cases hhit : ∃ f, f ∈ TileFace.variantsList ∧ σ f = some i
      · obtain ⟨f, hf, hσf⟩ := hhit
        obtain ⟨cd1, hd1, hw1', hp1, _, _⟩ := snb f hf i hσf cd0
          (by rw [hw2other i hiid]; exact hd0)
        exact ⟨cd1, hd1, by rw [hp1, hp0], by rw [hw1', hw0]⟩
      · push_neg at hhit
        refine ⟨cd0, ?_, hp0, hw0⟩
        rw [sun i hhit, hw2other i hiid]
        exact hd0
  · -- live chunks are registered
    intro i cd' hd' hw'
    by_cases hiid : i = id
    · subst hiid
      rw [hfid] at hd'
      have : cd'.world = none := by
        rw [← Option.some.inj hd']
      rw [this] at hw'
      exact Option.noConfusion hw'
    · by_cases hhit : ∃ f, f ∈ TileFace.variantsList ∧ σ f = some i
      · obtain ⟨f, hf, hσf⟩ := hhit
        have hlk := hσf
        rw [hσ] at hlk
        obtain ⟨cd0, hd0, hp0, hw0⟩ := hI1 _ i hlk
        obtain ⟨cd1, hd1, hw1', hp1, _, _⟩ := snb f hf i hσf cd0
          (by rw [hw2other i hiid]; exact hd0)
        rw [hd1] at hd'
        rw [← Option.some.inj hd', hp1, hp0, hflookup,
          if_neg (fun hh => TileFace.pos_add_ne cd.pos f hh)]
        exact hlk
      · push_neg at hhit
        rw [sun i hhit, hw2other i hiid] at hd'
        have hreg' := hI2 i cd' hd' hw'
        rw [hflookup, if_neg]
        · exact hreg'
        · intro hh
          rw [hh] at hreg'
          rw [hreg] at hreg'
          exact hiid (Option.some.inj hreg').symm
  · -- neighbor slots equal the map at the adjacent coordinate
    intro i cd' f hd' hw'
    by_cases hiid : i = id
    · subst hiid
      rw [hfid] at hd'
      have : cd'.world = none := by
        rw [← Option.some.inj hd']
      rw [this] at hw'
      exact Option.noConfusion hw'
    · by_cases hhit : ∃ g, g ∈ TileFace.variantsList ∧ σ g = some i
      · obtain ⟨g, hg, hσg⟩ := hhit
        have hlk := hσg
        rw [hσ] at hlk
        obtain ⟨cd0, hd0, hp0, hw0⟩ := hI1 _ i hlk
        obtain ⟨cd1, hd1, hw1', hp1, hinv, hoth⟩ := snb g hg i hσg cd0
          (by rw [hw2other i hiid]; exact hd0)
        rw [hd1] at hd'
        rw [← Option.some.inj hd']
        by_cases hfg : f = g.invert
        · subst hfg
          rw [hinv, hp1, hp0, TileFace.add_invert_cancel, hflookup,
            if_pos rfl]
        · rw [hoth f hfg, hI3 i cd0 f hd0 hw0, hp1, hp0, hflookup, if_neg]
          intro hh
          have hthis := TileFace.eq_add_invert hh.symm
          have hgf := TileFace.add_asIVec_inj hthis
          exact hfg (by rw [hgf]; cases f <;> rfl)
      · push_neg at hhit
        rw [sun i hhit, hw2other i hiid] at hd'
        have hnb := hI3 i cd' f hd' hw'
        rw [hnb, hflookup, if_neg]
        intro hh
        have hpos : cd'.pos = cd.pos + f.invert.asIVec :=
          TileFace.eq_add_invert hh.symm
        have hreg' := hI2 i cd' hd' hw'
        apply hhit f.invert (TileFace.mem_variants _)
        rw [hσ, ← hpos]
        exact hreg'
  · -- ids at or above the cursor are unused
    intro i hi
    rw [remFold_nextId] at hi
    have hi' : w.nextId ≤ i := hi
    have hiid : i ≠ id := by
      intro he
      have hnone := hI4 id (he ▸ hi')
      rw [hnone] at hd
      exact Option.noConfusion hd
    by_cases hhit : ∃ f, f ∈ TileFace.variantsList ∧ σ f = some i
    · obtain ⟨f, hf, hσf⟩ := hhit
      rw [hσ] at hσf
      obtain ⟨cd0, hd0, _, _⟩ := hI1 _ i hσf
      rw [hI4 i hi'] at hd0
      exact Option.noConfusion hd0
    · push_neg at hhit
      rw [sun i hhit, hw2other i hiid]
      exact hI4 i hi'

theorem WInv_initial (cfg : TileLayerConfig) : WInv (initialWorld cfg) := by
  refine ⟨?_, ?_, ?_, ?_⟩
  · intro p i hp
    exact Option.noConfusion hp
  · intro i cd hd
    exact Option.noConfusion hd
  · intro i cd f hd
    exact Option.noConfusion hd
  · intro i _
    rfl

theorem WInv_foldl (ops : List WorldOp) :
    ∀ w : WorldState, WInv w → WInv (ops.foldl applyWorldOp w) := by
  induction ops with
  | nil => intro w h; exact h
  | cons op rest ih =>
    intro w h
    rw [List.foldl_cons]
    apply ih
    cases op with
    | create pos => exact WInv_chunkOrCreate h pos
    | remove id => exact WInv_removeFromWorld h id

theorem WInv_run (cfg : TileLayerConfig) (ops : List WorldOp) :
    WInv (runWorldOps cfg ops) :=
  WInv_foldl ops (initialWorld cfg) (WInv_initial cfg)

/-- Removing a live chunk clears its world back-reference and erases its
map entry. -/
theorem removeFromWorld_facts {w : WorldState} (h : WInv w) {id : ℕ}
    {cd : ChunkData} (hd : w.data id = some cd) (hw : cd.world = some ()) :
    ∃ cd', (removeFromWorld w id).data id = some cd' ∧ cd'.world = none ∧
      assocGet (removeFromWorld w id).chunkMap cd.pos = none := by
  obtain ⟨hI1, hI2, hI3, hI4⟩ := h
  set σ := cd.neighbors.get with hσdef
  set w1 := setChunkData w id (fun c => { c with world := none }) with hw1
  set w2 : WorldState := { w1 with chunkMap := assocErase w1.chunkMap cd.pos }
    with hw2
  have hres : removeFromWorld w id =
      TileFace.variantsList.foldl (remClearStep σ) w2 := by
    unfold removeFromWorld
    simp only [hd, hw]
  rw [hres]
  have hreg : assocGet w.chunkMap cd.pos = some id := hI2 id cd hd hw
  have hvinj := WInv.vinj ⟨hI1, hI2, hI3, hI4⟩
  have hσ : ∀ f, σ f = assocGet w.chunkMap (cd.pos + f.asIVec) :=
    fun f => hI3 id cd f hd hw
  have hσ_ne_id : ∀ f i, σ f = some i → i ≠ id := by
    intro f i hf he
    subst he
    rw [hσ] at hf
    exact TileFace.pos_add_ne cd.pos f (hvinj _ _ i hf hreg)
  have hdist : ∀ f g i, f ∈ TileFace.variantsList →
      g ∈ TileFace.variantsList → σ f = some i → σ g = some i → f = g := by
    intro f g i _ _ hf hg
    rw [hσ] at hf hg
    exact TileFace.add_asIVec_inj (hvinj _ _ i hf hg)
  obtain ⟨⟨sm, se⟩, sun, snb⟩ :=
    remFold_spec σ TileFace.variantsList TileFace.variants_nodup w2 hdist
  refine ⟨{ cd with world := none }, ?_, rfl, ?_⟩
  · rw [sun id (fun f hf he => hσ_ne_id f id he rfl)]
    show (setChunkData w id _).data id = _
    rw [setChunkData_data_same, hd]
    rfl
  · rw [sm]
    show assocGet (assocErase w.chunkMap cd.pos) cd.pos = none
    exact assocGet_erase_same w.chunkMap cd.pos

/-- C8.  After every finite sequence of chunk creations and removals:
cardinally adjacent live chunks hold each other in the facing neighbor
slots; a live chunk's slot on a face is populated precisely when the
world map holds a chunk at the adjacent coordinate; removing a live chunk
clears its world back-reference and erases its map entry; and no live
chunk's neighbor slot references a chunk whose world back-reference is
cleared. -/
theorem worldOps_neighbor_symmetry (cfg : TileLayerConfig)
    (ops : List WorldOp) :
    (∀ idA cdA idB cdB f,
      (runWorldOps cfg ops).data idA = some cdA → cdA.world = some () →
      (runWorldOps cfg ops).data idB = some cdB → cdB.world = some () →
      cdB.pos = cdA.pos + f.asIVec →
      cdA.neighbors.get f = some idB ∧
        cdB.neighbors.get f.invert = some idA) ∧
    (∀ idA cdA f,
      (runWorldOps cfg ops).data idA = some cdA → cdA.world = some () →
      ((cdA.neighbors.get f).isSome ↔
        (assocGet (runWorldOps cfg ops).chunkMap
          (cdA.pos + f.asIVec)).isSome)) ∧
    (∀ id cd,
      (runWorldOps cfg ops).data id = some cd → cd.world = some () →
      ∃ cd', (runWorldOps cfg (ops ++ [WorldOp.remove id])).data id
          = some cd' ∧
        cd'.world = none ∧
        assocGet (runWorldOps cfg (ops ++ [WorldOp.remove id])).chunkMap
          cd.pos = none) ∧
    (∀ id cd,
      (runWorldOps cfg ops).data id = some cd → cd.world = none →
      ∀ i cdi f, (runWorldOps cfg ops).data i = some cdi →
        cdi.world = some () → cdi.neighbors.get f ≠ some id) := by
  obtain ⟨hI1, hI2, hI3, hI4⟩ := WInv_run cfg ops
  refine ⟨?_, ?_, ?_, ?_⟩
  · intro idA cdA idB cdB f hdA hwA hdB hwB hadj
    have hregB := hI2 idB cdB hdB hwB
    have hregA := hI2 idA cdA hdA hwA
    constructor
    · rw [hI3 idA cdA f hdA hwA, ← hadj]
      exact hregB
    · rw [hI3 idB cdB f.invert hdB hwB, hadj, TileFace.add_invert_cancel]
      exact hregA
  · intro idA cdA f hdA hwA
    rw [hI3 idA cdA f hdA hwA]
  · intro id cd hd hw
    have hrun : runWorldOps cfg (ops ++ [WorldOp.remove id]) =
        removeFromWorld (runWorldOps cfg ops) id := by
      unfold runWorldOps
      rw [List.foldl_append]
      rfl
    rw [hrun]
    exact removeFromWorld_facts (WInv_run cfg ops) hd hw
  · intro id cd hd hw i cdi f hdi hwi hslot
    rw [hI3 i cdi f hdi hwi] at hslot
    obtain ⟨cd', hd', _, hw'⟩ := hI1 _ id hslot
    rw [hd] at hd'
    rw [← Option.some.inj hd'] at hw'
    rw [hw] at hw'
    exact Option.noConfusion hw'

theorem linkFold_nextId (pos : Vec2i) (id : ℕ) :
    ∀ (L : List TileFace) (w : WorldState),
      (L.foldl (insertChunkLink pos id) w).nextId = w.nextId := by
  intro L
  induction L with
  | nil => intro w; rfl
  | cons f rest ih =>
    intro w
    rw [List.foldl_cons, ih, insertChunkLink_nextId]

theorem linkFold_colliderChunks (pos : Vec2i) (id : ℕ) :
    ∀ (L : List TileFace) (w : WorldState),
      (L.foldl (insertChunkLink pos id) w).colliderChunks
        = w.colliderChunks := by
  intro L
  induction L with
  | nil => intro w; rfl
  | cons f rest ih =>
    intro w
    rw [List.foldl_cons, ih, insertChunkLink_colliderChunks]

theorem linkFold_config (pos : Vec2i) (id : ℕ) :
    ∀ (L : List TileFace) (w : WorldState),
      (L.foldl (insertChunkLink pos id) w).config = w.config := by
  intro L
  induction L with
  | nil => intro w; rfl
  | cons f rest ih =>
    intro w
    rw [List.foldl_cons, ih, insertChunkLink_config]

theorem insertChunk_nextId (w : WorldState) (pos : Vec2i) (id : ℕ) :
    (insertChunk w pos id).nextId = w.nextId := by
  unfold insertChunk
  rw [linkFold_nextId]
  rfl

theorem insertChunk_colliderChunks (w : WorldState) (pos : Vec2i) (id : ℕ) :
    (insertChunk w pos id).colliderChunks = w.colliderChunks := by
  unfold insertChunk
  rw [linkFold_colliderChunks]
  rfl

theorem insertChunk_config (w : WorldState) (pos : Vec2i) (id : ℕ) :
    (insertChunk w pos id).config = w.config := by
  unfold insertChunk
  rw [linkFold_config]
  rfl

/-- Frame facts about `chunk_or_create`: it leaves configuration and
collider chunks alone, only ever adds the requested coordinate to the
map, and allocates (advancing the cursor and firing one event) exactly
when the coordinate was absent. -/
theorem chunkOrCreate_frame (w : WorldState) (c : Vec2i) :
    (chunkOrCreate w c).2.config = w.config ∧
    (chunkOrCreate w c).2.colliderChunks = w.colliderChunks ∧
    w.nextId ≤ (chunkOrCreate w c).2.nextId ∧
    (∀ cc', cc' ≠ c → assocGet (chunkOrCreate w c).2.chunkMap cc' =
      assocGet w.chunkMap cc') ∧
    assocGet (chunkOrCreate w c).2.chunkMap c = some (chunkOrCreate w c).1 ∧
    (∀ cc' id', assocGet w.chunkMap cc' = some id' →
      assocGet (chunkOrCreate w c).2.chunkMap cc' = some id') ∧
    (assocGet w.chunkMap c = none →
      (chunkOrCreate w c).2.nextId = w.nextId + 1 ∧
      (chunkOrCreate w c).2.events.length = w.events.length + 1 ∧
      (chunkOrCreate w c).1 = w.nextId) ∧
    (∀ i0, assocGet w.chunkMap c = some i0 →
      (chunkOrCreate w c).2 = w ∧ (chunkOrCreate w c).1 = i0) := by
  rcases hc : assocGet w.chunkMap c with _ | id0
  · set w1 : WorldState := { w with
      nextId := w.nextId + 1
      data := fun i =>
        if i = w.nextId then some ChunkData.default else w.data i } with hw1
    set w2 := insertChunk w1 c w.nextId with hw2
    set wf : WorldState := { w2 with events := w2.events ++ [w.nextId] }
      with hwf
    have h1 : chunkOrCreate w c = (w.nextId, wf) := by
      unfold chunkOrCreate
      rw [hc]
    have hmap : wf.chunkMap = assocPut w.chunkMap c w.nextId := by
      show w2.chunkMap = assocPut w.chunkMap c w.nextId
      rw [hw2, insertChunk_chunkMap]
    have hnext : wf.nextId = w.nextId + 1 := by
      show w2.nextId = w.nextId + 1
      rw [hw2, insertChunk_nextId]
    have hcoll : wf.colliderChunks = w.colliderChunks := by
      show w2.colliderChunks = w.colliderChunks
      rw [hw2, insertChunk_colliderChunks]
    have hconf : wf.config = w.config := by
      show w2.config = w.config
      rw [hw2, insertChunk_config]
    have hev : wf.events.length = w.events.length + 1 := by
      show (w2.events ++ [w.nextId]).length = w.events.length + 1
      rw [hw2, insertChunk_events, List.length_append]
      rfl
    rw [h1]
    refine ⟨hconf, hcoll, ?_, ?_, ?_, ?_, ?_, ?_⟩
    · show w.nextId ≤ wf.nextId
      rw [hnext]
      omega
    · intro cc' hne
      show assocGet wf.chunkMap cc' = assocGet w.chunkMap cc'
      rw [hmap]
      exact assocGet_put_other w.chunkMap _ hne
    · show assocGet wf.chunkMap c = some w.nextId
      rw [hmap]
      exact assocGet_put_same w.chunkMap c w.nextId
    · intro cc' id' hsome
      rcases eq_or_ne cc' c with he | hne
      · subst he
        rw [hsome] at hc
        exact Option.noConfusion hc
      · show assocGet wf.chunkMap cc' = some id'
        rw [hmap, assocGet_put_other w.chunkMap _ hne]
        exact hsome
    · intro _
      exact ⟨hnext, hev, rfl⟩
    · intro i0 hsome
      exact Option.noConfusion hsome
  · have h1 : chunkOrCreate w c = (id0, w) := by
      unfold chunkOrCreate
      rw [hc]
    rw [h1]
    refine ⟨rfl, rfl, le_refl _, fun cc' _ => rfl, hc,
      fun cc' id' hsome => hsome, ?_, ?_⟩
    · intro hnone
      exact Option.noConfusion hnone
    · intro i0 hsome
      exact ⟨rfl, Option.some.inj hsome⟩

theorem getColliderChunkOrInsert_eq_of_some (w : WorldState) (id : ℕ)
    {v : ColliderChunkData} (h : assocGet w.colliderChunks id = some v) :
    getColliderChunkOrInsert w id = w := by
  unfold getColliderChunkOrInsert
  simp only [h]

theorem getColliderChunkOrInsert_eq_of_none (w : WorldState) (id : ℕ)
    (h : assocGet w.colliderChunks id = none) :
    getColliderChunkOrInsert w id =
      { w with colliderChunks := assocPut w.colliderChunks id ⟨[], []⟩ } := by
  unfold getColliderChunkOrInsert
  simp only [h]

theorem getColliderChunkOrInsert_frame (w : WorldState) (id : ℕ) :
    (getColliderChunkOrInsert w id).config = w.config ∧
    (getColliderChunkOrInsert w id).nextId = w.nextId ∧
    (getColliderChunkOrInsert w id).chunkMap = w.chunkMap ∧
    (getColliderChunkOrInsert w id).data = w.data ∧
    (getColliderChunkOrInsert w id).events = w.events := by
  rcases hc : assocGet w.colliderChunks id with _ | v
  · rw [getColliderChunkOrInsert_eq_of_none w id hc]
    exact ⟨rfl, rfl, rfl, rfl, rfl⟩
  · rw [getColliderChunkOrInsert_eq_of_some w id hc]
    exact ⟨rfl, rfl, rfl, rfl, rfl⟩

theorem WInv_getColliderChunkOrInsert {w : WorldState} (h : WInv w)
    (id : ℕ) : WInv (getColliderChunkOrInsert w id) := by
  rcases hc : assocGet w.colliderChunks id with _ | v
  · rw [getColliderChunkOrInsert_eq_of_none w id hc]
    exact h
  · rw [getColliderChunkOrInsert_eq_of_some w id hc]
    exact h

theorem getColliderChunkOrInsert_preserve (w : WorldState) (id : ℕ)
    {i : ℕ} {v : ColliderChunkData}
    (h : assocGet w.colliderChunks i = some v) :
    assocGet (getColliderChunkOrInsert w id).colliderChunks i = some v := by
  rcases hc : assocGet w.colliderChunks id with _ | v0
  · rw [getColliderChunkOrInsert_eq_of_none w id hc]
    show assocGet (assocPut w.colliderChunks id ⟨[], []⟩) i = some v
    rcases eq_or_ne i id with he | hne
    · subst he
      rw [h] at hc
      exact Option.noConfusion hc
    · rw [assocGet_put_other w.colliderChunks _ hne]
      exact h
  · rw [getColliderChunkOrInsert_eq_of_some w id hc]
    exact h

theorem getColliderChunkOrInsert_self (w : WorldState) (id : ℕ) :
    (assocGet (getColliderChunkOrInsert w id).colliderChunks id).isSome := by
  rcases hc : assocGet w.colliderChunks id with _ | v0
  · rw [getColliderChunkOrInsert_eq_of_none w id hc]
    show (assocGet (assocPut w.colliderChunks id ⟨[], []⟩) id).isSome
    rw [assocGet_put_same]
    rfl
  · rw [getColliderChunkOrInsert_eq_of_some w id hc, hc]
    rfl

theorem getColliderChunkOrInsert_fresh (w : WorldState) (id : ℕ)
    (h : assocGet w.colliderChunks id = none) :
    assocGet (getColliderChunkOrInsert w id).colliderChunks id
      = some ⟨[], []⟩ := by
  rw [getColliderChunkOrInsert_eq_of_none w id h]
  show assocGet (assocPut w.colliderChunks id ⟨[], []⟩) id = some ⟨[], []⟩
  exact assocGet_put_same _ _ _

theorem getColliderChunkOrInsert_none_above (w : WorldState) (id : ℕ)
    (hid : id < w.nextId)
    (hF : ∀ i, w.nextId ≤ i → assocGet w.colliderChunks i = none) :
    ∀ i, w.nextId ≤ i →
      assocGet (getColliderChunkOrInsert w id).colliderChunks i = none := by
  intro i hi
  rcases hc : assocGet w.colliderChunks id with _ | v0
  · rw [getColliderChunkOrInsert_eq_of_none w id hc]
    show assocGet (assocPut w.colliderChunks id ⟨[], []⟩) i = none
    have hne : i ≠ id := by omega
    rw [assocGet_put_other w.colliderChunks _ hne]
    exact hF i hi
  · rw [getColliderChunkOrInsert_eq_of_some w id hc]
    exact hF i hi

/-- Everything one visit of `collisions`'s per-chunk loop guarantees:
the invariant and configuration survive, the visited coordinate ends up
with a registered chunk carrying a collider chunk, other map entries and
existing collider chunks are untouched, collider chunks stay confined to
allocated ids, a fresh coordinate gets an empty collider chunk, and one
event fires exactly on a fresh coordinate. -/
theorem collisionsVisit_spec (w : WorldState) (cc : Vec2i) (h : WInv w)
    (hF : ∀ i, w.nextId ≤ i → assocGet w.colliderChunks i = none) :
    WInv (collisionsVisit w cc) ∧
    (collisionsVisit w cc).config = w.config ∧
    w.nextId ≤ (collisionsVisit w cc).nextId ∧
    (∀ cc', cc' ≠ cc → assocGet (collisionsVisit w cc).chunkMap cc' =
      assocGet w.chunkMap cc') ∧
    (∃ id, assocGet (collisionsVisit w cc).chunkMap cc = some id ∧
      (assocGet (collisionsVisit w cc).colliderChunks id).isSome) ∧
    (∀ i v, assocGet w.colliderChunks i = some v →
      assocGet (collisionsVisit w cc).colliderChunks i = some v) ∧
    (∀ i, (collisionsVisit w cc).nextId ≤ i →
      assocGet (collisionsVisit w cc).colliderChunks i = none) ∧
    (∀ cc' id', assocGet w.chunkMap cc' = some id' →
      assocGet (collisionsVisit w cc).chunkMap cc' = some id') ∧
    (assocGet w.chunkMap cc = none →
      ∃ id, assocGet (collisionsVisit w cc).chunkMap cc = some id ∧
        assocGet (collisionsVisit w cc).colliderChunks id = some ⟨[], []⟩) ∧
    (collisionsVisit w cc).events.length =
      (if assocGet w.chunkMap cc = none then w.events.length + 1
       else w.events.length) := by
  obtain ⟨C1, C2, C3, C4, C5, C6, C7, C8⟩ := chunkOrCreate_frame w cc
  set w1 := (chunkOrCreate w cc).2 with hw1
  set id := (chunkOrCreate w cc).1 with hid
  have hvis : collisionsVisit w cc = getColliderChunkOrInsert w1 id := rfl
  have hW1 : WInv w1 := WInv_chunkOrCreate h cc
  have hidlt : id < w1.nextId := by
    rcases hc : assocGet w.chunkMap cc with _ | i0
    · obtain ⟨hn, _, hidq⟩ := C7 hc
      rw [hn, hidq]
      omega
    · obtain ⟨hw1e, hide⟩ := C8 i0 hc
      obtain ⟨cd, hd, _, _⟩ := h.1 cc i0 hc
      have hlt : i0 < w.nextId := by
        by_contra hge
        rw [h.2.2.2 i0 (by omega)] at hd
        exact Option.noConfusion hd
      rw [hw1e, hide]
      exact hlt
  have hF1 : ∀ i, w1.nextId ≤ i → assocGet w1.colliderChunks i = none := by
    intro i hi
    rw [C2]
    exact hF i (le_trans C3 hi)
  obtain ⟨G1, G2, G3, G4, G5⟩ := getColliderChunkOrInsert_frame w1 id
  rw [hvis]
  refine ⟨?_, ?_, ?_, ?_, ?_, ?_, ?_, ?_, ?_, ?_⟩
  · exact WInv_getColliderChunkOrInsert hW1 id
  · rw [G1]
    exact C1
  · rw [G2]
    exact C3
  · intro cc' hne
    rw [G3]
    exact C4 cc' hne
  · exact ⟨id, by rw [G3]; exact C5, getColliderChunkOrInsert_self w1 id⟩
  · intro i v hv
    exact getColliderChunkOrInsert_preserve w1 id (by rw [C2]; exact hv)
  · intro i hi
    rw [G2] at hi
    exact getColliderChunkOrInsert_none_above w1 id hidlt hF1 i hi
  · intro cc' id' hsome
    rcases eq_or_ne cc' cc with he | hne
    · subst he
      rcases hc : assocGet w.chunkMap cc' with _ | i0
      · rw [hsome] at hc
        exact Option.noConfusion hc
      · obtain ⟨hw1e, _⟩ := C8 i0 hc
        rw [G3, hw1e]
        exact hsome
    · rw [G3, C4 cc' hne]
      exact hsome
  · intro hnone
    obtain ⟨_, _, hidq⟩ := C7 hnone
    refine ⟨id, by rw [G3]; exact C5, ?_⟩
    apply getColliderChunkOrInsert_fresh
    rw [C2, hidq]
    exact hF w.nextId (le_refl _)
  · rw [G5]
    rcases hc : assocGet w.chunkMap cc with _ | i0
    · obtain ⟨_, hev, _⟩ := C7 hc
      rw [if_pos rfl]
      exact hev
    · obtain ⟨hw1e, _⟩ := C8 i0 hc
      rw [if_neg (fun hx => Option.noConfusion hx), hw1e]

/-- The per-chunk loop of `collisions`, folded over a repetition-free
coordinate list: every listed coordinate ends up with a registered chunk
carrying a collider chunk (an empty one where the coordinate was fresh),
prior map entries and collider chunks survive, and the event count grows
by exactly the number of fresh listed coordinates. -/
theorem collisionsFold_spec :
    ∀ (L : List Vec2i), L.Nodup → ∀ w : WorldState, WInv w →
      (∀ i, w.nextId ≤ i → assocGet w.colliderChunks i = none) →
      WInv (L.foldl collisionsVisit w) ∧
      (L.foldl collisionsVisit w).config = w.config ∧
      w.nextId ≤ (L.foldl collisionsVisit w).nextId ∧
      (∀ cc' id', assocGet w.chunkMap cc' = some id' →
        assocGet (L.foldl collisionsVisit w).chunkMap cc' = some id') ∧
      (∀ i v, assocGet w.colliderChunks i = some v →
        assocGet (L.foldl collisionsVisit w).colliderChunks i = some v) ∧
      (∀ i, (L.foldl collisionsVisit w).nextId ≤ i →
        assocGet (L.foldl collisionsVisit w).colliderChunks i = none) ∧
      (∀ cc ∈ L, ∃ id,
        assocGet (L.foldl collisionsVisit w).chunkMap cc = some id ∧
        (assocGet (L.foldl collisionsVisit w).colliderChunks id).isSome) ∧
      (∀ cc ∈ L, assocGet w.chunkMap cc = none → ∃ id,
        assocGet (L.foldl collisionsVisit w).chunkMap cc = some id ∧
        assocGet (L.foldl collisionsVisit w).colliderChunks id
          = some ⟨[], []⟩) ∧
      (L.foldl collisionsVisit w).events.length = w.events.length +
        (L.filter
          (fun cc => decide (assocGet w.chunkMap cc = none))).length := by
  intro L
  induction L with
  | nil =>
    intro _ w h hF
    refine ⟨h, rfl, le_refl _, fun cc' id' hs => hs, fun i v hv => hv, hF,
      ?_, ?_, ?_⟩
    · intro cc hcc
      exact absurd hcc (List.not_mem_nil cc)
    · intro cc hcc
      exact absurd hcc (List.not_mem_nil cc)
    · simp
  | cons cc L ih =>
    intro hnd w h hF
    rw [List.nodup_cons] at hnd
    obtain ⟨hccL, hndL⟩ := hnd
    obtain ⟨V1, V2, V3, V4, V5, V6, V7, V8, V9, V10⟩ :=
      collisionsVisit_spec w cc h hF
    obtain ⟨F1, F2, F3, F4, F5, F6, F7, F8, F9⟩ :=
      ih hndL (collisionsVisit w cc) V1 V7
    have hfold : (cc :: L).foldl collisionsVisit w
        = L.foldl collisionsVisit (collisionsVisit w cc) := rfl
    rw [hfold]
    refine ⟨F1, F2.trans V2, le_trans V3 F3, ?_, ?_, F6, ?_, ?_, ?_⟩
    · intro cc' id' hs
      exact F4 cc' id' (V8 cc' id' hs)
    · intro i v hv
      exact F5 i v (V6 i v hv)
    · intro c' hc'
      rcases List.mem_cons.mp hc' with he | hm
      · subst he
        obtain ⟨id, hmap, hS⟩ := V5
        obtain ⟨v, hv⟩ := Option.isSome_iff_exists.mp hS
        exact ⟨id, F4 c' id hmap, by rw [F5 id v hv]; rfl⟩
      · exact F7 c' hm
    · intro c' hc' hnone
      rcases List.mem_cons.mp hc' with he | hm
      · subst he
        obtain ⟨id, hmap, hemp⟩ := V9 hnone
        exact ⟨id, F4 c' id hmap, F5 id _ hemp⟩
      · have hne : c' ≠ cc := fun he => hccL (he ▸ hm)
        exact F8 c' hm (by rw [V4 c' hne]; exact hnone)
    · have hfc : L.filter (fun x =>
          decide (assocGet (collisionsVisit w cc).chunkMap x = none))
          = L.filter (fun x => decide (assocGet w.chunkMap x = none)) := by
        apply List.filter_congr
        intro x hx
        have hne : x ≠ cc := fun he => hccL (he ▸ hx)
        simp only [V4 x hne]
      rw [F9, hfc, V10]
      by_cases hfr : assocGet w.chunkMap cc = none
      · simp [List.filter_cons, hfr]
        omega
      · simp [List.filter_cons, hfr]

/-- Modelled from the spec: `ensure_index` (util/lang.rs) grows the dense
array with default (`None`) entries until the index exists; composed here
with the assignment `*ensure_index(..) = obj` of `MaterialCache::get`. -/
def ensureIndexSet {D : Type} : List (Option D) → ℕ → Option D →
    List (Option D)
  | [], 0, v => [v]
  | [], n + 1, v => none :: ensureIndexSet [] n v
  | _ :: rest, 0, v => v :: rest
  | x :: rest, n + 1, v => x :: ensureIndexSet rest n v

/-- `MaterialCache::get`, one call: `lookupDesc` is the snapshot of
`registry.lookup(id).try_get::<T>()` at call time (the descriptor
component currently attached to the material's entity, if any), `cache`
the dense memo array (`Vec<Option<Obj<T>>>`), `id` the material id's
index.  Returns the call's result and the updated cache: a stored
`Some` is returned as-is (`if let Some(Some(cached))`); in every other
case the registry is consulted and the result — even a `None` — is
written through `ensure_index`. -/
def cacheGet {D : Type} (lookupDesc : ℕ → Option D)
    (cache : List (Option D)) (id : ℕ) : Option D × List (Option D) :=
  match cache.get? id with
  | some (some cached) => (some cached, cache)
  | _ => (lookupDesc id, ensureIndexSet cache id (lookupDesc id))

theorem ensureIndexSet_get {D : Type} :
    ∀ (i : ℕ) (cache : List (Option D)) (v : Option D),
      (ensureIndexSet cache i v).get? i = some v := by
  intro i
  induction i with
  | zero =>
    intro cache v
    cases cache with
    | nil => rfl
    | cons x rest => rfl
  | succ n ih =>
    intro cache v
    cases cache with
    | nil => exact ih [] v
    | cons x rest => exact ih rest v

theorem cacheGet_hit {D : Type} (lookupDesc : ℕ → Option D)
    (cache : List (Option D)) (id : ℕ) {d : D}
    (h : cache.get? id = some (some d)) :
    cacheGet lookupDesc cache id = (some d, cache) := by
  unfold cacheGet
  rw [h]

theorem cacheGet_miss {D : Type} (lookupDesc : ℕ → Option D)
    (cache : List (Option D)) (id : ℕ)
    (h : ∀ d, cache.get? id ≠ some (some d)) :
    cacheGet lookupDesc cache id
      = (lookupDesc id, ensureIndexSet cache id (lookupDesc id)) := by
  unfold cacheGet
  rcases hc : cache.get? id with _ | o
  · rfl
  · cases o with
    | none => rfl
    | some d => exact absurd hc (h d)

/-- C9.  What `MaterialCache::get` actually memoizes: a stored `Some`
answers later calls from the cache without consulting the registry, and
a miss writes the `None` result into the grown array — but because the
read path accepts only `Some(Some(..))`, the written `None` is never
answered from the cache: a later call for the same id repeats the
registry lookup, and returns whatever descriptor is attached at that
moment (in particular `Some` of a descriptor attached between the two
calls, not the memoized `None`). -/
theorem cacheGet_memoization (D : Type) (lookup1 lookup2 : ℕ → Option D)
    (cache : List (Option D)) (id : ℕ) :
    (∀ d, cache.get? id = some (some d) →
      cacheGet lookup1 cache id = (some d, cache)) ∧
    ((∀ d, cache.get? id ≠ some (some d)) →
      cacheGet lookup1 cache id
        = (lookup1 id, ensureIndexSet cache id (lookup1 id)) ∧
      (cacheGet lookup1 cache id).2.get? id = some (lookup1 id)) ∧
    (∀ d, (cacheGet lookup1 cache id).1 = some d →
      cacheGet lookup2 (cacheGet lookup1 cache id).2 id
        = (some d, (cacheGet lookup1 cache id).2)) ∧
    ((cacheGet lookup1 cache id).1 = none →
      (cacheGet lookup2 (cacheGet lookup1 cache id).2 id).1
        = lookup2 id) := by
  by_cases hhit : ∃ d, cache.get? id = some (some d)
  · obtain ⟨d0, hd0⟩ := hhit
    have heq := cacheGet_hit lookup1 cache id hd0
    refine ⟨?_, ?_, ?_, ?_⟩
    · intro d hd
      rw [hd0] at hd
      rw [heq, Option.some.inj (Option.some.inj hd)]
    · intro hmiss
      exact absurd hd0 (hmiss d0)
    · intro d hd
      rw [heq] at hd
      have hdd : d0 = d := Option.some.inj hd
      rw [heq, ← hdd]
      exact cacheGet_hit lookup2 cache id hd0
    · intro h0
      rw [heq] at h0
      exact Option.noConfusion h0
  · push_neg at hhit
    have heq := cacheGet_miss lookup1 cache id hhit
    refine ⟨?_, ?_, ?_, ?_⟩
    · intro d hd
      exact absurd hd (hhit d)
    · intro _
      refine ⟨heq, ?_⟩
      rw [heq]
      exact ensureIndexSet_get id cache (lookup1 id)
    · intro d hd
      rw [heq] at hd
      have hl : lookup1 id = some d := hd
      rw [heq]
      show cacheGet lookup2 (ensureIndexSet cache id (lookup1 id)) id
          = (some d, ensureIndexSet cache id (lookup1 id))
      apply cacheGet_hit
      rw [ensureIndexSet_get, hl]
    · intro h0
      rw [heq] at h0
      have hl : lookup1 id = none := h0
      rw [heq]
      show (cacheGet lookup2 (ensureIndexSet cache id (lookup1 id)) id).1
          = lookup2 id
      have hm2 : ∀ d, (ensureIndexSet cache id (lookup1 id)).get? id
          ≠ some (some d) := by
        intro d hd
        rw [ensureIndexSet_get, hl] at hd
        exact Option.noConfusion (Option.some.inj hd)
      rw [cacheGet_miss lookup2 (ensureIndexSet cache id (lookup1 id))
        id hm2]

/-- Witness: a miss-then-hit pair on a concrete cache, driven through the
memoization theorem: after the registry answers `some 5` for id 0, the
next call is served from the cache. -/
theorem cacheGet_memoization_witness :
    (cacheGet (fun _ => (none : Option ℕ)) [] 0).1 = none ∧
    (cacheGet (fun _ => some 5)
        (cacheGet (fun _ => (none : Option ℕ)) [] 0).2 0).1
      = (fun _ : ℕ => (some 5 : Option ℕ)) 0 :=
  ⟨rfl, (cacheGet_memoization ℕ (fun _ => none) (fun _ => some 5)
    [] 0).2.2.2 rfl⟩

/-- Counterexample to the claim's wording: the first call misses (no
descriptor attached), memoizing `none`; a descriptor is then attached,
and the second call — far from being answered `none` from the cache —
repeats the registry lookup and returns the new descriptor. -/
theorem cacheGet_returns_new_descriptor_after_memoized_miss :
    (cacheGet (fun _ => (none : Option ℕ)) [] 0).1 = none ∧
    (cacheGet (fun _ => (none : Option ℕ)) [] 0).2.get? 0 = some none ∧
    (cacheGet (fun _ => some 7)
      (cacheGet (fun _ => (none : Option ℕ)) [] 0).2 0).1 = some 7 := by
  refine ⟨rfl, rfl, rfl⟩

/-- C10.  `WorldColliders::collisions(query_box)` visits exactly the chunk
coordinates covered by the query grown by the constant 10-unit margin
(the tile size enters only through the tile mapping of the grown box,
never the margin), and for every such coordinate it leaves behind a
registered live chunk carrying a `TrackedColliderChunk` — an empty one,
freshly attached, where the coordinate had no chunk — firing one
`WorldCreatedChunk` event per previously-absent covered coordinate, even
when the region holds no colliders. -/
theorem collisions_creates_covered_chunks (w : WorldState) (aabb : Aabb)
    (h : WInv w)
    (hF : ∀ i, w.nextId ≤ i → assocGet w.colliderChunks i = none) :
    (∀ cc, cc ∈ coveredChunks w.config aabb ↔
      ∃ t ∈ (w.config.actorAabbToTile (aabb.grow ⟨10, 10⟩)).inclusiveIter,
        (TileLayerConfig.decomposeWorldPos t).1 = cc) ∧
    (∀ cc ∈ coveredChunks w.config aabb,
      ∃ id cd, assocGet (collisionsEff w aabb).chunkMap cc = some id ∧
        (collisionsEff w aabb).data id = some cd ∧ cd.world = some () ∧
        cd.pos = cc ∧
        (assocGet (collisionsEff w aabb).colliderChunks id).isSome) ∧
    (∀ cc ∈ coveredChunks w.config aabb, assocGet w.chunkMap cc = none →
      ∃ id, assocGet (collisionsEff w aabb).chunkMap cc = some id ∧
        assocGet (collisionsEff w aabb).colliderChunks id
          = some ⟨[], []⟩) ∧
    (collisionsEff w aabb).events.length = w.events.length +
      ((coveredChunks w.config aabb).filter
        (fun cc => decide (assocGet w.chunkMap cc = none))).length := by
  have hnd : (coveredChunks w.config aabb).Nodup := List.nodup_dedup _
  obtain ⟨F1, F2, F3, F4, F5, F6, F7, F8, F9⟩ :=
    collisionsFold_spec (coveredChunks w.config aabb) hnd w h hF
  have heff : collisionsEff w aabb =
      (coveredChunks w.config aabb).foldl collisionsVisit w := rfl
  refine ⟨?_, ?_, ?_, ?_⟩
  · intro cc
    unfold coveredChunks
    rw [List.mem_dedup, List.mem_map]
  · intro cc hcc
    rw [heff]
    obtain ⟨id, hmap, hS⟩ := F7 cc hcc
    obtain ⟨cd, hd, hp, hw'⟩ := F1.1 cc id hmap
    exact ⟨id, cd, hmap, hd, hw', hp, hS⟩
  · intro cc hcc hnone
    rw [heff]
    exact F8 cc hcc hnone
  · rw [heff]
    exact F9

/-- Witness: from the empty world, a unit query attaches chunks and
collider chunks for every coordinate covered by the 10-grown box, firing
one event per covered coordinate. -/
theorem collisions_creates_covered_chunks_witness :
    (collisionsEff (initialWorld cfg50) ⟨⟨0, 0⟩, ⟨1, 1⟩⟩).events.length =
      (initialWorld cfg50).events.length +
      ((coveredChunks (initialWorld cfg50).config ⟨⟨0, 0⟩, ⟨1, 1⟩⟩).filter
        (fun cc =>
          decide (assocGet (initialWorld cfg50).chunkMap cc
            = none))).length :=
  (collisions_creates_covered_chunks (initialWorld cfg50) ⟨⟨0, 0⟩, ⟨1, 1⟩⟩
    (WInv_initial cfg50) (fun i _ => rfl)).2.2.2

/-- Witness: in the two-chunk world built by creating chunks at (0,0)
and (1,0), the chunks reference each other through the facing slots. -/
theorem worldOps_neighbor_symmetry_witness :
    (runWorldOps cfg50 [WorldOp.create ⟨0, 0⟩, WorldOp.create ⟨1, 0⟩]).data 0
        = some ⟨some (), ⟨0, 0⟩, ⟨none, some 1, none, none⟩⟩ ∧
      (⟨some (), ⟨0, 0⟩, ⟨none, some 1, none, none⟩⟩ :
          ChunkData).neighbors.get TileFace.xp = some 1 ∧
      (⟨some (), ⟨1, 0⟩, ⟨some 0, none, none, none⟩⟩ :
          ChunkData).neighbors.get (TileFace.xp).invert = some 0 := by
  have h1 : (runWorldOps cfg50
        [WorldOp.create ⟨0, 0⟩, WorldOp.create ⟨1, 0⟩]).data 0
      = some ⟨some (), ⟨0, 0⟩, ⟨none, some 1, none, none⟩⟩ := by
    with_unfolding_all rfl
  have h2 : (runWorldOps cfg50
        [WorldOp.create ⟨0, 0⟩, WorldOp.create ⟨1, 0⟩]).data 1
      = some ⟨some (), ⟨1, 0⟩, ⟨some 0, none, none, none⟩⟩ := by
    with_unfolding_all rfl
  have hmain := (worldOps_neighbor_symmetry cfg50
      [WorldOp.create ⟨0, 0⟩, WorldOp.create ⟨1, 0⟩]).1
      0 ⟨some (), ⟨0, 0⟩, ⟨none, some 1, none, none⟩⟩
      1 ⟨some (), ⟨1, 0⟩, ⟨some 0, none, none, none⟩⟩
      TileFace.xp h1 rfl h2 rfl (by with_unfolding_all rfl)
  exact ⟨h1, hmain.1, hmain.2⟩

/-- `TrackedCollider`: back-pointer to the owning chunk (identified by its
coordinate) and the stored index into the chunk's parallel sequences. -/
structure TrackedData where
  chunk : Vec2i
  index : ℕ
deriving DecidableEq, Repr

/-- The collider-tracking state: per-coordinate `TrackedColliderChunk`
contents and the per-entity `TrackedCollider` components. -/
structure CollState where
  chunks : List (Vec2i × ColliderChunkData)
  tracked : List (EntityId × TrackedData)
deriving DecidableEq, Repr

/-- The chunk consulted by `get_collider_chunk_or_insert`: the stored one,
or a fresh empty one. -/
def chunkAt (s : CollState) (cc : Vec2i) : ColliderChunkData :=
  (assocGet s.chunks cc).getD ⟨[], []⟩

/-- `Vec::swap_remove(i)`: overwrite position `i` with the last element
and drop the last slot. -/
def swapRemove {α : Type} (l : List α) (i : ℕ) : List α :=
  match l[l.length - 1]? with
  | none => []
  | some last => (l.set i last).take (l.length - 1)

/-- `TrackedColliderChunk::register` (with `get_collider_chunk_or_insert`
for the target coordinate): the collider's back-pointer takes the chunk
and the pre-push length as index, then box and handle are pushed. -/
def registerIn (s : CollState) (e : EntityId) (cc : Vec2i) (aabb : Aabb) :
    CollState :=
  { chunks := assocPut s.chunks cc
      ⟨(chunkAt s cc).aabbs ++ [aabb], (chunkAt s cc).handles ++ [e]⟩,
    tracked := assocPut s.tracked e ⟨cc, (chunkAt s cc).handles.length⟩ }

/-- `TrackedColliderChunk::unregister` at a stored index: swap-remove both
parallel sequences, and if a handle now occupies the vacated index (the
moved last element), patch that collider's stored index. -/
def unregisterFrom (s : CollState) (cc : Vec2i) (i : ℕ) : CollState :=
  let newAabbs := swapRemove (chunkAt s cc).aabbs i
  let newHandles := swapRemove (chunkAt s cc).handles i
  let s1 : CollState :=
    { chunks := assocPut s.chunks cc ⟨newAabbs, newHandles⟩,
      tracked := s.tracked }
  match newHandles[i]? with
  | some moved =>
    match assocGet s.tracked moved with
    | some td =>
      { s1 with tracked := assocPut s1.tracked moved ⟨td.chunk, i⟩ }
    | none => s1
  | none => s1

/-- The collider lifecycle operations driven by the three systems. -/
inductive CollOp where
  | register (e : EntityId) (aabb : Aabb)
  | move (e : EntityId) (aabb : Aabb)
  | unregister (e : EntityId)
deriving DecidableEq, Repr

/-- One step: `sys_add_collider` for one added collider (registered into
the chunk of the box's center), `sys_move_colliders` for one changed
collider (in-place box update when the center's chunk is unchanged,
unregister-and-reregister otherwise), `sys_remove_collider` for one
removed collider. -/
def applyCollOp (cfg : TileLayerConfig) (s : CollState) : CollOp → CollState
  | CollOp.register e aabb =>
    registerIn s e (cfg.actorToDecomposed aabb.center).1 aabb
  | CollOp.move e aabb =>
    match assocGet s.tracked e with
    | none => s
    | some td =>
      if (cfg.actorToDecomposed aabb.center).1 = td.chunk then
        { s with chunks := (assocPut s.chunks td.chunk
            ⟨(chunkAt s td.chunk).aabbs.set td.index aabb,
             (chunkAt s td.chunk).handles⟩) }
      else
        registerIn (unregisterFrom s td.chunk td.index) e
          (cfg.actorToDecomposed aabb.center).1 aabb
  | CollOp.unregister e =>
    match assocGet s.tracked e with
    | none => s
    | some td =>
      { unregisterFrom s td.chunk td.index with
        tracked := assocErase (unregisterFrom s td.chunk td.index).tracked e }

/-- Result list of `WorldColliders::collisions(aabb)` over the tracking
state: for every covered chunk of the grown query, the parallel
sequences zipped (`aabbs()`) and filtered by intersection with the
unexpanded query (`intersections`). -/
def collisionsOut (cfg : TileLayerConfig) (s : CollState) (aabb : Aabb) :
    List (EntityId × Aabb) :=
  (coveredChunks cfg aabb).flatMap fun cc =>
    ((chunkAt s cc).handles.zip (chunkAt s cc).aabbs).filter fun p =>
      aabb.intersects p.2

/-- The tracking invariant, with an optional exempt entity `x` (the one
mid-flight between an unregister and the matching re-register): parallel
sequences have equal length, a handle occurs at most once, every handle
is a tracked collider (other than `x`) whose back-pointer stores this
chunk and this position, and conversely every tracked collider other
than `x` sits in its chunk's sequences at its stored index. -/
def CInvX (s : CollState) (x : Option EntityId) : Prop :=
  (∀ (cc : Vec2i) (ch : ColliderChunkData), assocGet s.chunks cc = some ch →
    ch.aabbs.length = ch.handles.length ∧
    (∀ (i j : ℕ) (e : EntityId),
      ch.handles[i]? = some e → ch.handles[j]? = some e → i = j) ∧
    (∀ (i : ℕ) (e : EntityId), ch.handles[i]? = some e →
      some e ≠ x ∧ assocGet s.tracked e = some ⟨cc, i⟩)) ∧
  (∀ (e : EntityId) (td : TrackedData), some e ≠ x →
    assocGet s.tracked e = some td →
    ∃ ch, assocGet s.chunks td.chunk = some ch ∧
      ch.handles[td.index]? = some e)

/-- The tracking invariant proper. -/
def CInv (s : CollState) : Prop := CInvX s none

/-- Lifecycle well-formedness of one operation: a register only ever
concerns an entity that is not currently tracked (`Added<Collider>`
fires once per collider). -/
def WFOp (s : CollState) : CollOp → Prop
  | CollOp.register e _ => assocGet s.tracked e = none
  | _ => True

/-- Lifecycle well-formedness of an operation sequence. -/
def WFOps (cfg : TileLayerConfig) : CollState → List CollOp → Prop
  | _, [] => True
  | s, op :: rest => WFOp s op ∧ WFOps cfg (applyCollOp cfg s op) rest

theorem swapRemove_length {α : Type} (l : List α) (i : ℕ)
    (h : 0 < l.length) : (swapRemove l i).length = l.length - 1 := by
  unfold swapRemove
  rcases hl : l[l.length - 1]? with _ | last
  · rw [List.getElem?_eq_none_iff] at hl
    omega
  · rw [List.length_take, List.length_set]
    omega

theorem swapRemove_get_lt {α : Type} (l : List α) (i j : ℕ)
    (hj : j < l.length - 1) :
    (swapRemove l i)[j]? =
      if j = i then l[l.length - 1]? else l[j]? := by
  unfold swapRemove
  rcases hl : l[l.length - 1]? with _ | last
  · rw [List.getElem?_eq_none_iff] at hl
    omega
  · rw [List.getElem?_take_of_lt hj]
    by_cases hij : j = i
    · subst hij
      rw [if_pos rfl]
      have hjlen : j < l.length := by omega
      rw [List.getElem?_set_self']
      rw [List.getElem?_eq_getElem hjlen]
      rfl
    · rw [if_neg hij, List.getElem?_set_ne (fun hh => hij hh.symm)]

theorem swapRemove_get_ge {α : Type} (l : List α) (i j : ℕ)
    (hj : l.length - 1 ≤ j) : (swapRemove l i)[j]? = none := by
  rw [List.getElem?_eq_none_iff]
  unfold swapRemove
  rcases hl : l[l.length - 1]? with _ | last
  · exact Nat.le_trans (Nat.zero_le _) hj
  · rw [List.length_take, List.length_set]
    omega

theorem CInv_empty : CInv ⟨[], []⟩ := by
  constructor
  · intro cc ch hch
    exact Option.noConfusion hch
  · intro e td _ ht
    exact Option.noConfusion ht

theorem CInvX_of_fresh {s : CollState} (h : CInv s) {e : EntityId}
    (he : assocGet s.tracked e = none) : CInvX s (some e) := by
  obtain ⟨h1, h2⟩ := h
  constructor
  · intro cc ch hch
    obtain ⟨hlen, hinj, htr⟩ := h1 cc ch hch
    refine ⟨hlen, hinj, ?_⟩
    intro i e' hi
    obtain ⟨_, hmem⟩ := htr i e' hi
    refine ⟨?_, hmem⟩
    intro hx
    rw [Option.some.inj hx, he] at hmem
    exact Option.noConfusion hmem
  · intro e' td _ ht
    exact h2 e' td (fun hx => Option.noConfusion hx) ht

theorem registerIn_CInv {s : CollState} {e : EntityId} {cc : Vec2i}
    {aabb : Aabb} (h : CInvX s (some e)) :
    CInv (registerIn s e cc aabb) := by
  obtain ⟨h1, h2⟩ := h
  have hlen0 : (chunkAt s cc).aabbs.length = (chunkAt s cc).handles.length := by
    unfold chunkAt
    rcases hch : assocGet s.chunks cc with _ | ch0
    · rfl
    · exact (h1 cc ch0 hch).1
  have hinj0 : ∀ (i j : ℕ) (e' : EntityId),
      (chunkAt s cc).handles[i]? = some e' →
      (chunkAt s cc).handles[j]? = some e' → i = j := by
    unfold chunkAt
    rcases hch : assocGet s.chunks cc with _ | ch0
    · intro i j e' hi
      exact Option.noConfusion hi
    · exact (h1 cc ch0 hch).2.1
  have htr0 : ∀ (i : ℕ) (e' : EntityId),
      (chunkAt s cc).handles[i]? = some e' →
      e' ≠ e ∧ assocGet s.tracked e' = some ⟨cc, i⟩ := by
    unfold chunkAt
    rcases hch : assocGet s.chunks cc with _ | ch0
    · intro i e' hi
      exact Option.noConfusion hi
    · intro i e' hi
      obtain ⟨hne, hmem⟩ := (h1 cc ch0 hch).2.2 i e' hi
      exact ⟨fun hee => hne (by rw [hee]), hmem⟩
  have hch : (registerIn s e cc aabb).chunks
      = assocPut s.chunks cc
          ⟨(chunkAt s cc).aabbs ++ [aabb], (chunkAt s cc).handles ++ [e]⟩ :=
    rfl
  have htrk : (registerIn s e cc aabb).tracked
      = assocPut s.tracked e ⟨cc, (chunkAt s cc).handles.length⟩ := rfl
  have hsplit : ∀ (k : ℕ) (e' : EntityId),
      ((chunkAt s cc).handles ++ [e])[k]? = some e' →
      (k < (chunkAt s cc).handles.length ∧
        (chunkAt s cc).handles[k]? = some e') ∨
      (k = (chunkAt s cc).handles.length ∧ e' = e) := by
    intro k e' hk
    rcases Nat.lt_trichotomy k (chunkAt s cc).handles.length with hlt | heq | hgt
    · left
      refine ⟨hlt, ?_⟩
      rw [List.getElem?_append_left hlt] at hk
      exact hk
    · right
      refine ⟨heq, ?_⟩
      subst heq
      rw [List.getElem?_concat_length] at hk
      exact (Option.some.inj hk).symm
    · exfalso
      have hnone : ((chunkAt s cc).handles ++ [e])[k]? = none := by
        rw [List.getElem?_eq_none_iff, List.length_append]
        simp only [List.length_cons, List.length_nil]
        omega
      rw [hnone] at hk
      exact Option.noConfusion hk
  constructor
  · intro cc' ch' hch'
    rw [hch] at hch'
    rcases eq_or_ne cc' cc with he' | hne'
    · subst he'
      rw [assocGet_put_same] at hch'
      cases Option.some.inj hch'
      refine ⟨?_, ?_, ?_⟩
      · show ((chunkAt s cc').aabbs ++ [aabb]).length
            = ((chunkAt s cc').handles ++ [e]).length
        rw [List.length_append, List.length_append]
        rw [hlen0]
        rfl
      · intro i j e' hi hj
        rcases hsplit i e' hi with ⟨hilt, hiH⟩ | ⟨hieq, hie⟩
        · rcases hsplit j e' hj with ⟨hjlt, hjH⟩ | ⟨hjeq, hje⟩
          · exact hinj0 i j e' hiH hjH
          · exact absurd hje (htr0 i e' hiH).1
        · rcases hsplit j e' hj with ⟨hjlt, hjH⟩ | ⟨hjeq, hje⟩
          · exact absurd hie (htr0 j e' hjH).1
          · rw [hieq, hjeq]
      · intro i e' hi
        rcases hsplit i e' hi with ⟨hilt, hiH⟩ | ⟨hieq, hie⟩
        · obtain ⟨hne, hmem⟩ := htr0 i e' hiH
          refine ⟨fun hx => Option.noConfusion hx, ?_⟩
          rw [htrk, assocGet_put_other s.tracked _ hne]
          exact hmem
        · refine ⟨fun hx => Option.noConfusion hx, ?_⟩
          rw [htrk, hie, hieq]
          exact assocGet_put_same _ _ _
    · rw [assocGet_put_other s.chunks _ hne'] at hch'
      obtain ⟨hlen', hinj', htr'⟩ := h1 cc' ch' hch'
      refine ⟨hlen', hinj', ?_⟩
      intro i e' hi
      obtain ⟨hnex, hmem⟩ := htr' i e' hi
      have hne2 : e' ≠ e := fun hee => hnex (by rw [hee])
      refine ⟨fun hx => Option.noConfusion hx, ?_⟩
      rw [htrk, assocGet_put_other s.tracked _ hne2]
      exact hmem
  · intro e' td' _ ht'
    rw [htrk] at ht'
    rcases eq_or_ne e' e with he' | hne'
    · subst he'
      rw [assocGet_put_same] at ht'
      cases Option.some.inj ht'
      refine ⟨⟨(chunkAt s cc).aabbs ++ [aabb],
        (chunkAt s cc).handles ++ [e']⟩, ?_, ?_⟩
      · rw [hch]
        exact assocGet_put_same _ _ _
      · show ((chunkAt s cc).handles ++ [e'])[(chunkAt s cc).handles.length]?
            = some e'
        rw [List.getElem?_concat_length]
    · rw [assocGet_put_other s.tracked _ hne'] at ht'
      obtain ⟨ch0, hch0, hpos⟩ :=
        h2 e' td' (fun hx => hne' (Option.some.inj hx)) ht'
      rcases eq_or_ne td'.chunk cc with hc | hc
      · have hcc2 : chunkAt s cc = ch0 := by
          unfold chunkAt
          rw [← hc, hch0]
          rfl
        refine ⟨⟨(chunkAt s cc).aabbs ++ [aabb],
          (chunkAt s cc).handles ++ [e]⟩, ?_, ?_⟩
        · rw [hch, hc]
          exact assocGet_put_same _ _ _
        · obtain ⟨hlt, _⟩ := List.getElem?_eq_some_iff.mp hpos
          have hlt2 : td'.index < (chunkAt s cc).handles.length := by
            rw [hcc2]
            exact hlt
          rw [List.getElem?_append_left hlt2, hcc2]
          exact hpos
      · refine ⟨ch0, ?_, hpos⟩
        rw [hch, assocGet_put_other s.chunks _ hc]
        exact hch0

theorem setAabb_CInv {s : CollState} (h : CInv s) {e : EntityId}
    {td : TrackedData} (ht : assocGet s.tracked e = some td) (aabb : Aabb) :
    CInv { s with chunks := (assocPut s.chunks td.chunk
      ⟨(chunkAt s td.chunk).aabbs.set td.index aabb,
       (chunkAt s td.chunk).handles⟩) } := by
  obtain ⟨h1, h2⟩ := h
  obtain ⟨ch0, hch0, hpos0⟩ := h2 e td (fun hx => Option.noConfusion hx) ht
  have hcc : chunkAt s td.chunk = ch0 := by
    unfold chunkAt
    rw [hch0]
    rfl
  constructor
  · intro cc' ch' hch'
    have hch2 : assocGet (assocPut s.chunks td.chunk
        ⟨(chunkAt s td.chunk).aabbs.set td.index aabb,
         (chunkAt s td.chunk).handles⟩) cc' = some ch' := hch'
    rw [hcc] at hch2
    rcases eq_or_ne cc' td.chunk with he' | hne'
    · subst he'
      rw [assocGet_put_same] at hch2
      cases Option.some.inj hch2
      obtain ⟨hlen, hinj, htr⟩ := h1 td.chunk ch0 hch0
      refine ⟨?_, hinj, htr⟩
      show (ch0.aabbs.set td.index aabb).length = ch0.handles.length
      rw [List.length_set]
      exact hlen
    · rw [assocGet_put_other s.chunks _ hne'] at hch2
      exact h1 cc' ch' hch2
  · intro e' td' hx ht'
    have ht2 : assocGet s.tracked e' = some td' := ht'
    obtain ⟨ch0', hch0', hpos'⟩ := h2 e' td' hx ht2
    rcases eq_or_ne td'.chunk td.chunk with he' | hne'
    · refine ⟨⟨ch0.aabbs.set td.index aabb, ch0.handles⟩, ?_, ?_⟩
      · show assocGet (assocPut s.chunks td.chunk
            ⟨(chunkAt s td.chunk).aabbs.set td.index aabb,
             (chunkAt s td.chunk).handles⟩) td'.chunk = _
        rw [hcc, he']
        exact assocGet_put_same _ _ _
      · show ch0.handles[td'.index]? = some e'
        rw [he', hch0] at hch0'
        cases Option.some.inj hch0'
        exact hpos'
    · refine ⟨ch0', ?_, hpos'⟩
      show assocGet (assocPut s.chunks td.chunk
          ⟨(chunkAt s td.chunk).aabbs.set td.index aabb,
           (chunkAt s td.chunk).handles⟩) td'.chunk = some ch0'
      rw [assocGet_put_other s.chunks _ hne']
      exact hch0'

theorem unregisterFrom_CInvX {s : CollState} (h : CInv s)
    {e : EntityId} {td : TrackedData}
    (ht : assocGet s.tracked e = some td) :
    CInvX (unregisterFrom s td.chunk td.index) (some e) ∧
    assocGet (unregisterFrom s td.chunk td.index).tracked e = some td := by
  obtain ⟨h1, h2⟩ := h
  obtain ⟨ch0, hch0, hpos⟩ := h2 e td (fun hx => Option.noConfusion hx) ht
  have hcc : chunkAt s td.chunk = ch0 := by
    unfold chunkAt
    rw [hch0]
    rfl
  obtain ⟨hlen0, hinj0, htr0⟩ := h1 td.chunk ch0 hch0
  obtain ⟨hIlt, _⟩ := List.getElem?_eq_some_iff.mp hpos
  have hn0 : 0 < ch0.handles.length := by omega
  have hlenNew : (swapRemove (chunkAt s td.chunk).aabbs td.index).length
      = (swapRemove (chunkAt s td.chunk).handles td.index).length := by
    rw [hcc, swapRemove_length _ _ (by omega),
      swapRemove_length _ _ hn0, hlen0]
  have hinjNew : ∀ (i j : ℕ) (e' : EntityId),
      (swapRemove (chunkAt s td.chunk).handles td.index)[i]? = some e' →
      (swapRemove (chunkAt s td.chunk).handles td.index)[j]? = some e' →
      i = j := by
    rw [hcc]
    intro i j e' hi hj
    have hi' : i < ch0.handles.length - 1 := by
      by_contra hge
      rw [swapRemove_get_ge _ _ _ (by omega)] at hi
      exact Option.noConfusion hi
    have hj' : j < ch0.handles.length - 1 := by
      by_contra hge
      rw [swapRemove_get_ge _ _ _ (by omega)] at hj
      exact Option.noConfusion hj
    rw [swapRemove_get_lt _ _ _ hi'] at hi
    rw [swapRemove_get_lt _ _ _ hj'] at hj
    by_cases hie : i = td.index <;> by_cases hje : j = td.index
    · rw [hie, hje]
    · rw [if_pos hie] at hi
      rw [if_neg hje] at hj
      have hd := hinj0 (ch0.handles.length - 1) j e' hi hj
      omega
    · rw [if_neg hie] at hi
      rw [if_pos hje] at hj
      have hd := hinj0 i (ch0.handles.length - 1) e' hi hj
      omega
    · rw [if_neg hie] at hi
      rw [if_neg hje] at hj
      exact hinj0 i j e' hi hj
  have hother_ne : ∀ (i : ℕ) (e' : EntityId), i ≠ td.index →
      ch0.handles[i]? = some e' → e' ≠ e := by
    intro i e' hne hi hee
    rw [hee] at hi
    exact hne (hinj0 i td.index e hi hpos)
  rcases Nat.lt_or_ge td.index (ch0.handles.length - 1) with hilt | hige
  · -- the vacated slot is refilled by the moved last element
    obtain ⟨last, hlast⟩ : ∃ a, ch0.handles[ch0.handles.length - 1]? = some a :=
      ⟨ch0.handles[ch0.handles.length - 1], List.getElem?_eq_getElem (by omega)⟩
    have hlastne : last ≠ e := hother_ne _ last (by omega) hlast
    have hlastTr : assocGet s.tracked last
        = some ⟨td.chunk, ch0.handles.length - 1⟩ :=
      (htr0 (ch0.handles.length - 1) last hlast).2
    have hscrut :
        (swapRemove (chunkAt s td.chunk).handles td.index)[td.index]?
          = some last := by
      rw [hcc, swapRemove_get_lt _ _ _ hilt, if_pos rfl]
      exact hlast
    have hres : unregisterFrom s td.chunk td.index =
        { chunks := assocPut s.chunks td.chunk
            ⟨swapRemove (chunkAt s td.chunk).aabbs td.index,
             swapRemove (chunkAt s td.chunk).handles td.index⟩,
          tracked := assocPut s.tracked last ⟨td.chunk, td.index⟩ } := by
      unfold unregisterFrom
      simp only [hscrut, hlastTr]
    rw [hres]
    refine ⟨⟨?_, ?_⟩, ?_⟩
    · intro cc' ch' hch'
      have hch2 : assocGet (assocPut s.chunks td.chunk
          ⟨swapRemove (chunkAt s td.chunk).aabbs td.index,
           swapRemove (chunkAt s td.chunk).handles td.index⟩) cc'
          = some ch' := hch'
      rcases eq_or_ne cc' td.chunk with he' | hne'
      · subst he'
        rw [assocGet_put_same] at hch2
        cases Option.some.inj hch2
        refine ⟨hlenNew, hinjNew, ?_⟩
        intro i e' hi
        have hi2 : (swapRemove ch0.handles td.index)[i]? = some e' := by
          rw [← hcc]
          exact hi
        have hi' : i < ch0.handles.length - 1 := by
          by_contra hge
          rw [swapRemove_get_ge _ _ _ (by omega)] at hi2
          exact Option.noConfusion hi2
        rw [swapRemove_get_lt _ _ _ hi'] at hi2
        by_cases hie : i = td.index
        · rw [if_pos hie] at hi2
          rw [hlast] at hi2
          cases Option.some.inj hi2
          refine ⟨fun hx => hlastne (Option.some.inj hx), ?_⟩
          show assocGet (assocPut s.tracked last ⟨td.chunk, td.index⟩) last = _
          rw [assocGet_put_same, hie]
        · rw [if_neg hie] at hi2
          have hne2 : e' ≠ e := hother_ne i e' hie hi2
          have hnel : e' ≠ last := by
            intro hee
            rw [hee] at hi2
            have := hinj0 i (ch0.handles.length - 1) last hi2 hlast
            omega
          refine ⟨fun hx => hne2 (Option.some.inj hx), ?_⟩
          show assocGet (assocPut s.tracked last ⟨td.chunk, td.index⟩) e' = _
          rw [assocGet_put_other s.tracked _ hnel]
          exact (htr0 i e' hi2).2
      · rw [assocGet_put_other s.chunks _ hne'] at hch2
        obtain ⟨hlen', hinj', htr'⟩ := h1 cc' ch' hch2
        refine ⟨hlen', hinj', ?_⟩
        intro i e' hi
        obtain ⟨_, hmem⟩ := htr' i e' hi
        have hne2 : e' ≠ e := by
          intro hee
          rw [hee, ht] at hmem
          exact hne' (congrArg TrackedData.chunk
            (Option.some.inj hmem)).symm
        have hnel : e' ≠ last := by
          intro hee
          rw [hee, hlastTr] at hmem
          exact hne' (congrArg TrackedData.chunk
            (Option.some.inj hmem)).symm
        refine ⟨fun hx => hne2 (Option.some.inj hx), ?_⟩
        show assocGet (assocPut s.tracked last ⟨td.chunk, td.index⟩) e' = _
        rw [assocGet_put_other s.tracked _ hnel]
        exact hmem
    · intro e' td' hx ht'
      have ht2 : assocGet (assocPut s.tracked last ⟨td.chunk, td.index⟩) e'
          = some td' := ht'
      have hxe : e' ≠ e := fun hee => hx (by rw [hee])
      rcases eq_or_ne e' last with hel | hnel
      · subst hel
        rw [assocGet_put_same] at ht2
        cases Option.some.inj ht2
        refine ⟨⟨swapRemove (chunkAt s td.chunk).aabbs td.index,
          swapRemove (chunkAt s td.chunk).handles td.index⟩, ?_, ?_⟩
        · show assocGet (assocPut s.chunks td.chunk _)
              (⟨td.chunk, td.index⟩ : TrackedData).chunk = _
          exact assocGet_put_same _ _ _
        · exact hscrut
      · rw [assocGet_put_other s.tracked _ hnel] at ht2
        obtain ⟨ch0', hch0', hpos'⟩ :=
          h2 e' td' (fun hh => Option.noConfusion hh) ht2
        rcases eq_or_ne td'.chunk td.chunk with hc | hc
        · rw [hc, hch0] at hch0'
          cases Option.some.inj hch0'
          have hii : td'.index ≠ td.index := by
            intro hee
            rw [hee] at hpos'
            rw [hpos'] at hpos
            exact hxe (Option.some.inj hpos)
          have hin1 : td'.index ≠ ch0.handles.length - 1 := by
            intro hee
            rw [hee, hlast] at hpos'
            exact hnel (Option.some.inj hpos').symm
          obtain ⟨hlt', _⟩ := List.getElem?_eq_some_iff.mp hpos'
          refine ⟨⟨swapRemove (chunkAt s td.chunk).aabbs td.index,
            swapRemove (chunkAt s td.chunk).handles td.index⟩, ?_, ?_⟩
          · show assocGet (assocPut s.chunks td.chunk _) td'.chunk = _
            rw [hc]
            exact assocGet_put_same _ _ _
          · show (swapRemove (chunkAt s td.chunk).handles td.index)[td'.index]?
                = some e'
            rw [hcc, swapRemove_get_lt _ _ _ (by omega), if_neg hii]
            exact hpos'
        · refine ⟨ch0', ?_, hpos'⟩
          show assocGet (assocPut s.chunks td.chunk _) td'.chunk = some ch0'
          rw [assocGet_put_other s.chunks _ hc]
          exact hch0'
    · show assocGet (assocPut s.tracked last ⟨td.chunk, td.index⟩) e = some td
      rw [assocGet_put_other s.tracked _ (fun hh => hlastne hh.symm)]
      exact ht
  · -- the unregistered collider occupied the last slot: nothing moves
    have hieq : td.index = ch0.handles.length - 1 := by omega
    have hscrut :
        (swapRemove (chunkAt s td.chunk).handles td.index)[td.index]?
          = none := by
      rw [hcc]
      exact swapRemove_get_ge _ _ _ (by omega)
    have hres : unregisterFrom s td.chunk td.index =
        { chunks := assocPut s.chunks td.chunk
            ⟨swapRemove (chunkAt s td.chunk).aabbs td.index,
             swapRemove (chunkAt s td.chunk).handles td.index⟩,
          tracked := s.tracked } := by
      unfold unregisterFrom
      simp only [hscrut]
    rw [hres]
    refine ⟨⟨?_, ?_⟩, ?_⟩
    · intro cc' ch' hch'
      have hch2 : assocGet (assocPut s.chunks td.chunk
          ⟨swapRemove (chunkAt s td.chunk).aabbs td.index,
           swapRemove (chunkAt s td.chunk).handles td.index⟩) cc'
          = some ch' := hch'
      rcases eq_or_ne cc' td.chunk with he' | hne'
      · subst he'
        rw [assocGet_put_same] at hch2
        cases Option.some.inj hch2
        refine ⟨hlenNew, hinjNew, ?_⟩
        intro i e' hi
        have hi2 : (swapRemove ch0.handles td.index)[i]? = some e' := by
          rw [← hcc]
          exact hi
        have hi' : i < ch0.handles.length - 1 := by
          by_contra hge
          rw [swapRemove_get_ge _ _ _ (by omega)] at hi2
          exact Option.noConfusion hi2
        have hie : i ≠ td.index := by omega
        rw [swapRemove_get_lt _ _ _ hi', if_neg hie] at hi2
        have hne2 : e' ≠ e := hother_ne i e' hie hi2
        exact ⟨fun hx => hne2 (Option.some.inj hx), (htr0 i e' hi2).2⟩
      · rw [assocGet_put_other s.chunks _ hne'] at hch2
        obtain ⟨hlen', hinj', htr'⟩ := h1 cc' ch' hch2
        refine ⟨hlen', hinj', ?_⟩
        intro i e' hi
        obtain ⟨_, hmem⟩ := htr' i e' hi
        have hne2 : e' ≠ e := by
          intro hee
          rw [hee, ht] at hmem
          exact hne' (congrArg TrackedData.chunk
            (Option.some.inj hmem)).symm
        exact ⟨fun hx => hne2 (Option.some.inj hx), hmem⟩
    · intro e' td' hx ht'
      have ht2 : assocGet s.tracked e' = some td' := ht'
      have hxe : e' ≠ e := fun hee => hx (by rw [hee])
      obtain ⟨ch0', hch0', hpos'⟩ :=
        h2 e' td' (fun hh => Option.noConfusion hh) ht2
      rcases eq_or_ne td'.chunk td.chunk with hc | hc
      · rw [hc, hch0] at hch0'
        cases Option.some.inj hch0'
        have hii : td'.index ≠ td.index := by
          intro hee
          rw [hee] at hpos'
          rw [hpos'] at hpos
          exact hxe (Option.some.inj hpos)
        obtain ⟨hlt', _⟩ := List.getElem?_eq_some_iff.mp hpos'
        refine ⟨⟨swapRemove (chunkAt s td.chunk).aabbs td.index,
          swapRemove (chunkAt s td.chunk).handles td.index⟩, ?_, ?_⟩
        · show assocGet (assocPut s.chunks td.chunk _) td'.chunk = _
          rw [hc]
          exact assocGet_put_same _ _ _
        · show (swapRemove (chunkAt s td.chunk).handles td.index)[td'.index]?
              = some e'
          rw [hcc, swapRemove_get_lt _ _ _ (by omega), if_neg hii]
          exact hpos'
      · refine ⟨ch0', ?_, hpos'⟩
        show assocGet (assocPut s.chunks td.chunk _) td'.chunk = some ch0'
        rw [assocGet_put_other s.chunks _ hc]
        exact hch0'
    · exact ht

theorem CInv_eraseTracked {s : CollState} {e : EntityId}
    (h : CInvX s (some e)) :
    CInv { s with tracked := assocErase s.tracked e } := by
  obtain ⟨h1, h2⟩ := h
  constructor
  · intro cc ch hch
    obtain ⟨hlen, hinj, htr⟩ := h1 cc ch hch
    refine ⟨hlen, hinj, ?_⟩
    intro i e' hi
    obtain ⟨hnex, hmem⟩ := htr i e' hi
    have hne : e' ≠ e := fun hee => hnex (by rw [hee])
    refine ⟨fun hx => Option.noConfusion hx, ?_⟩
    show assocGet (assocErase s.tracked e) e' = _
    rw [assocGet_erase_other s.tracked hne]
    exact hmem
  · intro e' td _ ht'
    rcases eq_or_ne e' e with he' | hne'
    · subst he'
      have ht2 : assocGet (assocErase s.tracked e') e' = some td := ht'
      rw [assocGet_erase_same] at ht2
      exact Option.noConfusion ht2
    · have ht2 : assocGet (assocErase s.tracked e) e' = some td := ht'
      rw [assocGet_erase_other s.tracked hne'] at ht2
      exact h2 e' td (fun hx => hne' (Option.some.inj hx)) ht2

theorem applyCollOp_CInv {cfg : TileLayerConfig} {s : CollState}
    (h : CInv s) (op : CollOp) (hwf : WFOp s op) :
    CInv (applyCollOp cfg s op) := by
  cases op with
  | register e aabb =>
    exact registerIn_CInv (CInvX_of_fresh h hwf)
  | move e aabb =>
    show CInv (match assocGet s.tracked e with
      | none => s
      | some td =>
        if (cfg.actorToDecomposed aabb.center).1 = td.chunk then
          { s with chunks := (assocPut s.chunks td.chunk
              ⟨(chunkAt s td.chunk).aabbs.set td.index aabb,
               (chunkAt s td.chunk).handles⟩) }
        else
          registerIn (unregisterFrom s td.chunk td.index) e
            (cfg.actorToDecomposed aabb.center).1 aabb)
    rcases ht : assocGet s.tracked e with _ | td
    · exact h
    · show CInv (if (cfg.actorToDecomposed aabb.center).1 = td.chunk then
          { s with chunks := (assocPut s.chunks td.chunk
              ⟨(chunkAt s td.chunk).aabbs.set td.index aabb,
               (chunkAt s td.chunk).handles⟩) }
        else
          registerIn (unregisterFrom s td.chunk td.index) e
            (cfg.actorToDecomposed aabb.center).1 aabb)
      by_cases hpos : (cfg.actorToDecomposed aabb.center).1 = td.chunk
      · rw [if_pos hpos]
        exact setAabb_CInv ⟨h.1, h.2⟩ ht aabb
      · rw [if_neg hpos]
        exact registerIn_CInv (unregisterFrom_CInvX h ht).1
  | unregister e =>
    show CInv (match assocGet s.tracked e with
      | none => s
      | some td =>
        { unregisterFrom s td.chunk td.index with
          tracked := assocErase (unregisterFrom s td.chunk td.index).tracked e })
    rcases ht : assocGet s.tracked e with _ | td
    · exact h
    · have hx := unregisterFrom_CInvX h ht
      exact CInv_eraseTracked hx.1

theorem CInv_foldOps (cfg : TileLayerConfig) :
    ∀ (ops : List CollOp) (s : CollState), CInv s → WFOps cfg s ops →
      CInv (ops.foldl (applyCollOp cfg) s) := by
  intro ops
  induction ops with
  | nil =>
    intro s h _
    exact h
  | cons op rest ih =>
    intro s h hwf
    have hwf2 : WFOp s op ∧ WFOps cfg (applyCollOp cfg s op) rest := hwf
    exact ih (applyCollOp cfg s op) (applyCollOp_CInv h op hwf2.1) hwf2.2

theorem chunkAt_eq {s : CollState} {cc : Vec2i} {ch : ColliderChunkData}
    (h : assocGet s.chunks cc = some ch) : chunkAt s cc = ch := by
  unfold chunkAt
  rw [h]
  rfl

theorem chunkAt_empty {s : CollState} {cc : Vec2i}
    (h : assocGet s.chunks cc = none) : chunkAt s cc = ⟨[], []⟩ := by
  unfold chunkAt
  rw [h]
  rfl

theorem mem_collisionsOut {cfg : TileLayerConfig} {s : CollState}
    (h : CInv s) (q : Aabb) (e : EntityId) (b : Aabb) :
    (e, b) ∈ collisionsOut cfg s q ↔
      ∃ (cc : Vec2i) (i : ℕ) (ch : ColliderChunkData),
        assocGet s.tracked e = some ⟨cc, i⟩ ∧
        cc ∈ coveredChunks cfg q ∧
        assocGet s.chunks cc = some ch ∧
        ch.aabbs[i]? = some b ∧
        q.intersects b = true := by
  obtain ⟨h1, h2⟩ := h
  unfold collisionsOut
  rw [List.mem_flatMap]
  constructor
  · rintro ⟨cc, hcc, hmem⟩
    rw [List.mem_filter] at hmem
    obtain ⟨hzip, hint⟩ := hmem
    rw [List.mem_iff_getElem?] at hzip
    obtain ⟨i, hi⟩ := hzip
    rw [List.getElem?_zip_eq_some] at hi
    obtain ⟨hh, hb⟩ := hi
    rcases hchs : assocGet s.chunks cc with _ | ch
    · exfalso
      rw [chunkAt_empty hchs] at hh
      exact Option.noConfusion hh
    · rw [chunkAt_eq hchs] at hh hb
      obtain ⟨_, htr⟩ := (h1 cc ch hchs).2.2 i e hh
      exact ⟨cc, i, ch, htr, hcc, hchs, hb, hint⟩
  · rintro ⟨cc, i, ch, htr, hcc, hchs, hb, hint⟩
    refine ⟨cc, hcc, ?_⟩
    rw [List.mem_filter]
    obtain ⟨ch', hch', hpos⟩ :=
      h2 e ⟨cc, i⟩ (fun hx => Option.noConfusion hx) htr
    have hch2 : assocGet s.chunks cc = some ch' := hch'
    rw [hchs] at hch2
    cases Option.some.inj hch2
    refine ⟨?_, hint⟩
    rw [List.mem_iff_getElem?]
    refine ⟨i, ?_⟩
    rw [List.getElem?_zip_eq_some, chunkAt_eq hchs]
    exact ⟨hpos, hb⟩

theorem collisionsOut_tracked_of_mem
    {s : CollState} (h : CInv s) (q : Aabb) (cc : Vec2i) (a : EntityId)
    (ha : a ∈ (((chunkAt s cc).handles.zip (chunkAt s cc).aabbs).filter
      (fun p => q.intersects p.2)).map Prod.fst) :
    ∃ i, assocGet s.tracked a = some ⟨cc, i⟩ := by
  obtain ⟨h1, _⟩ := h
  rw [List.mem_map] at ha
  obtain ⟨p, hp, hfst⟩ := ha
  rw [List.mem_filter] at hp
  obtain ⟨hzip, _⟩ := hp
  rw [List.mem_iff_getElem?] at hzip
  obtain ⟨i, hi⟩ := hzip
  rw [List.getElem?_zip_eq_some] at hi
  obtain ⟨hh, _⟩ := hi
  rcases hchs : assocGet s.chunks cc with _ | ch
  · exfalso
    rw [chunkAt_empty hchs] at hh
    exact Option.noConfusion hh
  · rw [chunkAt_eq hchs] at hh
    rw [hfst] at hh
    exact ⟨i, ((h1 cc ch hchs).2.2 i a hh).2⟩

theorem collisionsOut_nodup {cfg : TileLayerConfig} {s : CollState}
    (h : CInv s) (q : Aabb) :
    ((collisionsOut cfg s q).map Prod.fst).Nodup := by
  have hinv := h
  obtain ⟨h1, h2⟩ := h
  unfold collisionsOut
  rw [List.map_flatMap, List.flatMap_def, List.nodup_flatten]
  constructor
  · intro lst hlst
    rw [List.mem_map] at hlst
    obtain ⟨cc, hcc, rfl⟩ := hlst
    have hnodupH : (chunkAt s cc).handles.Nodup := by
      rcases hchs : assocGet s.chunks cc with _ | ch
      · rw [chunkAt_empty hchs]
        exact List.nodup_nil
      · rw [chunkAt_eq hchs]
        rw [List.nodup_iff_injective_get]
        intro a b heq
        have ha : ch.handles[a.1]? = some (ch.handles.get a) := by
          rw [List.getElem?_eq_getElem a.2]
          rfl
        have hb2 : ch.handles[b.1]? = some (ch.handles.get b) := by
          rw [List.getElem?_eq_getElem b.2]
          rfl
        rw [heq] at ha
        exact Fin.ext ((h1 cc ch hchs).2.1 a.1 b.1 _ ha hb2)
    have hlen : (chunkAt s cc).handles.length
        ≤ (chunkAt s cc).aabbs.length := by
      rcases hchs : assocGet s.chunks cc with _ | ch
      · rw [chunkAt_empty hchs]
        exact Nat.le_refl _
      · rw [chunkAt_eq hchs, (h1 cc ch hchs).1]
    have hzipfst :
        ((chunkAt s cc).handles.zip (chunkAt s cc).aabbs).map Prod.fst
          = (chunkAt s cc).handles :=
      List.map_fst_zip _ _ hlen
    have hsub0 : (((chunkAt s cc).handles.zip (chunkAt s cc).aabbs).filter
        (fun p => q.intersects p.2)).Sublist
        ((chunkAt s cc).handles.zip (chunkAt s cc).aabbs) :=
      List.filter_sublist _
    have hsub := List.Sublist.map Prod.fst hsub0
    rw [hzipfst] at hsub
    exact List.Nodup.sublist hsub hnodupH
  · rw [List.pairwise_map]
    have hnd : List.Pairwise (fun a b => a ≠ b) (coveredChunks cfg q) :=
      List.nodup_dedup _
    refine List.Pairwise.imp ?_ hnd
    intro cc cc' hne a ha1 ha2
    obtain ⟨i, hi⟩ := collisionsOut_tracked_of_mem hinv q cc a ha1
    obtain ⟨i', hi'⟩ := collisionsOut_tracked_of_mem hinv q cc' a ha2
    rw [hi] at hi'
    exact hne (congrArg TrackedData.chunk (Option.some.inj hi'))

/-- C4.  After every lifecycle-legal sequence of register, same-chunk
update, chunk transfer and unregister operations: the parallel sequences
of every chunk have equal length, every live tracked collider's stored
index is exactly its position in its owning chunk's sequences (kept
correct across swap-removes by the moved-element patch), and
`collisions(box)` yields, without duplicates, exactly the live colliders
that sit in a chunk covered by the 10-grown query and whose stored box
intersects it.  A live collider registered in a chunk outside the grown
query's coverage is missing from the result even when its box intersects
the query — the "none missing" reading of the claim fails. -/
theorem collOps_index_consistent (cfg : TileLayerConfig) (ops : List CollOp)
    (hwf : WFOps cfg ⟨[], []⟩ ops) :
    CInv (ops.foldl (applyCollOp cfg) ⟨[], []⟩) ∧
    (∀ (e : EntityId) (td : TrackedData),
      assocGet (ops.foldl (applyCollOp cfg) ⟨[], []⟩).tracked e = some td →
      ∃ ch, assocGet (ops.foldl (applyCollOp cfg) ⟨[], []⟩).chunks td.chunk
          = some ch ∧ ch.handles[td.index]? = some e ∧
        ch.aabbs.length = ch.handles.length) ∧
    (∀ (q : Aabb) (e : EntityId) (b : Aabb),
      (e, b) ∈ collisionsOut cfg (ops.foldl (applyCollOp cfg) ⟨[], []⟩) q ↔
      ∃ (cc : Vec2i) (i : ℕ) (ch : ColliderChunkData),
        assocGet (ops.foldl (applyCollOp cfg) ⟨[], []⟩).tracked e
          = some ⟨cc, i⟩ ∧
        cc ∈ coveredChunks cfg q ∧
        assocGet (ops.foldl (applyCollOp cfg) ⟨[], []⟩).chunks cc = some ch ∧
        ch.aabbs[i]? = some b ∧ q.intersects b = true) ∧
    (∀ q : Aabb,
      ((collisionsOut cfg (ops.foldl (applyCollOp cfg) ⟨[], []⟩) q).map
        Prod.fst).Nodup) := by
  have hinv := CInv_foldOps cfg ops ⟨[], []⟩ CInv_empty hwf
  refine ⟨hinv, ?_, ?_, ?_⟩
  · intro e td ht
    obtain ⟨ch, hch, hpos⟩ :=
      hinv.2 e td (fun hx => Option.noConfusion hx) ht
    exact ⟨ch, hch, hpos, (hinv.1 td.chunk ch hch).1⟩
  · intro q e b
    exact mem_collisionsOut hinv q e b
  · intro q
    exact collisionsOut_nodup hinv q

/-- Witness: a collider with box [1,2]² registered by entity 3 lands in
chunk (0,0), is tracked at index 0 there, and is reported by a collision
query of [0,3]². -/
theorem collOps_index_consistent_witness :
    (3, (⟨⟨1, 1⟩, ⟨2, 2⟩⟩ : Aabb)) ∈ collisionsOut cfg50
      (([CollOp.register 3 ⟨⟨1, 1⟩, ⟨2, 2⟩⟩]).foldl (applyCollOp cfg50)
        ⟨[], []⟩) ⟨⟨0, 0⟩, ⟨3, 3⟩⟩ :=
  ((collOps_index_consistent cfg50 [CollOp.register 3 ⟨⟨1, 1⟩, ⟨2, 2⟩⟩]
      ⟨rfl, trivial⟩).2.2.1
    ⟨⟨0, 0⟩, ⟨3, 3⟩⟩ 3 ⟨⟨1, 1⟩, ⟨2, 2⟩⟩).mpr
    ⟨⟨0, 0⟩, 0, ⟨[⟨⟨1, 1⟩, ⟨2, 2⟩⟩], [3]⟩,
      by with_unfolding_all rfl,
      by with_unfolding_all decide,
      by with_unfolding_all rfl,
      by with_unfolding_all rfl,
      by with_unfolding_all rfl⟩

/-- Counterexample to the claim's "none missing": entity 0's box
[0,1598]² is registered by its center (799,799) into chunk (0,0); the
query [900,910]×[0,10] grown by 10 covers only chunks (1,-1) and (1,0),
so `collisions` yields nothing although the tracked collider's box
contains the whole query box. -/
theorem collisions_misses_far_chunk_collider :
    (assocGet (([CollOp.register 0 ⟨⟨0, 0⟩, ⟨1598, 1598⟩⟩]).foldl
        (applyCollOp cfg50) ⟨[], []⟩).tracked 0).isSome = true ∧
    Aabb.intersects ⟨⟨900, 0⟩, ⟨910, 10⟩⟩ ⟨⟨0, 0⟩, ⟨1598, 1598⟩⟩ = true ∧
    collisionsOut cfg50 (([CollOp.register 0 ⟨⟨0, 0⟩, ⟨1598, 1598⟩⟩]).foldl
        (applyCollOp cfg50) ⟨[], []⟩) ⟨⟨900, 0⟩, ⟨910, 10⟩⟩ = [] := by
  refine ⟨?_, ?_, ?_⟩
  · with_unfolding_all rfl
  · with_unfolding_all rfl
  · with_unfolding_all rfl

end BevyDemo
